import Mathlib

/-! FrameTimer: a frame-indexed deferred-callback timer.

Shallow embedding of `src/FrameTimer.h` (`Cybergem::FFramePayload`,
`Cybergem::FFrameTimer`) and a verification of its specification.

Modelling choices:

* The engine global `GFrameCounter`, the timer object and an observation log
  form the `World`; every member function is a function on `World`.
* `TArray<TSharedPtr<FFramePayload_Abstract>>` is a list of optional payloads
  (`none` is a null shared pointer).  A payload object is identified by the
  slot it occupies: during a pass the array only grows at its end, so a slot
  keeps its payload until the compaction loop runs.
* `uint64` members are natural numbers; the one arithmetic operation on them
  (`--FrameDelay`) is taken modulo `2 ^ 64`.  `int32` indices are natural
  numbers (arrays of `2 ^ 31` payloads are out of reach).
* A callback (`std::function<void()>`) is a named function whose body is a
  finite sequence of `Create` calls on the same timer, each passing another
  callback.  Invoking it appends `Event.invoke` to the log, then runs the body.
* The log is ghost state: it records every `Create` call, every evaluation
  pass started by `Tick` and every invocation `Func()`, with the value of
  `GFrameCounter` at that moment.
* The `for` loop of `Tick` re-reads `FramePayloads.Num()` in every iteration
  while callbacks may append, so it is modelled with an iteration budget
  (`fuel`); running out of budget is the fault `Fault.fuel`.
-/

set_option linter.unusedVariables false

namespace Cybergem

/-! ## Data model -/

deriving instance DecidableEq for Except

/-- Number of values of a `uint64`. -/
def U64 : Nat := 2 ^ 64

/-- The `float` argument of `Tick`, as the bit pattern of a binary32 value. -/
abbrev float := Nat

/-- The body of a callback: the `Create` calls it makes on the timer, in program
order.  `create FrameDelay Name Body Next` is the statement
`Timer.Create(FrameDelay, f)` where `f` is the callback called `Name` whose body
is `Body`, followed by the statements `Next`. -/
inductive Code where
  | done : Code
  | create (FrameDelay : Nat) (Name : Nat) (Body : Code) (Next : Code) : Code
deriving DecidableEq, Repr

/-- A callback value `std::function<void()>`: a name (its identity in the log)
and a body. -/
structure StdFunction where
  Name : Nat
  Body : Code
deriving DecidableEq, Repr

/-- Observable events, each stamped with the value of `GFrameCounter`. -/
inductive Event where
  /-- The call `Create(FrameDelay, Func)` was entered, `Func` being called `Name`. -/
  | create (Name : Nat) (FrameDelay : Nat) (Frame : Nat)
  /-- A call of `Tick` passed its early exit and started an evaluation pass. -/
  | pass (Frame : Nat)
  /-- The callback called `Name` was invoked (`Func()`). -/
  | invoke (Name : Nat) (Frame : Nat)
deriving DecidableEq, Repr

/-- State of a `FFramePayload<>` object: `bDone` of the abstract base class
(initialised to `false` there) and the three private members. -/
structure FFramePayload where
  bDone : Bool
  CreationFrame : Nat
  FrameDelay : Nat
  Func : StdFunction
deriving DecidableEq, Repr

/-- State of a `FFrameTimer` object.  `TickDelegate` and `TickDelegateHandle`
belong to the host ticker and are only written by `StartTicking`; they are not
modelled. -/
structure FFrameTimer where
  FramePayloads : List (Option FFramePayload)
  bTickRegistered : Bool
  LastTickFrame : Nat
deriving DecidableEq, Repr

/-- The program state: the engine frame counter, the timer, and the log. -/
structure World where
  GFrameCounter : Nat
  Timer : FFrameTimer
  Log : List Event
deriving DecidableEq, Repr

/-- Faults of the model. -/
inductive Fault where
  /-- The iteration budget given to `Tick` was used up. -/
  | fuel
  /-- An array was indexed out of range (`TArray` range check). -/
  | range
deriving DecidableEq, Repr

/-! ## Small state updates -/

/-- Append an event to the log. -/
def World.emit (e : Event) (w : World) : World :=
  { w with Log := w.Log ++ [e] }

/-- Replace the payload array. -/
def World.setPayloads (a : List (Option FFramePayload)) (w : World) : World :=
  { w with Timer := { w.Timer with FramePayloads := a } }

/-- Write the state of the payload object held in slot `self`. -/
def World.store (self : Nat) (p : FFramePayload) (w : World) : World :=
  w.setPayloads (w.Timer.FramePayloads.set self (some p))

/-- The pre-decrement `--x` on a `uint64`. -/
def decr (x : Nat) : Nat := (x + (U64 - 1)) % U64

/-! ## `FFramePayload` -/

/-- Constructor `FFramePayload(_FrameDelay, _Func)`: reads `GFrameCounter`,
coerces the delay to at least 1. -/
def FFramePayload.new (GFrameCounter _FrameDelay : Nat) (_Func : StdFunction) :
    FFramePayload :=
  { bDone := false
    CreationFrame := GFrameCounter
    FrameDelay := if _FrameDelay > 0 then _FrameDelay else 1
    Func := _Func }

/-- Member `FFramePayload_Abstract::IsDone`. -/
def FFramePayload.IsDone (p : FFramePayload) : Bool := p.bDone

/-! ## `FFrameTimer::Create` and callbacks -/

/-- Member `FFrameTimer::Create_Internal`: emplace a new payload at the end. -/
def Create_Internal (FrameDelay : Nat) (Func : StdFunction) (w : World) : World :=
  w.setPayloads
    (w.Timer.FramePayloads ++ [some (FFramePayload.new w.GFrameCounter FrameDelay Func)])

/-- Body of `FFrameTimer::Create`, the invocation `Func()` being `call`. -/
def CreateWith (call : World → World) (FrameDelay : Nat) (Func : StdFunction)
    (w : World) : World :=
  if FrameDelay = 0 then
    call (w.emit (.create Func.Name FrameDelay w.GFrameCounter))
  else
    Create_Internal FrameDelay Func (w.emit (.create Func.Name FrameDelay w.GFrameCounter))

/-- Run the body of a callback: its `Create` calls in program order. -/
def Code.run : Code → World → World
  | .done, w => w
  | .create FrameDelay Name Body Next, w =>
    Code.run Next
      (CreateWith (fun v => Code.run Body (v.emit (.invoke Name v.GFrameCounter)))
        FrameDelay ⟨Name, Body⟩ w)

/-- The invocation `Func()`: it is logged, then the body runs. -/
def StdFunction.call (Func : StdFunction) (w : World) : World :=
  Func.Body.run (w.emit (.invoke Func.Name w.GFrameCounter))

/-- Member `FFrameTimer::Create(FrameDelay, Func)`: a zero delay runs `Func` at once,
any other delay emplaces a payload. -/
def Create (FrameDelay : Nat) (Func : StdFunction) (w : World) : World :=
  CreateWith Func.call FrameDelay Func w

/-! ## Queries and subscription -/

/-- Member `FFrameTimer::Num`. -/
def Num (w : World) : Nat := w.Timer.FramePayloads.length

/-- Member `FFrameTimer::AllTimersDone`. -/
def AllTimersDone (w : World) : Bool := w.Timer.FramePayloads.length == 0

/-- Member `FFrameTimer::StartTicking`. -/
def StartTicking (w : World) : World :=
  if !w.Timer.bTickRegistered then
    { w with Timer := { w.Timer with bTickRegistered := true } }
  else w

/-! ## `FFramePayload::TickFrame` -/

/-- Member `FFramePayload::TickFrame` on the payload object `p` held in slot `self`.
The members are written back before `Func()` runs, as in the source
(`--FrameDelay`, then `bDone = true`, then `Func()`).  The result is the
returned `bDone` and the new world. -/
def TickFrame (self : Nat) (p : FFramePayload) (w : World) : Bool × World :=
  if !p.bDone && decide (w.GFrameCounter > p.CreationFrame) then
    let p1 : FFramePayload := { p with FrameDelay := decr p.FrameDelay }
    if p1.FrameDelay = 0 then
      let p2 : FFramePayload := { p1 with bDone := true }
      (p2.bDone, p2.Func.call (w.store self p2))
    else
      (p1.bDone, w.store self p1)
  else
    (p.bDone, w)

/-! ## `FFrameTimer::Tick` -/

/-- Member `TArray::RemoveAt(Index)` with its range check. -/
def RemoveAt {α : Type} (Index : Nat) (a : List α) : Except Fault (List α) :=
  if Index < a.length then .ok (a.eraseIdx Index) else .error .range

/-- The forward loop `for (i = 0; i < FramePayloads.Num(); ++i)` of `Tick`, from
index `i` on, with the `DeadPayloads` collected so far.  The bound is re-read in
every iteration.  A null pointer is collected without being ticked. -/
def TickLoop : Nat → Nat → List Nat → World → Except Fault (List Nat × World)
  | 0, _, _, _ => .error .fuel
  | fuel + 1, i, DeadPayloads, w =>
    if i < w.Timer.FramePayloads.length then
      match w.Timer.FramePayloads[i]? with
      | none => .error .range
      | some none => TickLoop fuel (i + 1) (DeadPayloads ++ [i]) w
      | some (some Payload) =>
        let r := TickFrame i Payload w
        if !r.1 then TickLoop fuel (i + 1) DeadPayloads r.2
        else TickLoop fuel (i + 1) (DeadPayloads ++ [i]) r.2
    else .ok (DeadPayloads, w)

/-- The backward loop `for (j = DeadPayloads.Num() - 1; j >= 0; --j)` of `Tick`;
the first argument is `j + 1`. -/
def RemoveLoop : Nat → List Nat → World → Except Fault World
  | 0, _, w => .ok w
  | j + 1, DeadPayloads, w =>
    match DeadPayloads[j]? with
    | none => .error .range
    | some Index =>
      match RemoveAt Index w.Timer.FramePayloads with
      | .error e => .error e
      | .ok a => RemoveLoop j DeadPayloads (w.setPayloads a)

/-- The state in which the forward loop of `Tick` starts: `LastTickFrame` is
set (and the pass is logged). -/
def beginPass (w : World) : World :=
  ({ w with Timer := { w.Timer with LastTickFrame := w.GFrameCounter } } : World).emit
    (.pass w.GFrameCounter)

/-- Member `FFrameTimer::Tick(DeltaTime)`: the returned `bool` and the new world. -/
def Tick (fuel : Nat) (DeltaTime : float) (w : World) : Except Fault (Bool × World) :=
  if AllTimersDone w || w.Timer.LastTickFrame == w.GFrameCounter then
    .ok (true, w)
  else
    match TickLoop fuel 0 [] (beginPass w) with
    | .error e => .error e
    | .ok (DeadPayloads, w1) =>
      match RemoveLoop DeadPayloads.length DeadPayloads w1 with
      | .error e => .error e
      | .ok w2 => .ok (true, w2)

/-! ## Call sequences -/

/-- A call made by the host program. -/
inductive Call where
  /-- The call `Timer.Create(FrameDelay, Func)`. -/
  | Create (FrameDelay : Nat) (Func : StdFunction)
  /-- The call `Timer.Tick(DeltaTime)`. -/
  | Tick (DeltaTime : float)
  /-- The call `Timer.StartTicking()`. -/
  | StartTicking
  /-- The engine writes `GFrameCounter`. -/
  | Frame (GFrameCounter : Nat)
deriving DecidableEq, Repr

/-- Execute one call; every `Tick` gets the budget `fuel`. -/
def Call.exec (fuel : Nat) : Call → World → Except Fault World
  | .Create FrameDelay Func, w => .ok (Cybergem.Create FrameDelay Func w)
  | .Tick DeltaTime, w =>
    match Cybergem.Tick fuel DeltaTime w with
    | .error e => .error e
    | .ok r => .ok r.2
  | .StartTicking, w => .ok (Cybergem.StartTicking w)
  | .Frame g, w => .ok { w with GFrameCounter := g }

/-- Execute a sequence of calls from left to right. -/
def run (fuel : Nat) : List Call → World → Except Fault World
  | [], w => .ok w
  | c :: cs, w =>
    match c.exec fuel w with
    | .error e => .error e
    | .ok w1 => run fuel cs w1

/-- A timer as `FFrameTimer()` leaves it: no payloads, not subscribed, and
`LastTickFrame` holding whatever the storage held (the constructor does not
write it). -/
def FFrameTimer.new (LastTickFrame : Nat) : FFrameTimer :=
  { FramePayloads := [], bTickRegistered := false, LastTickFrame := LastTickFrame }

/-- The world with a freshly constructed timer at frame `GFrameCounter`. -/
def World.fresh (GFrameCounter LastTickFrame : Nat) : World :=
  { GFrameCounter := GFrameCounter, Timer := FFrameTimer.new LastTickFrame, Log := [] }

/-! ## Closed forms used to state and prove the properties -/

/-- Append payloads to the array and events to the log. -/
def World.extend (ps : List (Option FFramePayload)) (es : List Event) (w : World) : World :=
  { w with
    Timer := { w.Timer with FramePayloads := w.Timer.FramePayloads ++ ps }
    Log := w.Log ++ es }

/-- The payloads that running a callback body at frame `g` emplaces, in order. -/
def Code.payloads (g : Nat) : Code → List (Option FFramePayload)
  | .done => []
  | .create FrameDelay Name Body Next =>
    (if FrameDelay = 0 then Code.payloads g Body
     else [some (FFramePayload.new g FrameDelay ⟨Name, Body⟩)]) ++ Code.payloads g Next

/-- The events that running a callback body at frame `g` logs, in order. -/
def Code.events (g : Nat) : Code → List Event
  | .done => []
  | .create FrameDelay Name Body Next =>
    (Event.create Name FrameDelay g ::
      (if FrameDelay = 0 then Event.invoke Name g :: Code.events g Body else [])) ++
      Code.events g Next

/-- The events that an invocation `Func()` at frame `g` logs. -/
def StdFunction.events (g : Nat) (Func : StdFunction) : List Event :=
  Event.invoke Func.Name g :: Func.Body.events g

/-- The payloads that `Create(d, f)` at frame `g` emplaces (through `f` itself
when `d` is zero). -/
def createPayloads (g d : Nat) (f : StdFunction) : List (Option FFramePayload) :=
  if d = 0 then f.Body.payloads g else [some (FFramePayload.new g d f)]

/-- The events that `Create(d, f)` at frame `g` logs. -/
def createEvents (g d : Nat) (f : StdFunction) : List Event :=
  Event.create f.Name d g :: (if d = 0 then f.events g else [])

/-- Whether `TickFrame` at frame `g` invokes the function of `p`. -/
def FFramePayload.fires (g : Nat) (p : FFramePayload) : Bool :=
  !p.bDone && decide (g > p.CreationFrame) && decide (decr p.FrameDelay = 0)

/-- The members of `p` after `TickFrame` at frame `g`. -/
def FFramePayload.tick (g : Nat) (p : FFramePayload) : FFramePayload :=
  if !p.bDone && decide (g > p.CreationFrame) then
    { p with FrameDelay := decr p.FrameDelay, bDone := decide (decr p.FrameDelay = 0) }
  else p

/-- An array entry after its iteration of the forward loop at frame `g`. -/
def tickEntry (g : Nat) : Option FFramePayload → Option FFramePayload
  | none => none
  | some p => some (p.tick g)

/-- An entry that the forward loop collects when it finds it in this state: a
null pointer, or a payload that reports done. -/
def isDead : Option FFramePayload → Bool
  | none => true
  | some p => p.bDone

/-- An entry that an iteration at frame `g` leaves alone: a payload that is not
done and was created at frame `g` or later. -/
def inert (g : Nat) : Option FFramePayload → Bool
  | none => false
  | some p => !p.bDone && decide (g ≤ p.CreationFrame)

/-- The payloads emplaced while the forward loop at frame `g` visits an entry. -/
def entryPayloads (g : Nat) : Option FFramePayload → List (Option FFramePayload)
  | none => []
  | some p => if p.fires g then p.Func.Body.payloads g else []

/-- The events logged while the forward loop at frame `g` visits an entry. -/
def entryEvents (g : Nat) : Option FFramePayload → List Event
  | none => []
  | some p => if p.fires g then p.Func.events g else []

/-- The positions of the dead entries of a list whose first entry has index `i`,
in ascending order. -/
def deadIdx : Nat → List (Option FFramePayload) → List Nat
  | _, [] => []
  | i, e :: es => (if isDead e then [i] else []) ++ deadIdx (i + 1) es

/-- The payloads emplaced during a forward loop at frame `g` over `l`. -/
def passPayloads (g : Nat) : List (Option FFramePayload) → List (Option FFramePayload)
  | [] => []
  | e :: es => entryPayloads g e ++ passPayloads g es

/-- The events logged during a forward loop at frame `g` over `l`. -/
def passEvents (g : Nat) : List (Option FFramePayload) → List Event
  | [] => []
  | e :: es => entryEvents g e ++ passEvents g es

/-- An entry that the compaction keeps. -/
def isLive (e : Option FFramePayload) : Bool := !isDead e

/-- Whether `Tick` takes its early exit. -/
def earlyExit (w : World) : Bool :=
  AllTimersDone w || w.Timer.LastTickFrame == w.GFrameCounter

/-- Closed form of an evaluation pass of `Tick` (forward loop and compaction). -/
def passSpec (w : World) : World :=
  { GFrameCounter := w.GFrameCounter
    Timer :=
      { FramePayloads :=
          (w.Timer.FramePayloads.map (tickEntry w.GFrameCounter)).filter isLive ++
            passPayloads w.GFrameCounter w.Timer.FramePayloads
        bTickRegistered := w.Timer.bTickRegistered
        LastTickFrame := w.GFrameCounter }
    Log := w.Log ++ Event.pass w.GFrameCounter :: passEvents w.GFrameCounter w.Timer.FramePayloads }

/-- Closed form of the world in which the forward loop of a pass ends, before
the compaction. -/
def loopSpec (w : World) : World :=
  { GFrameCounter := w.GFrameCounter
    Timer :=
      { FramePayloads :=
          w.Timer.FramePayloads.map (tickEntry w.GFrameCounter) ++
            passPayloads w.GFrameCounter w.Timer.FramePayloads
        bTickRegistered := w.Timer.bTickRegistered
        LastTickFrame := w.GFrameCounter }
    Log := w.Log ++ Event.pass w.GFrameCounter :: passEvents w.GFrameCounter w.Timer.FramePayloads }

/-- Closed form of `Tick`. -/
def TickSpec (w : World) : World := if earlyExit w then w else passSpec w

/-- An iteration budget that is enough for `Tick` in the world `w`: one
iteration per payload present, one per payload emplaced during the pass, and the
final test of the loop condition. -/
def passFuel (w : World) : Nat :=
  Num w + (passPayloads w.GFrameCounter w.Timer.FramePayloads).length + 1

/-- Closed form of one call. -/
def Call.spec : Call → World → World
  | .Create FrameDelay Func, w => Cybergem.Create FrameDelay Func w
  | .Tick _, w => TickSpec w
  | .StartTicking, w => Cybergem.StartTicking w
  | .Frame g, w => { w with GFrameCounter := g }

/-- Closed form of a sequence of calls. -/
def runSpec : List Call → World → World
  | [], w => w
  | c :: cs, w => runSpec cs (c.spec w)

/-- A budget that is enough for one call. -/
def Call.fuel : Call → World → Nat
  | .Tick _, w => passFuel w
  | _, _ => 0

/-- A budget that is enough for every `Tick` of a sequence of calls. -/
def runFuel : List Call → World → Nat
  | [], _ => 0
  | c :: cs, w => max (c.fuel w) (runFuel cs (c.spec w))

/-- The events one call logs. -/
def Call.events : Call → World → List Event
  | .Create FrameDelay Func, w => createEvents w.GFrameCounter FrameDelay Func
  | .Tick _, w =>
    if earlyExit w then []
    else Event.pass w.GFrameCounter :: passEvents w.GFrameCounter w.Timer.FramePayloads
  | .StartTicking, _ => []
  | .Frame _, _ => []

/-- The events a sequence of calls logs. -/
def runEvents : List Call → World → List Event
  | [], _ => []
  | c :: cs, w => c.events w ++ runEvents cs (c.spec w)

/-- The frame counter never decreases: every value the engine writes is at
least the value it replaces (`g` is the current value). -/
def nonDecreasing : Nat → List Call → Bool
  | _, [] => true
  | g, .Frame g1 :: cs => decide (g ≤ g1) && nonDecreasing g1 cs
  | g, _ :: cs => nonDecreasing g cs

/-- The passes logged so far are consistent with the timer: none lies in the
future, one at the current frame is remembered in `LastTickFrame`, and no frame
has two. -/
def PassInv (es : List Event) (w : World) : Prop :=
  (∀ f, Event.pass f ∈ es → f ≤ w.GFrameCounter) ∧
  (Event.pass w.GFrameCounter ∈ es → w.Timer.LastTickFrame = w.GFrameCounter) ∧
  (∀ f, es.count (Event.pass f) ≤ 1)

/-- An invocation of the callback called `n`. -/
def Event.isInvoke (n : Nat) : Event → Bool
  | .invoke m _ => m == n
  | _ => false

/-- A `Create` call that passes the callback called `n`. -/
def Event.isCreate (n : Nat) : Event → Bool
  | .create m _ _ => m == n
  | _ => false

/-- A payload that is not done and holds the callback called `n`. -/
def isPending (n : Nat) : Option FFramePayload → Bool
  | none => false
  | some p => !p.bDone && p.Func.Name == n

/-- How often the callback called `n` was invoked in a log. -/
def invokes (n : Nat) (es : List Event) : Nat := es.countP (Event.isInvoke n)

/-- How often the callback called `n` was passed to `Create` in a log. -/
def creates (n : Nat) (es : List Event) : Nat := es.countP (Event.isCreate n)

/-- How many payloads of an array are not done and hold the callback called `n`. -/
def pending (n : Nat) (l : List (Option FFramePayload)) : Nat := l.countP (isPending n)

/-- The earliest frame counter value at which `Tick` can run its next pass: the
current one, or the one after it when the current one was already evaluated. -/
def nextPass (w : World) : Nat :=
  if w.Timer.LastTickFrame = w.GFrameCounter then w.GFrameCounter + 1 else w.GFrameCounter

/-- Every `Create` call for the callback `n` in the log passes a `uint64` delay
`d` at a frame `F` with `D ≤ F + d`. -/
def DueFrom (n D : Nat) (es : List Event) : Prop :=
  ∀ d F, Event.create n d F ∈ es → d < U64 ∧ D ≤ F + d

/-- No invocation of the callback `n` in the log is stamped with a frame before
`D`. -/
def NotBefore (n D : Nat) (es : List Event) : Prop :=
  ∀ g, Event.invoke n g ∈ es → D ≤ g

/-- Every pending payload of the callback `n` has between 1 and `2 ^ 64 - 1`
frames left and cannot reach zero before frame `D`: it needs one pass per frame
left, the passes run at increasing frames, after its creation frame, and the
first of them at `nextPass w` or later. -/
def DueInv (n D : Nat) (w : World) : Prop :=
  ∀ p, some p ∈ w.Timer.FramePayloads → p.bDone = false → p.Func.Name = n →
    1 ≤ p.FrameDelay ∧ p.FrameDelay < U64 ∧
      D + 1 ≤ p.FrameDelay + max (p.CreationFrame + 1) (nextPass w)

/-- A payload that `Create` just made for the callback `n` at frame `g`: not
done, created at `g`, with a `uint64` delay of at least 1 that ends at `D` or
later. -/
def FreshDue (n D g : Nat) (l : List (Option FFramePayload)) : Prop :=
  ∀ p, some p ∈ l → p.Func.Name = n →
    p.bDone = false ∧ p.CreationFrame = g ∧ 1 ≤ p.FrameDelay ∧ p.FrameDelay < U64 ∧
      D ≤ g + p.FrameDelay

/-- The `Create` calls made while a callback body runs, in order, as pairs of
delay and callback: its own statements, and the calls made by the callbacks it
passes with delay zero (they run at once). -/
def Code.calls : Code → List (Nat × StdFunction)
  | .done => []
  | .create FrameDelay Name Body Next =>
    ((FrameDelay, (⟨Name, Body⟩ : StdFunction)) ::
      (if FrameDelay = 0 then Code.calls Body else [])) ++ Code.calls Next

/-- All delays that a callback body passes to `Create`, at any depth, are
`uint64` values. -/
def Code.typed : Code → Bool
  | .done => true
  | .create FrameDelay _ Body Next =>
    decide (FrameDelay < U64) && Code.typed Body && Code.typed Next

/-- The delay of a payload is a `uint64` value and so are the delays its
callback passes on. -/
def entryTyped : Option FFramePayload → Bool
  | none => true
  | some p => decide (p.FrameDelay < U64) && p.Func.Body.typed

/-- The delay passed by a `Create` call of the host, and the delays its callback
passes on, are `uint64` values. -/
def Call.typed : Call → Bool
  | .Create FrameDelay Func => decide (FrameDelay < U64) && Func.Body.typed
  | _ => true

/-- Every payload holds `uint64` delays, and every payload that is not done has
at least one frame left. -/
def DelayInv (l : List (Option FFramePayload)) : Prop :=
  ∀ e ∈ l, entryTyped e = true ∧ ∀ p, e = some p → p.bDone = false → 1 ≤ p.FrameDelay

/-- An invocation of any callback. -/
def Event.isInvokeAny : Event → Bool
  | .invoke _ _ => true
  | _ => false

/-- A `Create` call with a non-zero delay: the callback is deferred. -/
def Event.isDeferred : Event → Bool
  | .create _ d _ => d != 0
  | _ => false

/-- A `Create` call with delay zero: the callback runs at once. -/
def Event.isImmediate : Event → Bool
  | .create _ d _ => d == 0
  | _ => false

/-- How many invocations a log holds. -/
def invoked (es : List Event) : Nat := es.countP Event.isInvokeAny

/-- How many `Create` calls with a non-zero delay a log holds. -/
def deferred (es : List Event) : Nat := es.countP Event.isDeferred

/-- How many `Create` calls with delay zero a log holds. -/
def immediate (es : List Event) : Nat := es.countP Event.isImmediate

/-- How many entries of an array are payloads that are not done. -/
def live (l : List (Option FFramePayload)) : Nat := l.countP isLive

/-- An evaluation pass at a frame after `F`. -/
def Event.isPassAfter (F : Nat) : Event → Bool
  | .pass g => decide (F < g)
  | _ => false

/-- How many evaluation passes at frames after `F` a log holds. -/
def passesAfter (F : Nat) (es : List Event) : Nat := es.countP (Event.isPassAfter F)

/-- The frames of the evaluation passes of a log, in the order they ran. -/
def passFrames : List Event → List Nat
  | [] => []
  | .pass g :: es => g :: passFrames es
  | .create _ _ _ :: es => passFrames es
  | .invoke _ _ :: es => passFrames es

/-- The frames of the evaluation passes after frame `F` of a log, in order. -/
def passFramesAfter (F : Nat) (es : List Event) : List Nat :=
  (passFrames es).filter (fun g => decide (F < g))

/-- The passes logged so far ran at strictly increasing frames, none in the
future, and one at the current frame is remembered in `LastTickFrame`. -/
def SortedInv (es : List Event) (w : World) : Prop :=
  (passFrames es).Pairwise (fun a b => a < b) ∧
  (∀ f ∈ passFrames es, f ≤ w.GFrameCounter) ∧
  (w.GFrameCounter ∈ passFrames es → w.Timer.LastTickFrame = w.GFrameCounter)

/-- The `Create` calls of the host for a list of pairs of delay and callback
name; the callbacks make no call on the timer. -/
def createCalls (l : List (Nat × Nat)) : List Call :=
  l.map (fun x => Call.Create x.1 ⟨x.2, .done⟩)

/-- The calls of one frame: the engine writes the frame counter, the host makes
the `Create` calls `b.1`, `Tick` is called once, the host makes the `Create`
calls `b.2`. -/
def frameCalls (g : Nat) (b : List (Nat × Nat) × List (Nat × Nat)) : List Call :=
  Call.Frame g :: (createCalls b.1 ++ Call.Tick 0 :: createCalls b.2)

/-- The calls of the frames after frame `F`, one `Tick` per frame, the counter
advancing by one per frame. -/
def schedule (F : Nat) : List (List (Nat × Nat) × List (Nat × Nat)) → List Call
  | [] => []
  | b :: bs => frameCalls (F + 1) b ++ schedule (F + 1) bs

/-- Every delay of the list is a `uint64` value of at least 1 and, counted from
frame `g`, ends at frame `B` or before. -/
def dueBy (B g : Nat) (l : List (Nat × Nat)) : Bool :=
  l.all (fun x => decide (1 ≤ x.1) && decide (x.1 < U64) && decide (g + x.1 ≤ B))

/-- Every `Create` call of the frames after `F` is due by frame `B`. -/
def scheduleDue (B : Nat) : Nat → List (List (Nat × Nat) × List (Nat × Nat)) → Bool
  | _, [] => true
  | F, b :: bs => dueBy B (F + 1) b.1 && dueBy B (F + 1) b.2 && scheduleDue B (F + 1) bs

/-- With the `Tick` of every frame up to `g0` done: every entry is a pending
payload of a callback that makes no call on the timer, it ends at frame `B` or
before (a payload created before the current frame has lost one frame per frame
up to `g0`), and `LastTickFrame` holds none of the frames after `g0` up to
`B`. -/
def Drain (B g0 : Nat) (w : World) : Prop :=
  (∀ e ∈ w.Timer.FramePayloads, ∃ p, e = some p ∧ p.bDone = false ∧
    p.CreationFrame ≤ w.GFrameCounter ∧ 1 ≤ p.FrameDelay ∧ p.FrameDelay < U64 ∧
    p.Func.Body = Code.done ∧
    (p.CreationFrame < w.GFrameCounter → g0 + p.FrameDelay ≤ B) ∧
    (p.CreationFrame = w.GFrameCounter → w.GFrameCounter + p.FrameDelay ≤ B)) ∧
  (∀ h, g0 < h → h ≤ B → w.Timer.LastTickFrame ≠ h)

/-- How many entries of a list of `Create` arguments pass the callback called `n`. -/
def named (n : Nat) (l : List (Nat × Nat)) : Nat := l.countP (fun x => x.2 == n)

/-- How many `Create` calls of a schedule pass the callback called `n`. -/
def scheduled (n : Nat) : List (List (Nat × Nat) × List (Nat × Nat)) → Nat
  | [] => 0
  | b :: bs => named n b.1 + named n b.2 + scheduled n bs

/-! ## Sample inputs -/

/-- A world at frame 5 whose timer holds a payload that fires in the next pass
(and then schedules another callback), a null pointer, a payload that is
already done, and a payload with two frames left. -/
def samplePass : World :=
  { GFrameCounter := 5
    Timer :=
      { FramePayloads :=
          [some ⟨false, 1, 1, ⟨1, .create 2 9 .done .done⟩⟩, none,
            some ⟨true, 0, 0, ⟨2, .done⟩⟩, some ⟨false, 1, 2, ⟨3, .done⟩⟩]
        bTickRegistered := false
        LastTickFrame := 0 }
    Log := [] }

/-- A world at frame 5 whose timer holds two payloads that are both due in the
next pass; the first one schedules another callback when it runs. -/
def sampleTwoDue : World :=
  { GFrameCounter := 5
    Timer :=
      { FramePayloads :=
          [some ⟨false, 1, 1, ⟨1, .create 2 9 .done .done⟩⟩, some ⟨false, 2, 1, ⟨4, .done⟩⟩]
        bTickRegistered := false
        LastTickFrame := 4 }
    Log := [] }

/-- A sequence of calls with several `Tick` calls per frame and a callback that
schedules another one. -/
def sampleCalls : List Call :=
  [.Create 1 ⟨1, .create 1 2 .done .done⟩, .Tick 0, .Frame 11, .Tick 0, .Tick 0,
    .Create 2 ⟨3, .done⟩, .Frame 12, .Tick 0, .Tick 0, .Frame 14, .Tick 0]

/-- A world at frame 5 whose timer holds one payload that is due in the next
pass and whose callback then calls `Create(1, f)`. -/
def sampleNested : World :=
  { GFrameCounter := 5
    Timer :=
      { FramePayloads := [some ⟨false, 1, 1, ⟨1, .create 1 9 .done .done⟩⟩]
        bTickRegistered := false
        LastTickFrame := 4 }
    Log := [] }

/-- The calls of `k` frames after frame `F`: the engine advances the frame
counter by one, then `Tick` is called once. -/
def ticks (F : Nat) : Nat → List Call
  | 0 => []
  | k + 1 => ticks F k ++ [Call.Frame (F + k + 1), Call.Tick 0]

/-! ## The effect of callbacks and of `Create` -/

theorem World.emit_eq_extend (e : Event) (w : World) : w.emit e = w.extend [] [e] := by
  simp [World.emit, World.extend]

theorem World.extend_extend (ps qs : List (Option FFramePayload)) (es fs : List Event)
    (w : World) : (w.extend ps es).extend qs fs = w.extend (ps ++ qs) (es ++ fs) := by
  simp [World.extend]

@[simp] theorem World.extend_GFrameCounter (ps : List (Option FFramePayload))
    (es : List Event) (w : World) : (w.extend ps es).GFrameCounter = w.GFrameCounter := rfl

theorem Create_Internal_eq (d : Nat) (f : StdFunction) (w : World) :
    Create_Internal d f w = w.extend [some (FFramePayload.new w.GFrameCounter d f)] [] := by
  simp [Create_Internal, World.extend, World.setPayloads]

/-- Running a body only appends: the payloads and events are those of the
closed forms, computed from the frame counter alone. -/
theorem Code.run_extend (c : Code) : ∀ w : World,
    c.run w = w.extend (c.payloads w.GFrameCounter) (c.events w.GFrameCounter) := by
  induction c with
  | done => intro w; simp [Code.run, Code.payloads, Code.events, World.extend]
  | create d n b k ihb ihk =>
    intro w
    by_cases hd : d = 0
    · simp [Code.run, CreateWith, hd, ihb, ihk, World.emit_eq_extend, World.extend_extend,
        Code.payloads, Code.events]
    · simp [Code.run, CreateWith, hd, ihk, World.emit_eq_extend, World.extend_extend,
        Code.payloads, Code.events, Create_Internal_eq]

theorem StdFunction.call_extend (f : StdFunction) (w : World) :
    f.call w = w.extend (f.Body.payloads w.GFrameCounter) (f.events w.GFrameCounter) := by
  simp [StdFunction.call, Code.run_extend, World.emit_eq_extend, World.extend_extend,
    StdFunction.events]

theorem Create_eq (d : Nat) (f : StdFunction) (w : World) :
    Create d f w = w.extend (createPayloads w.GFrameCounter d f)
      (createEvents w.GFrameCounter d f) := by
  by_cases hd : d = 0
  · simp [Create, CreateWith, hd, StdFunction.call_extend, World.emit_eq_extend,
      World.extend_extend, createPayloads, createEvents]
  · simp [Create, CreateWith, hd, Create_Internal_eq, World.emit_eq_extend,
      World.extend_extend, createPayloads, createEvents]

/-! ## The effect of `TickFrame` -/

theorem World.store_self (i : Nat) (p : FFramePayload) (w : World)
    (h : w.Timer.FramePayloads[i]? = some (some p)) : w.store i p = w := by
  have : w.Timer.FramePayloads.set i (some p) = w.Timer.FramePayloads := by
    apply List.ext_getElem?
    intro j
    by_cases hj : i = j
    · subst hj
      rw [h]
      have hi : i < w.Timer.FramePayloads.length := by
        by_contra hc
        rw [List.getElem?_eq_none (by omega)] at h
        cases h
      simp [List.getElem?_set, hi]
    · simp [List.getElem?_set, hj]
  simp [World.store, World.setPayloads, this]

/-- Closed form of `TickFrame` on the payload held in slot `self`. -/
theorem TickFrame_eq (self : Nat) (p : FFramePayload) (w : World)
    (h : w.Timer.FramePayloads[self]? = some (some p)) :
    TickFrame self p w =
      ((p.tick w.GFrameCounter).bDone,
        (w.store self (p.tick w.GFrameCounter)).extend
          (entryPayloads w.GFrameCounter (some p)) (entryEvents w.GFrameCounter (some p))) := by
  by_cases h1 : (!p.bDone && decide (w.GFrameCounter > p.CreationFrame)) = true
  · by_cases h2 : decr p.FrameDelay = 0
    · have hf : p.fires w.GFrameCounter = true := by
        simp only [FFramePayload.fires, h1, h2]; simp
      simp [TickFrame, h1, h2, FFramePayload.tick, entryPayloads, entryEvents, hf,
        StdFunction.call_extend, World.store, World.setPayloads]
    · have hf : p.fires w.GFrameCounter = false := by
        simp only [FFramePayload.fires, h1, h2]; simp
      have hb : p.bDone = false := by
        cases hp : p.bDone
        · rfl
        · simp [hp] at h1
      have hg : p.CreationFrame < w.GFrameCounter := by
        simp [hb] at h1
        exact h1
      simp [TickFrame, h2, FFramePayload.tick, entryPayloads, entryEvents, hf,
        World.extend, World.store, World.setPayloads, hb, hg]
  · have hf : p.fires w.GFrameCounter = false := by
      simp only [FFramePayload.fires, h1]; simp
    have ht : p.tick w.GFrameCounter = p := by simp [FFramePayload.tick, h1]
    rw [ht, World.store_self self p w h]
    simp [TickFrame, h1, entryPayloads, entryEvents, hf, World.extend]

/-! ## The forward loop -/

theorem getElem?_mid {α : Type} (pre : List α) (e : α) (rest : List α) :
    (pre ++ e :: rest)[pre.length]? = some e := by
  induction pre with
  | nil => simp
  | cons x xs ih => simpa using ih

theorem inert_new (g d : Nat) (f : StdFunction) :
    inert g (some (FFramePayload.new g d f)) = true := by
  simp [inert, FFramePayload.new]

theorem Code.payloads_inert (g : Nat) (c : Code) :
    ∀ e ∈ c.payloads g, inert g e = true := by
  induction c with
  | done => simp [Code.payloads]
  | create d n b k ihb ihk =>
    intro e he
    simp only [Code.payloads, List.mem_append] at he
    rcases he with he | he
    · by_cases hd : d = 0
      · simp only [hd, if_true] at he
        exact ihb e he
      · simp only [hd, if_false, List.mem_singleton] at he
        subst he
        exact inert_new g d _
    · exact ihk e he

theorem entryPayloads_inert (g : Nat) (e : Option FFramePayload) :
    ∀ x ∈ entryPayloads g e, inert g x = true := by
  intro x hx
  cases e with
  | none => simp [entryPayloads] at hx
  | some p =>
    by_cases hf : p.fires g = true
    · simp only [entryPayloads, hf, if_true] at hx
      exact Code.payloads_inert g _ x hx
    · simp [entryPayloads, hf] at hx

theorem TickFrame_inert (self : Nat) (p : FFramePayload) (w : World)
    (h : inert w.GFrameCounter (some p) = true) : TickFrame self p w = (false, w) := by
  simp only [inert, Bool.and_eq_true, Bool.not_eq_true', decide_eq_true_eq] at h
  have hg : ¬ p.CreationFrame < w.GFrameCounter := by omega
  simp [TickFrame, h.1, hg]

/-- The forward loop leaves a tail of inert entries alone. -/
theorem TickLoop_inert : ∀ (fresh pre : List (Option FFramePayload)) (Dead : List Nat)
    (w : World) (fuel : Nat),
    w.Timer.FramePayloads = pre ++ fresh →
    (∀ e ∈ fresh, inert w.GFrameCounter e = true) →
    fresh.length < fuel →
    TickLoop fuel pre.length Dead w = .ok (Dead, w) := by
  intro fresh
  induction fresh with
  | nil =>
    intro pre Dead w fuel h _ hfuel
    cases fuel with
    | zero => simp at hfuel
    | succ f => simp [TickLoop, h]
  | cons e rest ih =>
    intro pre Dead w fuel h hin hfuel
    cases fuel with
    | zero => simp at hfuel
    | succ f =>
      have hlt : pre.length < w.Timer.FramePayloads.length := by simp [h]
      have hget : w.Timer.FramePayloads[pre.length]? = some e := by
        rw [h]; exact getElem?_mid pre e rest
      have he : inert w.GFrameCounter e = true := hin e (List.mem_cons_self _ _)
      cases e with
      | none => simp [inert] at he
      | some p =>
        have hrec := ih (pre ++ [some p]) Dead w f (by simp [h])
          (fun x hx => hin x (List.mem_cons_of_mem _ hx))
          (by simp at hfuel; omega)
        simp only [List.length_append, List.length_singleton] at hrec
        rw [TickLoop, if_pos hlt]
        simp only [hget, TickFrame_inert pre.length p w he]
        simpa using hrec

/-- Closed form of the forward loop: started at index `pre.length` with
`todo` still to visit and a tail `fresh` of inert entries, it ticks every entry
of `todo` once, in order, collects the dead ones, and leaves everything that was
appended behind `fresh`. -/
theorem TickLoop_eq : ∀ (todo pre fresh : List (Option FFramePayload)) (Dead : List Nat)
    (w : World) (fuel : Nat),
    w.Timer.FramePayloads = pre ++ todo ++ fresh →
    (∀ e ∈ fresh, inert w.GFrameCounter e = true) →
    todo.length + fresh.length + (passPayloads w.GFrameCounter todo).length < fuel →
    TickLoop fuel pre.length Dead w =
      .ok (Dead ++ deadIdx pre.length (todo.map (tickEntry w.GFrameCounter)),
        (w.setPayloads (pre ++ todo.map (tickEntry w.GFrameCounter) ++ fresh)).extend
          (passPayloads w.GFrameCounter todo) (passEvents w.GFrameCounter todo)) := by
  intro todo
  induction todo with
  | nil =>
    intro pre fresh Dead w fuel h hin hfuel
    have h0 : w.Timer.FramePayloads = pre ++ fresh := by simpa using h
    rw [TickLoop_inert fresh pre Dead w fuel h0 hin (by simp [passPayloads] at hfuel; omega)]
    simp [deadIdx, passPayloads, passEvents, World.extend, World.setPayloads, ← h0]
  | cons e rest ih =>
    intro pre fresh Dead w fuel h hin hfuel
    cases fuel with
    | zero => simp at hfuel
    | succ f =>
      have hlt : pre.length < w.Timer.FramePayloads.length := by simp [h]
      have hget : w.Timer.FramePayloads[pre.length]? = some e := by
        rw [h, List.append_assoc]; exact getElem?_mid pre e (rest ++ fresh)
      simp only [passPayloads, List.length_cons, List.length_append] at hfuel
      cases e with
      | none =>
        have hrec := ih (pre ++ [none]) fresh (Dead ++ [pre.length]) w f (by simp [h]) hin
          (by omega)
        simp only [List.length_append, List.length_singleton] at hrec
        rw [TickLoop, if_pos hlt]
        simp only [hget]
        rw [hrec]
        simp [deadIdx, tickEntry, isDead, passPayloads, passEvents, entryPayloads,
          entryEvents]
      | some p =>
        have hstore : (w.store pre.length (p.tick w.GFrameCounter)).Timer.FramePayloads =
            pre ++ [some (p.tick w.GFrameCounter)] ++ rest ++ fresh := by
          simp [World.store, World.setPayloads, h]
        have hrec := ih (pre ++ [some (p.tick w.GFrameCounter)])
          (fresh ++ entryPayloads w.GFrameCounter (some p))
          (if (p.tick w.GFrameCounter).bDone then Dead ++ [pre.length] else Dead)
          ((w.store pre.length (p.tick w.GFrameCounter)).extend
            (entryPayloads w.GFrameCounter (some p)) (entryEvents w.GFrameCounter (some p))) f
          (by simp [World.extend, hstore])
          (by
            intro x hx
            rcases List.mem_append.1 hx with hx | hx
            · exact hin x hx
            · exact entryPayloads_inert _ _ x hx)
          (by
            simp only [World.extend_GFrameCounter, List.length_append]
            have : (w.store pre.length (p.tick w.GFrameCounter)).GFrameCounter =
              w.GFrameCounter := rfl
            rw [this]; omega)
        simp only [List.length_append, List.length_singleton] at hrec
        rw [TickLoop, if_pos hlt]
        simp only [hget, TickFrame_eq pre.length p w hget]
        cases hd : (p.tick w.GFrameCounter).bDone with
        | true =>
          simp only [hd, if_true] at hrec
          simp only [Bool.not_true, Bool.false_eq_true, if_false]
          rw [hrec]
          simp [deadIdx, tickEntry, isDead, hd, passPayloads, passEvents, World.extend,
            World.setPayloads, World.store]
        | false =>
          simp only [hd, Bool.false_eq_true, if_false] at hrec
          simp only [Bool.not_false, if_true]
          rw [hrec]
          simp [deadIdx, tickEntry, isDead, hd, passPayloads, passEvents, World.extend,
            World.setPayloads, World.store]

/-! ## The compaction loop -/

theorem deadIdx_append (l1 l2 : List (Option FFramePayload)) : ∀ i : Nat,
    deadIdx i (l1 ++ l2) = deadIdx i l1 ++ deadIdx (i + l1.length) l2 := by
  induction l1 with
  | nil => intro i; simp [deadIdx]
  | cons x xs ih =>
    intro i
    have hi : i + 1 + xs.length = i + (xs.length + 1) := by omega
    have ih1 := ih (i + 1)
    rw [hi] at ih1
    show (if isDead x = true then [i] else []) ++ deadIdx (i + 1) (xs ++ l2) = _
    rw [ih1]
    simp [deadIdx]

theorem eraseIdx_mid {α : Type} (pre : List α) (e : α) (rest : List α) :
    (pre ++ e :: rest).eraseIdx pre.length = pre ++ rest := by
  induction pre with
  | nil => simp
  | cons x xs ih => simpa using ih

theorem getElem?_append_lt {α : Type} (l1 l2 : List α) (j : Nat) (h : j < l1.length) :
    (l1 ++ l2)[j]? = l1[j]? := by
  induction l1 generalizing j with
  | nil => simp at h
  | cons x xs ih =>
    cases j with
    | zero => simp
    | succ k => simpa using ih k (by simpa using h)

@[simp] theorem World.setPayloads_setPayloads (a b : List (Option FFramePayload))
    (w : World) : (w.setPayloads a).setPayloads b = w.setPayloads b := rfl

@[simp] theorem World.setPayloads_FramePayloads (a : List (Option FFramePayload))
    (w : World) : (w.setPayloads a).Timer.FramePayloads = a := rfl

/-- The backward loop only reads the entries of `DeadPayloads` below `j`. -/
theorem RemoveLoop_take (D1 D2 : List Nat) : ∀ (j : Nat) (w : World), j ≤ D1.length →
    RemoveLoop j (D1 ++ D2) w = RemoveLoop j D1 w := by
  intro j
  induction j with
  | zero => intro w _; simp [RemoveLoop]
  | succ k ih =>
    intro w hk
    rw [RemoveLoop, RemoveLoop, getElem?_append_lt D1 D2 k (by omega)]
    cases D1[k]? with
    | none => rfl
    | some Index =>
      simp only
      cases RemoveAt Index w.Timer.FramePayloads with
      | error e => rfl
      | ok a => exact ih _ (by omega)

/-- Closed form of the compaction: removing the positions of the dead entries
of `l`, from the highest to the lowest, never faults and leaves exactly the live
entries of `l`, in order, followed by the untouched tail. -/
theorem RemoveLoop_deadIdx (l : List (Option FFramePayload)) :
    ∀ (sfx : List (Option FFramePayload)) (w : World),
    w.Timer.FramePayloads = l ++ sfx →
    RemoveLoop (deadIdx 0 l).length (deadIdx 0 l) w =
      .ok (w.setPayloads (l.filter isLive ++ sfx)) := by
  induction l using List.reverseRecOn with
  | nil =>
    intro sfx w h
    simp [deadIdx, RemoveLoop, World.setPayloads, ← h]
  | append_singleton l x ih =>
    intro sfx w h
    rw [deadIdx_append]
    cases hx : isDead x with
    | true =>
      simp only [deadIdx, hx, if_true, List.append_nil, Nat.zero_add, List.length_append,
        List.length_singleton]
      rw [RemoveLoop, getElem?_mid (deadIdx 0 l) l.length []]
      have herase : RemoveAt l.length w.Timer.FramePayloads = .ok (l ++ sfx) := by
        have hlen : l.length < w.Timer.FramePayloads.length := by simp [h]
        rw [RemoveAt, if_pos hlen, h, List.append_assoc]
        simp only [List.singleton_append]
        rw [eraseIdx_mid]
      simp only [herase]
      rw [RemoveLoop_take _ _ _ _ (le_refl _), ih sfx _ rfl]
      simp [isLive, hx]
    | false =>
      simp only [deadIdx, hx, Bool.false_eq_true, if_false, List.append_nil]
      rw [ih (x :: sfx) w (by simp [h])]
      simp [isLive, hx]

/-! ## Closed form of `Tick` -/

/-- With a budget of at least `passFuel w`, `Tick` returns `true` and the world
of the closed form. -/
theorem Tick_eq (fuel : Nat) (DeltaTime : float) (w : World) (h : passFuel w ≤ fuel) :
    Tick fuel DeltaTime w = .ok (true, TickSpec w) := by
  by_cases he : earlyExit w = true
  · have he2 := he
    simp only [earlyExit] at he2
    simp [Tick, TickSpec, he, he2]
  · have he2 := he
    simp only [earlyExit] at he2
    have hloop := TickLoop_eq w.Timer.FramePayloads [] [] [] (beginPass w) fuel
      (by simp [beginPass, World.emit]) (by simp)
      (by
        have : (beginPass w).GFrameCounter = w.GFrameCounter := rfl
        rw [this]
        simp only [passFuel, Num] at h
        simp only [List.length_nil]
        omega)
    have hg : (beginPass w).GFrameCounter = w.GFrameCounter := rfl
    simp only [List.length_nil, List.nil_append, List.append_nil, hg] at hloop
    have hrem := RemoveLoop_deadIdx (w.Timer.FramePayloads.map (tickEntry w.GFrameCounter))
      (passPayloads w.GFrameCounter w.Timer.FramePayloads)
      (((beginPass w).setPayloads (w.Timer.FramePayloads.map (tickEntry w.GFrameCounter))).extend
        (passPayloads w.GFrameCounter w.Timer.FramePayloads)
        (passEvents w.GFrameCounter w.Timer.FramePayloads))
      (by simp [World.extend])
    simp only [Tick, he2, TickSpec, he, hloop, hrem]
    simp [passSpec, World.extend, World.setPayloads, beginPass, World.emit]

/-! ## Sequences of calls -/

theorem Call.exec_eq (fuel : Nat) (c : Call) (w : World) (h : c.fuel w ≤ fuel) :
    c.exec fuel w = .ok (c.spec w) := by
  cases c with
  | Create d f => rfl
  | Tick dt => simp [Call.exec, Call.spec, Tick_eq fuel dt w h]
  | StartTicking => rfl
  | Frame g => rfl

/-- With a budget of at least `runFuel calls w`, the sequence runs to the end
and yields the world of the closed form. -/
theorem run_eq (fuel : Nat) : ∀ (calls : List Call) (w : World),
    runFuel calls w ≤ fuel → run fuel calls w = .ok (runSpec calls w) := by
  intro calls
  induction calls with
  | nil => intro w _; rfl
  | cons c cs ih =>
    intro w h
    simp only [runFuel] at h
    rw [run, Call.exec_eq fuel c w (le_trans (le_max_left _ _) h)]
    exact ih _ (le_trans (le_max_right _ _) h)

/-! ## Dead and live entries -/

theorem isDead_of_inert (g : Nat) (e : Option FFramePayload) (h : inert g e = true) :
    isDead e = false := by
  cases e with
  | none => simp [inert] at h
  | some p =>
    simp only [inert, Bool.and_eq_true, Bool.not_eq_true'] at h
    simpa [isDead] using h.1

theorem passPayloads_inert (g : Nat) (l : List (Option FFramePayload)) :
    ∀ e ∈ passPayloads g l, inert g e = true := by
  induction l with
  | nil => simp [passPayloads]
  | cons x xs ih =>
    intro e he
    simp only [passPayloads, List.mem_append] at he
    rcases he with he | he
    · exact entryPayloads_inert g x e he
    · exact ih e he

theorem createPayloads_inert (g d : Nat) (f : StdFunction) :
    ∀ e ∈ createPayloads g d f, inert g e = true := by
  intro e he
  by_cases hd : d = 0
  · simp only [createPayloads, hd, if_true] at he
    exact Code.payloads_inert g _ e he
  · simp only [createPayloads, hd, if_false, List.mem_singleton] at he
    subst he
    exact inert_new g d f

theorem deadIdx_of_live (l : List (Option FFramePayload)) :
    ∀ i : Nat, (∀ e ∈ l, isDead e = false) → deadIdx i l = [] := by
  induction l with
  | nil => intro i _; rfl
  | cons x xs ih =>
    intro i h
    simp [deadIdx, h x (List.mem_cons_self _ _),
      ih (i + 1) (fun e he => h e (List.mem_cons_of_mem _ he))]

theorem filter_isLive_of_live (l : List (Option FFramePayload))
    (h : ∀ e ∈ l, isDead e = false) : l.filter isLive = l := by
  apply List.filter_eq_self.2
  intro e he
  simp [isLive, h e he]

theorem mem_deadIdx (l : List (Option FFramePayload)) : ∀ (i k : Nat),
    k ∈ deadIdx i l ↔ i ≤ k ∧ ∃ e, l[k - i]? = some e ∧ isDead e = true := by
  induction l with
  | nil => intro i k; simp [deadIdx]
  | cons x xs ih =>
    intro i k
    simp only [deadIdx, List.mem_append, ih (i + 1) k]
    constructor
    · rintro (h | ⟨h1, e, h2, h3⟩)
      · by_cases hx : isDead x = true
        · simp only [hx, if_true, List.mem_singleton] at h
          subst h
          exact ⟨le_refl _, x, by simp, hx⟩
        · simp [hx] at h
      · refine ⟨by omega, e, ?_, h3⟩
        have : k - i = (k - (i + 1)) + 1 := by omega
        rw [this]
        simpa using h2
    · rintro ⟨h1, e, h2, h3⟩
      by_cases hk : k = i
      · subst hk
        left
        simp only [Nat.sub_self, List.getElem?_cons_zero, Option.some.injEq] at h2
        subst h2
        simp [h3]
      · right
        refine ⟨by omega, e, ?_, h3⟩
        have : k - i = (k - (i + 1)) + 1 := by omega
        rw [this] at h2
        simpa using h2

theorem deadIdx_lower (l : List (Option FFramePayload)) (i k : Nat) (h : k ∈ deadIdx i l) :
    i ≤ k := ((mem_deadIdx l i k).1 h).1

theorem deadIdx_sorted (l : List (Option FFramePayload)) : ∀ i : Nat,
    (deadIdx i l).Pairwise (· < ·) := by
  induction l with
  | nil => intro i; simp [deadIdx]
  | cons x xs ih =>
    intro i
    simp only [deadIdx]
    rw [List.pairwise_append]
    refine ⟨?_, ih (i + 1), ?_⟩
    · by_cases hx : isDead x = true <;> simp [hx]
    · intro a ha b hb
      have hb2 := deadIdx_lower xs (i + 1) b hb
      by_cases hx : isDead x = true
      · simp only [hx, if_true, List.mem_singleton] at ha
        omega
      · simp [hx] at ha

/-! ## The two loops of a pass -/

theorem forward_loop_eq (w : World) (fuel : Nat) (h : passFuel w ≤ fuel) :
    TickLoop fuel 0 [] (beginPass w) =
      .ok (deadIdx 0 (w.Timer.FramePayloads.map (tickEntry w.GFrameCounter)), loopSpec w) := by
  have hloop := TickLoop_eq w.Timer.FramePayloads [] [] [] (beginPass w) fuel
    (by simp [beginPass, World.emit]) (by simp)
    (by
      have : (beginPass w).GFrameCounter = w.GFrameCounter := rfl
      rw [this]
      simp only [passFuel, Num] at h
      simp only [List.length_nil]
      omega)
  have hg : (beginPass w).GFrameCounter = w.GFrameCounter := rfl
  simp only [List.length_nil, List.nil_append, List.append_nil, hg] at hloop
  rw [hloop]
  simp [loopSpec, World.extend, World.setPayloads, beginPass, World.emit]

theorem backward_loop_eq (w : World) :
    RemoveLoop (deadIdx 0 (w.Timer.FramePayloads.map (tickEntry w.GFrameCounter))).length
      (deadIdx 0 (w.Timer.FramePayloads.map (tickEntry w.GFrameCounter))) (loopSpec w) =
      .ok (passSpec w) := by
  rw [RemoveLoop_deadIdx (w.Timer.FramePayloads.map (tickEntry w.GFrameCounter))
    (passPayloads w.GFrameCounter w.Timer.FramePayloads) (loopSpec w) rfl]
  rfl

theorem loopSpec_deadIdx (w : World) :
    deadIdx 0 (loopSpec w).Timer.FramePayloads =
      deadIdx 0 (w.Timer.FramePayloads.map (tickEntry w.GFrameCounter)) := by
  simp only [loopSpec]
  rw [deadIdx_append, deadIdx_of_live (passPayloads _ _) _
    (fun e he => isDead_of_inert _ e (passPayloads_inert _ _ e he))]
  simp

theorem loopSpec_filter (w : World) :
    (loopSpec w).setPayloads ((loopSpec w).Timer.FramePayloads.filter isLive) = passSpec w := by
  simp only [loopSpec, World.setPayloads, List.filter_append, passSpec]
  rw [filter_isLive_of_live (passPayloads _ _)
    (fun e he => isDead_of_inert _ e (passPayloads_inert _ _ e he))]

/-! ## Compaction, zero delay, and the absence of done payloads -/

/-- C10: the compaction at the end of a pass removes exactly the entries that
reported done.  With enough budget the forward loop ends with the entries
present at pass start (each ticked) followed by the appended ones, and with
`DeadPayloads` holding, in strictly ascending order, exactly the positions of
the dead entries; the backward loop then never indexes out of range and leaves
the same sequence with the dead entries filtered out (live entries kept, order
unchanged); this is the world `Tick` returns. -/
theorem compaction_removes_exactly_done (w : World) (fuel : Nat)
    (hfuel : passFuel w ≤ fuel) :
    ∃ (DeadPayloads : List Nat) (w1 w2 : World),
      TickLoop fuel 0 [] (beginPass w) = .ok (DeadPayloads, w1) ∧
      w1.Timer.FramePayloads =
        w.Timer.FramePayloads.map (tickEntry w.GFrameCounter) ++
          passPayloads w.GFrameCounter w.Timer.FramePayloads ∧
      DeadPayloads.Pairwise (· < ·) ∧
      (∀ i, i ∈ DeadPayloads ↔ ∃ e, w1.Timer.FramePayloads[i]? = some e ∧ isDead e = true) ∧
      RemoveLoop DeadPayloads.length DeadPayloads w1 = .ok w2 ∧
      w2 = w1.setPayloads (w1.Timer.FramePayloads.filter isLive) ∧
      (earlyExit w = false → ∀ DeltaTime, Tick fuel DeltaTime w = .ok (true, w2)) := by
  refine ⟨deadIdx 0 (w.Timer.FramePayloads.map (tickEntry w.GFrameCounter)), loopSpec w,
    passSpec w, forward_loop_eq w fuel hfuel, rfl, deadIdx_sorted _ 0, ?_,
    backward_loop_eq w, (loopSpec_filter w).symm, ?_⟩
  · intro i
    rw [← loopSpec_deadIdx, mem_deadIdx]
    simp
  · intro he dt
    rw [Tick_eq fuel dt w hfuel]
    simp [TickSpec, he]

/-- Witness for C10: the pass of `samplePass`. -/
theorem compaction_removes_exactly_done_witness :
    passFuel samplePass ≤ 8 ∧
    ∃ (DeadPayloads : List Nat) (w1 w2 : World),
      TickLoop 8 0 [] (beginPass samplePass) = .ok (DeadPayloads, w1) ∧
      w1.Timer.FramePayloads =
        samplePass.Timer.FramePayloads.map (tickEntry samplePass.GFrameCounter) ++
          passPayloads samplePass.GFrameCounter samplePass.Timer.FramePayloads ∧
      DeadPayloads.Pairwise (· < ·) ∧
      (∀ i, i ∈ DeadPayloads ↔ ∃ e, w1.Timer.FramePayloads[i]? = some e ∧ isDead e = true) ∧
      RemoveLoop DeadPayloads.length DeadPayloads w1 = .ok w2 ∧
      w2 = w1.setPayloads (w1.Timer.FramePayloads.filter isLive) ∧
      (earlyExit samplePass = false → ∀ DeltaTime, Tick 8 DeltaTime samplePass = .ok (true, w2)) :=
  ⟨by decide, compaction_removes_exactly_done samplePass 8 (by decide)⟩

/-- C4: for every timer state, `Create(0, f)` with a function `f` that does not
touch the timer (its body makes no call on it) invokes `f` exactly once before
returning: the log grows by the `Create` call and one invocation of `f`, the
timer (its payload array, `LastTickFrame`, its subscription flag) and the frame
counter are unchanged, and `Num()` is the same. -/
theorem Create_zero_runs_synchronously (w : World) (Name : Nat) :
    Create 0 ⟨Name, .done⟩ w =
      { w with Log := w.Log ++ [.create Name 0 w.GFrameCounter, .invoke Name w.GFrameCounter] } ∧
    (Create 0 ⟨Name, .done⟩ w).Timer = w.Timer ∧
    (Create 0 ⟨Name, .done⟩ w).GFrameCounter = w.GFrameCounter ∧
    Num (Create 0 ⟨Name, .done⟩ w) = Num w := by
  have h : Create 0 ⟨Name, .done⟩ w =
      { w with Log := w.Log ++ [.create Name 0 w.GFrameCounter, .invoke Name w.GFrameCounter] } := by
    simp [Create, CreateWith, StdFunction.call, Code.run, World.emit]
  exact ⟨h, by rw [h], by rw [h], by rw [h]; rfl⟩

/-- The array holds no null pointer and no done payload. -/
theorem allLive_create (w : World) (d : Nat) (f : StdFunction)
    (h : ∀ e ∈ w.Timer.FramePayloads, isDead e = false) :
    ∀ e ∈ (Create d f w).Timer.FramePayloads, isDead e = false := by
  intro e he
  rw [Create_eq] at he
  simp only [World.extend, List.mem_append] at he
  rcases he with he | he
  · exact h e he
  · exact isDead_of_inert _ e (createPayloads_inert _ _ _ e he)

theorem allLive_passSpec (w : World) :
    ∀ e ∈ (passSpec w).Timer.FramePayloads, isDead e = false := by
  intro e he
  simp only [passSpec, List.mem_append, List.mem_filter] at he
  rcases he with he | he
  · simpa [isLive] using he.2
  · exact isDead_of_inert _ e (passPayloads_inert _ _ e he)

theorem allLive_spec (c : Call) (w : World)
    (h : ∀ e ∈ w.Timer.FramePayloads, isDead e = false) :
    ∀ e ∈ (c.spec w).Timer.FramePayloads, isDead e = false := by
  cases c with
  | Create d f => exact allLive_create w d f h
  | Tick dt =>
    by_cases he : earlyExit w = true
    · simpa [Call.spec, TickSpec, he] using h
    · simpa [Call.spec, TickSpec, he] using allLive_passSpec w
  | StartTicking =>
    by_cases hr : w.Timer.bTickRegistered = true
    · simpa [Call.spec, StartTicking, hr] using h
    · simpa [Call.spec, StartTicking, hr] using h
  | Frame g => simpa [Call.spec] using h

theorem allLive_runSpec : ∀ (calls : List Call) (w : World),
    (∀ e ∈ w.Timer.FramePayloads, isDead e = false) →
    ∀ e ∈ (runSpec calls w).Timer.FramePayloads, isDead e = false := by
  intro calls
  induction calls with
  | nil => intro w h; exact h
  | cons c cs ih => intro w h; exact ih _ (allLive_spec c w h)

/-- C9: after every `Tick` call that runs an evaluation pass (from any timer
state, with enough budget) the array holds no done payload (and no null
pointer); consequently, after any sequence of calls on a freshly constructed
timer, no payload in the array is done. -/
theorem no_done_payload_between_calls :
    (∀ (w : World) (fuel : Nat) (DeltaTime : float), earlyExit w = false →
      passFuel w ≤ fuel →
      ∃ w1, Tick fuel DeltaTime w = .ok (true, w1) ∧
        ∀ e ∈ w1.Timer.FramePayloads, ∃ p, e = some p ∧ p.bDone = false) ∧
    (∀ (calls : List Call) (GFrameCounter LastTickFrame : Nat),
      ∃ N, ∀ fuel, N ≤ fuel →
        ∃ w1, run fuel calls (World.fresh GFrameCounter LastTickFrame) = .ok w1 ∧
          ∀ e ∈ w1.Timer.FramePayloads, ∃ p, e = some p ∧ p.bDone = false) := by
  have key : ∀ e : Option FFramePayload, isDead e = false → ∃ p, e = some p ∧ p.bDone = false := by
    intro e he
    cases e with
    | none => simp [isDead] at he
    | some p => exact ⟨p, rfl, by simpa [isDead] using he⟩
  constructor
  · intro w fuel dt he hf
    refine ⟨passSpec w, ?_, fun e h => key e (allLive_passSpec w e h)⟩
    rw [Tick_eq fuel dt w hf]
    simp [TickSpec, he]
  · intro calls g l
    refine ⟨runFuel calls (World.fresh g l), fun fuel hf => ⟨runSpec calls (World.fresh g l),
      run_eq fuel calls _ hf, fun e h => key e (allLive_runSpec calls _ ?_ e h)⟩⟩
    simp [World.fresh, FFrameTimer.new]

/-- Witness for C9: the pass of `samplePass`, which holds a done payload and a
null pointer before the pass. -/
theorem no_done_payload_between_calls_witness :
    earlyExit samplePass = false ∧ passFuel samplePass ≤ 8 ∧
    ∃ w1, Tick 8 0 samplePass = .ok (true, w1) ∧
      ∀ e ∈ w1.Timer.FramePayloads, ∃ p, e = some p ∧ p.bDone = false :=
  ⟨by decide, by decide,
    no_done_payload_between_calls.1 samplePass 8 0 (by decide) (by decide)⟩

/-! ## The log of a sequence of calls -/

theorem Call.spec_Log (c : Call) (w : World) : (c.spec w).Log = w.Log ++ c.events w := by
  cases c with
  | Create d f => simp [Call.spec, Call.events, Cybergem.Create_eq, World.extend]
  | Tick dt =>
    by_cases he : earlyExit w = true
    · simp [Call.spec, Call.events, TickSpec, he]
    · simp [Call.spec, Call.events, TickSpec, he, passSpec]
  | StartTicking =>
    by_cases hr : w.Timer.bTickRegistered = true <;>
      simp [Call.spec, Call.events, Cybergem.StartTicking, hr]
  | Frame g => simp [Call.spec, Call.events]

theorem runSpec_Log : ∀ (calls : List Call) (w : World),
    (runSpec calls w).Log = w.Log ++ runEvents calls w := by
  intro calls
  induction calls with
  | nil => intro w; simp [runSpec, runEvents]
  | cons c cs ih =>
    intro w
    simp [runSpec, runEvents, ih, Call.spec_Log]

theorem passEvents_append (g : Nat) (l1 l2 : List (Option FFramePayload)) :
    passEvents g (l1 ++ l2) = passEvents g l1 ++ passEvents g l2 := by
  induction l1 with
  | nil => simp [passEvents]
  | cons x xs ih => simp [passEvents, ih]

theorem passPayloads_append (g : Nat) (l1 l2 : List (Option FFramePayload)) :
    passPayloads g (l1 ++ l2) = passPayloads g l1 ++ passPayloads g l2 := by
  induction l1 with
  | nil => simp [passPayloads]
  | cons x xs ih => simp [passPayloads, ih]

/-- C6: within a pass the functions run one after another in the order of their
payloads in `FramePayloads`, which is the order of creation (`Create` emplaces at
the end).  If `A` sits before `B` and both fire in the pass, then the log of the
pass is: the events of the entries before `A`, the invocation of `A` and
everything `A` does, the events of the entries between, the invocation of `B`
and everything `B` does, the events of the entries behind `B`; the payloads
emplaced during the pass are appended in the same order; and the events and
payloads of `A` are exactly what the call `A.Func()` produces. -/
theorem pass_invokes_in_creation_order (w : World) (fuel : Nat) (DeltaTime : float)
    (l1 l2 l3 : List (Option FFramePayload)) (A B : FFramePayload)
    (hL : w.Timer.FramePayloads = l1 ++ some A :: l2 ++ some B :: l3)
    (hpass : earlyExit w = false) (hfuel : passFuel w ≤ fuel)
    (hA : A.fires w.GFrameCounter = true) (hB : B.fires w.GFrameCounter = true) :
    ∃ w1, Tick fuel DeltaTime w = .ok (true, w1) ∧
      w1.Log = w.Log ++ (Event.pass w.GFrameCounter :: passEvents w.GFrameCounter l1) ++
        (Event.invoke A.Func.Name w.GFrameCounter :: A.Func.Body.events w.GFrameCounter) ++
        passEvents w.GFrameCounter l2 ++
        (Event.invoke B.Func.Name w.GFrameCounter :: B.Func.Body.events w.GFrameCounter) ++
        passEvents w.GFrameCounter l3 ∧
      w1.Timer.FramePayloads =
        (w.Timer.FramePayloads.map (tickEntry w.GFrameCounter)).filter isLive ++
          (passPayloads w.GFrameCounter l1 ++ A.Func.Body.payloads w.GFrameCounter ++
            passPayloads w.GFrameCounter l2 ++ B.Func.Body.payloads w.GFrameCounter ++
            passPayloads w.GFrameCounter l3) ∧
      (∀ v : World, v.GFrameCounter = w.GFrameCounter →
        A.Func.call v = v.extend (A.Func.Body.payloads w.GFrameCounter)
          (Event.invoke A.Func.Name w.GFrameCounter :: A.Func.Body.events w.GFrameCounter)) ∧
      (∀ (v : World) (d : Nat) (f : StdFunction), d ≠ 0 →
        (Create d f v).Timer.FramePayloads =
          v.Timer.FramePayloads ++ [some (FFramePayload.new v.GFrameCounter d f)]) := by
  refine ⟨passSpec w, ?_, ?_, ?_, ?_, ?_⟩
  · rw [Tick_eq fuel DeltaTime w hfuel]
    simp [TickSpec, hpass]
  · simp [passSpec, hL, passEvents_append, passEvents, entryEvents, hA, hB,
      StdFunction.events]
  · simp [passSpec, hL, passPayloads_append, passPayloads, entryPayloads, hA, hB]
  · intro v hv
    rw [StdFunction.call_extend, hv]
    rfl
  · intro v d f hd
    simp [Create_eq, World.extend, createPayloads, hd]

/-- Witness for C6: the two due payloads of `sampleTwoDue`. -/
theorem pass_invokes_in_creation_order_witness :
    ∃ w1, Tick 4 0 sampleTwoDue = .ok (true, w1) ∧
      w1.Log = sampleTwoDue.Log ++ (Event.pass 5 :: passEvents 5 []) ++
        (Event.invoke 1 5 :: (Code.create 2 9 .done .done).events 5) ++
        passEvents 5 [] ++
        (Event.invoke 4 5 :: Code.done.events 5) ++
        passEvents 5 [] ∧
      w1.Timer.FramePayloads =
        (sampleTwoDue.Timer.FramePayloads.map (tickEntry 5)).filter isLive ++
          (passPayloads 5 [] ++ (Code.create 2 9 .done .done).payloads 5 ++
            passPayloads 5 [] ++ Code.done.payloads 5 ++
            passPayloads 5 []) ∧
      (∀ v : World, v.GFrameCounter = 5 →
        StdFunction.call ⟨1, .create 2 9 .done .done⟩ v =
          v.extend ((Code.create 2 9 .done .done).payloads 5)
            (Event.invoke 1 5 :: (Code.create 2 9 .done .done).events 5)) ∧
      (∀ (v : World) (d : Nat) (f : StdFunction), d ≠ 0 →
        (Create d f v).Timer.FramePayloads =
          v.Timer.FramePayloads ++ [some (FFramePayload.new v.GFrameCounter d f)]) :=
  pass_invokes_in_creation_order sampleTwoDue 4 0 [] [] []
    ⟨false, 1, 1, ⟨1, .create 2 9 .done .done⟩⟩ ⟨false, 2, 1, ⟨4, .done⟩⟩
    (by decide) (by decide) (by decide) (by decide) (by decide)

/-! ## At most one pass per frame -/

theorem Code.events_no_pass (g f : Nat) (c : Code) : Event.pass f ∉ c.events g := by
  induction c with
  | done => simp [Code.events]
  | create d n b k ihb ihk =>
    by_cases hd : d = 0 <;> simp [Code.events, hd, ihb, ihk]

theorem createEvents_no_pass (g f d : Nat) (fn : StdFunction) :
    Event.pass f ∉ createEvents g d fn := by
  by_cases hd : d = 0 <;>
    simp [createEvents, hd, StdFunction.events, Code.events_no_pass]

theorem passEvents_no_pass (g f : Nat) (l : List (Option FFramePayload)) :
    Event.pass f ∉ passEvents g l := by
  induction l with
  | nil => simp [passEvents]
  | cons x xs ih =>
    cases x with
    | none => simpa [passEvents, entryEvents] using ih
    | some p =>
      by_cases hf : p.fires g = true <;>
        simp [passEvents, entryEvents, hf, StdFunction.events, Code.events_no_pass, ih]

theorem Tick_early (fuel : Nat) (DeltaTime : float) (w : World) (h : earlyExit w = true) :
    Tick fuel DeltaTime w = .ok (true, w) := by
  simp only [earlyExit] at h
  simp [Tick, h]

theorem TickSpec_early (w : World) (h : earlyExit w = true) : TickSpec w = w := by
  simp [TickSpec, h]

theorem TickSpec_pass (w : World) (h : earlyExit w = false) : TickSpec w = passSpec w := by
  simp [TickSpec, h]

theorem earlyExit_passSpec (w : World) : earlyExit (passSpec w) = true := by
  simp [earlyExit, passSpec]

theorem earlyExit_TickSpec (w : World) : earlyExit (TickSpec w) = true := by
  cases he : earlyExit w with
  | true => rw [TickSpec_early w he]; exact he
  | false => rw [TickSpec_pass w he]; exact earlyExit_passSpec w

theorem LastTickFrame_ne_of_pass (w : World) (h : earlyExit w = false) :
    w.Timer.LastTickFrame ≠ w.GFrameCounter := by
  intro hcon
  simp [earlyExit, hcon] at h

theorem PassInv_create (w : World) (es : List Event) (d : Nat) (f : StdFunction)
    (h : PassInv es w) : PassInv (es ++ createEvents w.GFrameCounter d f) (Create d f w) := by
  obtain ⟨ha, hb, hc⟩ := h
  have hno : ∀ f1, Event.pass f1 ∉ createEvents w.GFrameCounter d f :=
    fun f1 => createEvents_no_pass _ f1 d f
  have hg : (Create d f w).GFrameCounter = w.GFrameCounter := by rw [Create_eq]; rfl
  have hl : (Create d f w).Timer.LastTickFrame = w.Timer.LastTickFrame := by
    rw [Create_eq]; rfl
  refine ⟨?_, ?_, ?_⟩
  · intro f1 hf1
    rw [hg]
    rcases List.mem_append.1 hf1 with hf1 | hf1
    · exact ha f1 hf1
    · exact absurd hf1 (hno f1)
  · intro hf1
    rw [hg] at hf1
    rw [hg, hl]
    rcases List.mem_append.1 hf1 with hf1 | hf1
    · exact hb hf1
    · exact absurd hf1 (hno _)
  · intro f1
    rw [List.count_append, List.count_eq_zero.2 (hno f1)]
    exact hc f1

theorem PassInv_pass (w : World) (es : List Event) (he : earlyExit w = false)
    (h : PassInv es w) :
    PassInv (es ++ Event.pass w.GFrameCounter ::
      passEvents w.GFrameCounter w.Timer.FramePayloads) (passSpec w) := by
  obtain ⟨ha, hb, hc⟩ := h
  have hnot : Event.pass w.GFrameCounter ∉ es :=
    fun hin => LastTickFrame_ne_of_pass w he (hb hin)
  have hno : ∀ f1, Event.pass f1 ∉ passEvents w.GFrameCounter w.Timer.FramePayloads :=
    fun f1 => passEvents_no_pass _ f1 _
  have hg : (passSpec w).GFrameCounter = w.GFrameCounter := rfl
  have hl : (passSpec w).Timer.LastTickFrame = w.GFrameCounter := rfl
  refine ⟨?_, ?_, ?_⟩
  · intro f1 hf1
    rw [hg]
    rcases List.mem_append.1 hf1 with hf1 | hf1
    · exact ha f1 hf1
    · rcases List.mem_cons.1 hf1 with hf1 | hf1
      · cases hf1; exact le_refl _
      · exact absurd hf1 (hno f1)
  · intro _
    rw [hg, hl]
  · intro f1
    rw [List.count_append, List.count_cons, List.count_eq_zero.2 (hno f1)]
    by_cases hf : f1 = w.GFrameCounter
    · subst hf
      simp [List.count_eq_zero.2 hnot]
    · have hne : (Event.pass w.GFrameCounter == Event.pass f1) = false := by
        simp only [beq_eq_false_iff_ne, ne_eq, Event.pass.injEq]
        exact fun h => hf h.symm
      rw [hne]
      have := hc f1
      simp only [Bool.false_eq_true, if_false]
      omega

theorem PassInv_step (c : Call) (w : World) (es : List Event)
    (hmono : nonDecreasing w.GFrameCounter [c] = true) (h : PassInv es w) :
    PassInv (es ++ c.events w) (c.spec w) := by
  cases c with
  | Create d f => exact PassInv_create w es d f h
  | Tick dt =>
    cases he : earlyExit w with
    | true =>
      simp only [Call.events, Call.spec, he, if_true, List.append_nil, TickSpec_early w he]
      exact h
    | false =>
      simp only [Call.events, Call.spec, he, Bool.false_eq_true, if_false, TickSpec_pass w he]
      exact PassInv_pass w es he h
  | StartTicking =>
    obtain ⟨ha, hb, hc⟩ := h
    have hs : (Cybergem.StartTicking w).GFrameCounter = w.GFrameCounter ∧
        (Cybergem.StartTicking w).Timer.LastTickFrame = w.Timer.LastTickFrame := by
      by_cases hr : w.Timer.bTickRegistered = true <;> simp [Cybergem.StartTicking, hr]
    simp only [Call.events, List.append_nil, Call.spec]
    refine ⟨fun f1 hf1 => hs.1 ▸ ha f1 hf1, fun hf1 => ?_, hc⟩
    rw [hs.1] at hf1
    rw [hs.1, hs.2]
    exact hb hf1
  | Frame g =>
    obtain ⟨ha, hb, hc⟩ := h
    simp only [nonDecreasing, Bool.and_true, decide_eq_true_eq] at hmono
    simp only [Call.events, List.append_nil, Call.spec]
    refine ⟨fun f1 hf1 => le_trans (ha f1 hf1) hmono, ?_, hc⟩
    intro hf1
    have hle : g ≤ w.GFrameCounter := ha g hf1
    have heq : g = w.GFrameCounter := le_antisymm hle hmono
    show w.Timer.LastTickFrame = g
    rw [heq]
    exact hb (heq ▸ hf1)

theorem TickSpec_GFrameCounter (w : World) : (TickSpec w).GFrameCounter = w.GFrameCounter := by
  cases he : earlyExit w with
  | true => rw [TickSpec_early w he]
  | false => rw [TickSpec_pass w he]; rfl

theorem StartTicking_GFrameCounter (w : World) :
    (StartTicking w).GFrameCounter = w.GFrameCounter := by
  by_cases hr : w.Timer.bTickRegistered = true <;> simp [StartTicking, hr]

theorem Create_GFrameCounter (d : Nat) (f : StdFunction) (w : World) :
    (Create d f w).GFrameCounter = w.GFrameCounter := by
  rw [Create_eq]; rfl

theorem nonDecreasing_cons (c : Call) (cs : List Call) (w : World)
    (h : nonDecreasing w.GFrameCounter (c :: cs) = true) :
    nonDecreasing w.GFrameCounter [c] = true ∧
      nonDecreasing (c.spec w).GFrameCounter cs = true := by
  cases c with
  | Create d f =>
    simp only [nonDecreasing] at h
    simpa [nonDecreasing, Call.spec, Cybergem.Create_GFrameCounter] using h
  | Tick dt =>
    simp only [nonDecreasing] at h
    simpa [nonDecreasing, Call.spec, TickSpec_GFrameCounter] using h
  | StartTicking =>
    simp only [nonDecreasing] at h
    simpa [nonDecreasing, Call.spec, Cybergem.StartTicking_GFrameCounter] using h
  | Frame g =>
    simp only [nonDecreasing, Bool.and_eq_true, decide_eq_true_eq] at h
    simpa [nonDecreasing, Call.spec] using h

theorem PassInv_run : ∀ (calls : List Call) (w : World) (es : List Event),
    nonDecreasing w.GFrameCounter calls = true → PassInv es w →
    PassInv (es ++ runEvents calls w) (runSpec calls w) := by
  intro calls
  induction calls with
  | nil => intro w es _ h; simpa [runEvents, runSpec] using h
  | cons c cs ih =>
    intro w es hmono h
    obtain ⟨h1, h2⟩ := nonDecreasing_cons c cs w hmono
    have := ih (c.spec w) (es ++ c.events w) h2 (PassInv_step c w es h1 h)
    simpa [runEvents, runSpec, List.append_assoc] using this

/-- C7: `Tick` is idempotent within one frame.  From every timer state, after a
`Tick` call (with enough budget) a second `Tick` call at the same frame counter
value returns `true` and leaves the world, log included, exactly as it is, so it
invokes nothing.  And over any sequence of calls in which the frame counter
never decreases, the log shows at most one evaluation pass per frame counter
value. -/
theorem Tick_once_per_frame :
    (∀ (w : World) (fuel : Nat) (DeltaTime : float), passFuel w ≤ fuel →
      ∃ w1, Tick fuel DeltaTime w = .ok (true, w1) ∧
        ∀ (fuel2 : Nat) (DeltaTime2 : float), Tick fuel2 DeltaTime2 w1 = .ok (true, w1)) ∧
    (∀ (calls : List Call) (w : World), nonDecreasing w.GFrameCounter calls = true →
      ∃ N, ∀ fuel, N ≤ fuel →
        ∃ (w1 : World) (es : List Event), run fuel calls w = .ok w1 ∧
          w1.Log = w.Log ++ es ∧ ∀ g, es.count (Event.pass g) ≤ 1) := by
  constructor
  · intro w fuel dt hf
    exact ⟨TickSpec w, Tick_eq fuel dt w hf,
      fun fuel2 dt2 => Tick_early fuel2 dt2 _ (earlyExit_TickSpec w)⟩
  · intro calls w hmono
    refine ⟨runFuel calls w, fun fuel hf => ⟨runSpec calls w, runEvents calls w,
      run_eq fuel calls w hf, runSpec_Log calls w, ?_⟩⟩
    have := PassInv_run calls w [] hmono ⟨by simp, by simp, by simp⟩
    simpa using this.2.2

/-- Witness for C7: `Tick` on `sampleTwoDue`, and the calls `sampleCalls` on a
freshly constructed timer at frame 10. -/
theorem Tick_once_per_frame_witness :
    (passFuel sampleTwoDue ≤ 4 ∧
      ∃ w1, Tick 4 0 sampleTwoDue = .ok (true, w1) ∧
        ∀ (fuel2 : Nat) (DeltaTime2 : float), Tick fuel2 DeltaTime2 w1 = .ok (true, w1)) ∧
    (nonDecreasing (World.fresh 10 0).GFrameCounter sampleCalls = true ∧
      ∃ N, ∀ fuel, N ≤ fuel →
        ∃ (w1 : World) (es : List Event), run fuel sampleCalls (World.fresh 10 0) = .ok w1 ∧
          w1.Log = (World.fresh 10 0).Log ++ es ∧ ∀ g, es.count (Event.pass g) ≤ 1) :=
  ⟨⟨by decide, Tick_once_per_frame.1 sampleTwoDue 4 0 (by decide)⟩,
    ⟨by decide, Tick_once_per_frame.2 sampleCalls (World.fresh 10 0) (by decide)⟩⟩

/-! ## Every `Create` call pays for at most one invocation -/

theorem invokes_append (n : Nat) (a b : List Event) :
    invokes n (a ++ b) = invokes n a + invokes n b := by
  simp [invokes, List.countP_append]

theorem creates_append (n : Nat) (a b : List Event) :
    creates n (a ++ b) = creates n a + creates n b := by
  simp [creates, List.countP_append]

theorem pending_append (n : Nat) (a b : List (Option FFramePayload)) :
    pending n (a ++ b) = pending n a + pending n b := by
  simp [pending, List.countP_append]

theorem code_count_law (n g : Nat) (c : Code) :
    invokes n (c.events g) + pending n (c.payloads g) = creates n (c.events g) := by
  induction c with
  | done => simp [Code.events, Code.payloads, invokes, pending, creates]
  | create d m b k ihb ihk =>
    by_cases hd : d = 0
    · simp only [Code.events, Code.payloads, hd, if_true, invokes_append, creates_append,
        pending_append]
      simp only [invokes, creates, List.countP_cons, Event.isInvoke, Event.isCreate] at *
      simp only [Bool.false_eq_true, if_false]
      omega
    · simp only [Code.events, Code.payloads, hd, if_false, invokes_append, creates_append,
        pending_append]
      simp only [invokes, creates, pending, List.countP_cons, List.countP_nil, Event.isInvoke,
        Event.isCreate, isPending, FFramePayload.new] at *
      simp only [Bool.false_eq_true, if_false, Bool.not_false, Bool.true_and]
      omega

theorem createEvents_count_law (n g d : Nat) (f : StdFunction) :
    invokes n (createEvents g d f) + pending n (createPayloads g d f) =
      creates n (createEvents g d f) := by
  have h := code_count_law n g f.Body
  by_cases hd : d = 0
  · simp only [createEvents, createPayloads, hd, if_true, StdFunction.events]
    simp only [invokes, creates, List.countP_cons, Event.isInvoke, Event.isCreate] at *
    simp only [Bool.false_eq_true, if_false]
    omega
  · simp only [createEvents, createPayloads, hd, if_false]
    simp only [invokes, creates, pending, List.countP_cons, List.countP_nil, Event.isInvoke,
      Event.isCreate, isPending, FFramePayload.new] at *
    simp only [Bool.false_eq_true, if_false, Bool.not_false, Bool.true_and]
    omega

theorem entry_count_law (n g : Nat) (e : Option FFramePayload) :
    invokes n (entryEvents g e) + pending n [tickEntry g e] + pending n (entryPayloads g e) =
      creates n (entryEvents g e) + pending n [e] := by
  cases e with
  | none => simp [entryEvents, entryPayloads, tickEntry, invokes, creates, pending, isPending]
  | some p =>
    have hlaw := code_count_law n g p.Func.Body
    cases hb : p.bDone with
    | true =>
      have hf : p.fires g = false := by simp [FFramePayload.fires, hb]
      have ht : p.tick g = p := by simp [FFramePayload.tick, hb]
      simp [entryEvents, entryPayloads, tickEntry, hf, ht, invokes, creates, pending]
    | false =>
      by_cases hg : g > p.CreationFrame
      · by_cases h2 : decr p.FrameDelay = 0
        · have hf : p.fires g = true := by simp [FFramePayload.fires, hb, hg, h2]
          simp only [entryEvents, entryPayloads, tickEntry, hf, if_true, StdFunction.events]
          simp only [invokes, creates, pending, List.countP_cons, List.countP_nil,
            Event.isInvoke, Event.isCreate, isPending, FFramePayload.tick, hb, hg, h2] at *
          simp
          omega
        · have hf : p.fires g = false := by simp [FFramePayload.fires, hb, hg, h2]
          simp [entryEvents, entryPayloads, tickEntry, hf, invokes, creates, pending,
            isPending, FFramePayload.tick, hb, hg, h2, List.countP_cons]
      · have hf : p.fires g = false := by simp [FFramePayload.fires, hb, hg]
        have ht : p.tick g = p := by simp [FFramePayload.tick, hb, hg]
        simp [entryEvents, entryPayloads, tickEntry, hf, ht, invokes, creates, pending]

theorem pass_count_law (n g : Nat) (l : List (Option FFramePayload)) :
    invokes n (passEvents g l) + pending n (l.map (tickEntry g)) +
      pending n (passPayloads g l) = creates n (passEvents g l) + pending n l := by
  induction l with
  | nil => simp [passEvents, passPayloads, invokes, creates, pending]
  | cons x xs ih =>
    have hx := entry_count_law n g x
    have hp : ∀ (a : Option FFramePayload) (t : List (Option FFramePayload)),
        pending n (a :: t) = pending n [a] + pending n t := by
      intro a t
      rw [show a :: t = [a] ++ t from rfl, pending_append]
    simp only [passEvents, passPayloads, List.map_cons, invokes_append, creates_append,
      pending_append]
    rw [hp (tickEntry g x), hp x]
    omega

theorem pending_filter_isLive (n : Nat) (l : List (Option FFramePayload)) :
    pending n (l.filter isLive) = pending n l := by
  induction l with
  | nil => rfl
  | cons x xs ih =>
    have hp : ∀ (a : Option FFramePayload) (t : List (Option FFramePayload)),
        pending n (a :: t) = pending n [a] + pending n t := by
      intro a t
      rw [show a :: t = [a] ++ t from rfl, pending_append]
    cases hx : isLive x with
    | true => rw [List.filter_cons_of_pos hx, hp x (List.filter isLive xs), hp x xs, ih]
    | false =>
      rw [List.filter_cons_of_neg (by simp [hx]), hp x, ih]
      have : pending n [x] = 0 := by
        cases x with
        | none => simp [pending, isPending]
        | some p =>
          simp only [isLive, isDead, Bool.not_eq_false'] at hx
          simp [pending, isPending, hx]
      omega

theorem call_count_law (n : Nat) (c : Call) (w : World) :
    invokes n (c.events w) + pending n (c.spec w).Timer.FramePayloads =
      creates n (c.events w) + pending n w.Timer.FramePayloads := by
  cases c with
  | Create d f =>
    have h := createEvents_count_law n w.GFrameCounter d f
    simp only [Call.events, Call.spec, Cybergem.Create_eq, World.extend, pending_append]
    omega
  | Tick dt =>
    cases he : earlyExit w with
    | true => simp [Call.events, Call.spec, he, TickSpec_early w he, invokes, creates]
    | false =>
      have h := pass_count_law n w.GFrameCounter w.Timer.FramePayloads
      simp only [Call.events, Call.spec, he, Bool.false_eq_true, if_false, TickSpec_pass w he,
        passSpec, pending_append, pending_filter_isLive]
      simp only [invokes, creates, List.countP_cons, Event.isInvoke, Event.isCreate] at *
      simp only [Bool.false_eq_true, if_false]
      omega
  | StartTicking =>
    by_cases hr : w.Timer.bTickRegistered = true <;>
      simp [Call.events, Call.spec, Cybergem.StartTicking, hr, invokes, creates]
  | Frame g => simp [Call.events, Call.spec, invokes, creates]

theorem run_count_law (n : Nat) : ∀ (calls : List Call) (w : World),
    invokes n (runEvents calls w) + pending n (runSpec calls w).Timer.FramePayloads =
      creates n (runEvents calls w) + pending n w.Timer.FramePayloads := by
  intro calls
  induction calls with
  | nil => intro w; simp [runEvents, runSpec, invokes, creates]
  | cons c cs ih =>
    intro w
    have h1 := call_count_law n c w
    have h2 := ih (c.spec w)
    simp only [runEvents, runSpec, invokes_append, creates_append]
    omega

/-- C3: each function passed to `Create` is invoked at most once, whatever the
calls and whatever values the frame counter takes.  Over every sequence of calls
from every world, for every callback name `n`: the invocations of `n` logged
plus the payloads of `n` still pending at the end equal the `Create` calls for
`n` logged plus the payloads of `n` pending at the start, so every invocation is
paid for by its own `Create` call (or its own initially pending payload).  In
particular `TickFrame` on a payload that is done returns `true` and changes
nothing, and when `TickFrame` invokes the function, the payload written back to
its slot before the call is already done, so a `TickFrame` re-entered from
inside the function finds it done. -/
theorem invoked_at_most_once :
    (∀ (calls : List Call) (w : World) (n : Nat),
      ∃ N, ∀ fuel, N ≤ fuel →
        ∃ (w1 : World) (es : List Event), run fuel calls w = .ok w1 ∧
          w1.Log = w.Log ++ es ∧
          invokes n es + pending n w1.Timer.FramePayloads =
            creates n es + pending n w.Timer.FramePayloads) ∧
    (∀ (self : Nat) (p : FFramePayload) (w : World), p.bDone = true →
      TickFrame self p w = (true, w)) ∧
    (∀ (self : Nat) (p : FFramePayload) (w : World), p.fires w.GFrameCounter = true →
      ∃ q : FFramePayload, q.bDone = true ∧
        TickFrame self p w = (true, q.Func.call (w.store self q)) ∧
        ∀ v : World, TickFrame self q v = (true, v)) := by
  refine ⟨?_, ?_, ?_⟩
  · intro calls w n
    exact ⟨runFuel calls w, fun fuel hf => ⟨runSpec calls w, runEvents calls w,
      run_eq fuel calls w hf, runSpec_Log calls w, run_count_law n calls w⟩⟩
  · intro self p w hb
    simp [TickFrame, hb]
  · intro self p w hf
    simp only [FFramePayload.fires, Bool.and_eq_true, Bool.not_eq_true', decide_eq_true_eq] at hf
    obtain ⟨⟨hb, hg⟩, h2⟩ := hf
    refine ⟨{ p with FrameDelay := decr p.FrameDelay, bDone := true }, rfl, ?_, ?_⟩
    · simp [TickFrame, hb, hg, h2]
    · intro v
      simp [TickFrame]

/-! ## Never before the deadline -/

theorem decr_of_pos (x : Nat) (h1 : 1 ≤ x) (h2 : x < U64) : decr x = x - 1 := by
  unfold decr
  have h : x + (U64 - 1) = (x - 1) + U64 := by
    have : 1 ≤ U64 := by unfold U64; norm_num
    omega
  rw [h, Nat.add_mod_right, Nat.mod_eq_of_lt (by omega)]

theorem code_due (n D g : Nat) (c : Code) (h : DueFrom n D (c.events g)) :
    NotBefore n D (c.events g) ∧ FreshDue n D g (c.payloads g) := by
  induction c with
  | done =>
    constructor
    · intro g1 hg1; simp [Code.events] at hg1
    · intro p hp; simp [Code.payloads] at hp
  | create d m b k ihb ihk =>
    have hk : DueFrom n D (k.events g) := by
      intro d1 F hin
      exact h d1 F (by simp [Code.events, hin])
    obtain ⟨hk1, hk2⟩ := ihk hk
    by_cases hd : d = 0
    · have hb : DueFrom n D (b.events g) := by
        intro d1 F hin
        exact h d1 F (by simp [Code.events, hd, hin])
      obtain ⟨hb1, hb2⟩ := ihb hb
      constructor
      · intro g1 hg1
        simp only [Code.events, hd, if_true, List.cons_append, List.mem_cons, List.mem_append,
          Event.invoke.injEq] at hg1
        rcases hg1 with hg1 | hg1 | hg1 | hg1
        · cases hg1
        · obtain ⟨hm, hg⟩ := hg1
          subst hm; subst hg
          have := h 0 g1 (by simp [Code.events, hd])
          omega
        · exact hb1 g1 hg1
        · exact hk1 g1 hg1
      · intro p hp hn
        simp only [Code.payloads, hd, if_true, List.mem_append] at hp
        rcases hp with hp | hp
        · exact hb2 p hp hn
        · exact hk2 p hp hn
    · constructor
      · intro g1 hg1
        simp only [Code.events, hd, if_false, List.cons_append, List.nil_append, List.mem_cons,
          List.mem_append] at hg1
        rcases hg1 with hg1 | hg1
        · cases hg1
        · exact hk1 g1 hg1
      · intro p hp hn
        simp only [Code.payloads, hd, if_false, List.mem_append, List.mem_singleton,
          Option.some.injEq] at hp
        rcases hp with hp | hp
        · subst hp
          simp only [FFramePayload.new] at hn
          have := h d g (by simp [Code.events, hn])
          have hpos : d > 0 := Nat.pos_of_ne_zero hd
          refine ⟨rfl, rfl, ?_, ?_, ?_⟩ <;> simp only [FFramePayload.new, hpos, if_true]
          · exact hpos
          · exact this.1
          · exact this.2
        · exact hk2 p hp hn

theorem createEvents_due (n D g d : Nat) (f : StdFunction)
    (h : DueFrom n D (createEvents g d f)) :
    NotBefore n D (createEvents g d f) ∧ FreshDue n D g (createPayloads g d f) := by
  by_cases hd : d = 0
  · have hb : DueFrom n D (f.Body.events g) := by
      intro d1 F hin
      exact h d1 F (by simp [createEvents, hd, StdFunction.events, hin])
    obtain ⟨hb1, hb2⟩ := code_due n D g f.Body hb
    constructor
    · intro g1 hg1
      simp only [createEvents, hd, if_true, StdFunction.events, List.mem_cons,
        Event.invoke.injEq] at hg1
      rcases hg1 with hg1 | hg1 | hg1
      · cases hg1
      · obtain ⟨hm, hg⟩ := hg1
        have := h 0 g (by simp [createEvents, hd, hm])
        omega
      · exact hb1 g1 hg1
    · intro p hp hn
      simp only [createPayloads, hd, if_true] at hp
      exact hb2 p hp hn
  · constructor
    · intro g1 hg1
      simp [createEvents, hd] at hg1
    · intro p hp hn
      simp only [createPayloads, hd, if_false, List.mem_singleton, Option.some.injEq] at hp
      subst hp
      simp only [FFramePayload.new] at hn
      have := h d g (by simp [createEvents, hn])
      have hpos : d > 0 := Nat.pos_of_ne_zero hd
      refine ⟨rfl, rfl, ?_, ?_, ?_⟩ <;> simp only [FFramePayload.new, hpos, if_true]
      · exact hpos
      · exact this.1
      · exact this.2

theorem mem_passEvents (g : Nat) (x : Event) (l : List (Option FFramePayload)) :
    x ∈ passEvents g l ↔ ∃ e ∈ l, x ∈ entryEvents g e := by
  induction l with
  | nil => simp [passEvents]
  | cons a as ih => simp [passEvents, ih]

theorem mem_passPayloads (g : Nat) (x : Option FFramePayload)
    (l : List (Option FFramePayload)) :
    x ∈ passPayloads g l ↔ ∃ e ∈ l, x ∈ entryPayloads g e := by
  induction l with
  | nil => simp [passPayloads]
  | cons a as ih => simp [passPayloads, ih]

theorem nextPass_of_pass (w : World) (he : earlyExit w = false) :
    nextPass w = w.GFrameCounter := by
  simp [nextPass, LastTickFrame_ne_of_pass w he]

theorem nextPass_passSpec (w : World) : nextPass (passSpec w) = w.GFrameCounter + 1 := by
  simp [nextPass, passSpec]

theorem entry_due (n D g : Nat) (e : Option FFramePayload)
    (h : DueFrom n D (entryEvents g e))
    (hinv : ∀ p, e = some p → p.bDone = false → p.Func.Name = n →
      1 ≤ p.FrameDelay ∧ p.FrameDelay < U64 ∧ D + 1 ≤ p.FrameDelay + max (p.CreationFrame + 1) g) :
    NotBefore n D (entryEvents g e) ∧ FreshDue n D g (entryPayloads g e) := by
  cases e with
  | none =>
    constructor
    · intro g1 hg1; simp [entryEvents] at hg1
    · intro p hp; simp [entryPayloads] at hp
  | some p =>
    by_cases hf : p.fires g = true
    · have hb : DueFrom n D (p.Func.Body.events g) := by
        intro d1 F hin
        exact h d1 F (by simp [entryEvents, hf, StdFunction.events, hin])
      obtain ⟨hb1, hb2⟩ := code_due n D g p.Func.Body hb
      constructor
      · intro g1 hg1
        simp only [entryEvents, hf, if_true, StdFunction.events, List.mem_cons,
          Event.invoke.injEq] at hg1
        rcases hg1 with hg1 | hg1
        · obtain ⟨hm, hg⟩ := hg1
          simp only [FFramePayload.fires, Bool.and_eq_true, Bool.not_eq_true',
            decide_eq_true_eq] at hf
          obtain ⟨⟨hdone, hgt⟩, hz⟩ := hf
          obtain ⟨h1, h2, h3⟩ := hinv p rfl hdone hm.symm
          rw [decr_of_pos _ h1 h2] at hz
          have hmax : max (p.CreationFrame + 1) g = g := max_eq_right (by omega)
          rw [hmax] at h3
          omega
        · exact hb1 g1 hg1
      · intro q hq hn
        simp only [entryPayloads, hf, if_true] at hq
        exact hb2 q hq hn
    · constructor
      · intro g1 hg1; simp [entryEvents, hf] at hg1
      · intro q hq; simp [entryPayloads, hf] at hq

theorem tick_Func (g : Nat) (p : FFramePayload) : (p.tick g).Func = p.Func := by
  unfold FFramePayload.tick
  split <;> rfl

theorem tick_due (n D g : Nat) (p : FFramePayload) (hn : p.Func.Name = n)
    (hq : (p.tick g).bDone = false)
    (hinv : p.bDone = false → 1 ≤ p.FrameDelay ∧ p.FrameDelay < U64 ∧
      D + 1 ≤ p.FrameDelay + max (p.CreationFrame + 1) g) :
    (p.tick g).Func.Name = n ∧ 1 ≤ (p.tick g).FrameDelay ∧ (p.tick g).FrameDelay < U64 ∧
      D + 1 ≤ (p.tick g).FrameDelay + max ((p.tick g).CreationFrame + 1) (g + 1) := by
  cases hb : p.bDone with
  | true =>
    have ht : p.tick g = p := by simp [FFramePayload.tick, hb]
    rw [ht, hb] at hq
    cases hq
  | false =>
    obtain ⟨h1, h2, h3⟩ := hinv hb
    by_cases hg : g > p.CreationFrame
    · have hbd : (p.tick g).bDone = decide (decr p.FrameDelay = 0) := by
        simp [FFramePayload.tick, hb, hg]
      have hfd : (p.tick g).FrameDelay = decr p.FrameDelay := by
        simp [FFramePayload.tick, hb, hg]
      have hcf : (p.tick g).CreationFrame = p.CreationFrame := by
        simp [FFramePayload.tick, hb, hg]
      have hnz : decr p.FrameDelay ≠ 0 := by
        intro hz
        rw [hbd, hz] at hq
        simp at hq
      rw [hfd, hcf, tick_Func]
      rw [decr_of_pos _ h1 h2] at hnz ⊢
      have hmax : max (p.CreationFrame + 1) g = g := max_eq_right (by omega)
      have hmax2 : max (p.CreationFrame + 1) (g + 1) = g + 1 := max_eq_right (by omega)
      rw [hmax] at h3
      rw [hmax2]
      exact ⟨hn, by omega, by omega, by omega⟩
    · have ht : p.tick g = p := by simp [FFramePayload.tick, hb, hg]
      rw [ht]
      have hmax : max (p.CreationFrame + 1) g = p.CreationFrame + 1 := max_eq_left (by omega)
      have hmax2 : max (p.CreationFrame + 1) (g + 1) = p.CreationFrame + 1 :=
        max_eq_left (by omega)
      rw [hmax] at h3
      rw [hmax2]
      exact ⟨hn, h1, h2, h3⟩

theorem passSpec_due (n D : Nat) (w : World) (he : earlyExit w = false)
    (hinv : DueInv n D w)
    (h : DueFrom n D (passEvents w.GFrameCounter w.Timer.FramePayloads)) :
    NotBefore n D (passEvents w.GFrameCounter w.Timer.FramePayloads) ∧
      DueInv n D (passSpec w) := by
  have hnp := nextPass_of_pass w he
  have hentry : ∀ e ∈ w.Timer.FramePayloads,
      NotBefore n D (entryEvents w.GFrameCounter e) ∧
        FreshDue n D w.GFrameCounter (entryPayloads w.GFrameCounter e) := by
    intro e hein
    apply entry_due n D w.GFrameCounter e
    · intro d F hin
      exact h d F ((mem_passEvents _ _ _).2 ⟨e, hein, hin⟩)
    · intro p hp hb hn
      subst hp
      have := hinv p hein hb hn
      rwa [hnp] at this
  constructor
  · intro g1 hg1
    obtain ⟨e, hein, hx⟩ := (mem_passEvents _ _ _).1 hg1
    exact (hentry e hein).1 g1 hx
  · intro q hq hb hn
    rw [nextPass_passSpec]
    simp only [passSpec, List.mem_append, List.mem_filter, List.mem_map] at hq
    rcases hq with ⟨⟨e, hein, hte⟩, _⟩ | hq
    · cases e with
      | none => simp [tickEntry] at hte
      | some p =>
        simp only [tickEntry, Option.some.injEq] at hte
        subst hte
        have hpn : p.Func.Name = n := by rw [← tick_Func w.GFrameCounter p]; exact hn
        have := tick_due n D w.GFrameCounter p hpn hb (fun hpb => by
          have := hinv p hein hpb hpn
          rwa [hnp] at this)
        exact this.2
    · obtain ⟨e, hein, hx⟩ := (mem_passPayloads _ _ _).1 hq
      obtain ⟨_, hc, h1, h2, h3⟩ := (hentry e hein).2 q hx hn
      refine ⟨h1, h2, ?_⟩
      rw [hc]
      have : max (w.GFrameCounter + 1) (w.GFrameCounter + 1) = w.GFrameCounter + 1 := max_self _
      rw [this]
      omega

theorem DueFrom_append (n D : Nat) (a b : List Event) :
    DueFrom n D (a ++ b) ↔ DueFrom n D a ∧ DueFrom n D b := by
  constructor
  · intro h
    exact ⟨fun d F hin => h d F (List.mem_append.2 (Or.inl hin)),
      fun d F hin => h d F (List.mem_append.2 (Or.inr hin))⟩
  · rintro ⟨ha, hb⟩ d F hin
    rcases List.mem_append.1 hin with hin | hin
    · exact ha d F hin
    · exact hb d F hin

theorem NotBefore_append (n D : Nat) (a b : List Event) :
    NotBefore n D (a ++ b) ↔ NotBefore n D a ∧ NotBefore n D b := by
  constructor
  · intro h
    exact ⟨fun g hin => h g (List.mem_append.2 (Or.inl hin)),
      fun g hin => h g (List.mem_append.2 (Or.inr hin))⟩
  · rintro ⟨ha, hb⟩ g hin
    rcases List.mem_append.1 hin with hin | hin
    · exact ha g hin
    · exact hb g hin

theorem DueInv_congr (n D : Nat) (w v : World)
    (hl : v.Timer.FramePayloads = w.Timer.FramePayloads) (hn : nextPass w ≤ nextPass v)
    (h : DueInv n D w) : DueInv n D v := by
  intro p hp hb hname
  rw [hl] at hp
  obtain ⟨h1, h2, h3⟩ := h p hp hb hname
  refine ⟨h1, h2, ?_⟩
  have : max (p.CreationFrame + 1) (nextPass w) ≤ max (p.CreationFrame + 1) (nextPass v) :=
    max_le_max (le_refl _) hn
  omega

theorem Create_due (n D d : Nat) (f : StdFunction) (w : World) (hinv : DueInv n D w)
    (h : DueFrom n D (createEvents w.GFrameCounter d f)) :
    NotBefore n D (createEvents w.GFrameCounter d f) ∧ DueInv n D (Create d f w) := by
  obtain ⟨h1, h2⟩ := createEvents_due n D w.GFrameCounter d f h
  refine ⟨h1, ?_⟩
  intro p hp hb hname
  have hnp : nextPass (Create d f w) = nextPass w := by rw [Create_eq]; rfl
  rw [hnp]
  rw [Create_eq] at hp
  simp only [World.extend, List.mem_append] at hp
  rcases hp with hp | hp
  · exact hinv p hp hb hname
  · obtain ⟨_, hc, k1, k2, k3⟩ := h2 p hp hname
    refine ⟨k1, k2, ?_⟩
    rw [hc]
    have : w.GFrameCounter + 1 ≤ max (w.GFrameCounter + 1) (nextPass w) := le_max_left _ _
    omega

theorem call_due (n D : Nat) (c : Call) (w : World)
    (hmono : nonDecreasing w.GFrameCounter [c] = true) (hinv : DueInv n D w)
    (h : DueFrom n D (c.events w)) :
    NotBefore n D (c.events w) ∧ DueInv n D (c.spec w) := by
  cases c with
  | Create d f => exact Create_due n D d f w hinv h
  | Tick dt =>
    cases he : earlyExit w with
    | true =>
      simp only [Call.events, Call.spec, he, if_true, TickSpec_early w he]
      exact ⟨fun g hg => by simp at hg, hinv⟩
    | false =>
      simp only [Call.events, he, Bool.false_eq_true, if_false] at h
      simp only [Call.events, Call.spec, he, Bool.false_eq_true, if_false, TickSpec_pass w he]
      have hp : DueFrom n D (passEvents w.GFrameCounter w.Timer.FramePayloads) :=
        fun d F hin => h d F (List.mem_cons_of_mem _ hin)
      obtain ⟨h1, h2⟩ := passSpec_due n D w he hinv hp
      refine ⟨?_, h2⟩
      intro g hg
      rcases List.mem_cons.1 hg with hg | hg
      · cases hg
      · exact h1 g hg
  | StartTicking =>
    refine ⟨fun g hg => by simp [Call.events] at hg, ?_⟩
    apply DueInv_congr n D w _ _ _ hinv
    · by_cases hr : w.Timer.bTickRegistered = true <;>
        simp [Call.spec, Cybergem.StartTicking, hr]
    · by_cases hr : w.Timer.bTickRegistered = true <;>
        simp [Call.spec, Cybergem.StartTicking, hr, nextPass]
  | Frame g1 =>
    simp only [nonDecreasing, Bool.and_true, decide_eq_true_eq] at hmono
    refine ⟨fun g hg => by simp [Call.events] at hg, ?_⟩
    refine DueInv_congr n D w ((Call.Frame g1).spec w) rfl ?_ hinv
    simp only [nextPass, Call.spec]
    split <;> split <;> omega

theorem run_due (n D : Nat) : ∀ (calls : List Call) (w : World),
    nonDecreasing w.GFrameCounter calls = true → DueInv n D w →
    DueFrom n D (runEvents calls w) →
    NotBefore n D (runEvents calls w) ∧ DueInv n D (runSpec calls w) := by
  intro calls
  induction calls with
  | nil =>
    intro w _ hinv _
    exact ⟨fun g hg => by simp [runEvents] at hg, hinv⟩
  | cons c cs ih =>
    intro w hmono hinv h
    obtain ⟨m1, m2⟩ := nonDecreasing_cons c cs w hmono
    simp only [runEvents, DueFrom_append] at h
    obtain ⟨a1, a2⟩ := call_due n D c w m1 hinv h.1
    obtain ⟨b1, b2⟩ := ih (c.spec w) m2 a2 h.2
    simp only [runEvents, runSpec, NotBefore_append]
    exact ⟨⟨a1, b1⟩, b2⟩

theorem DueInv_of_fresh (n D : Nat) (w : World) (h : pending n w.Timer.FramePayloads = 0) :
    DueInv n D w := by
  intro p hp hb hname
  exfalso
  simp only [pending, List.countP_eq_zero] at h
  have := h (some p) hp
  simp [isPending, hb, hname] at this

/-- C2: over every sequence of calls in which the frame counter never decreases
(any number of `Tick` calls per frame, `Create` called by the host or from
inside callbacks), a callback is never invoked before its delay has elapsed.
Let no payload of the callback `n` be pending at the start.  With enough budget
the sequence runs to the end, and for every frame `D`: if every `Create` call
for `n` in the log was made with a `uint64` delay `d` at a frame `F` with
`D ≤ F + d`, then every invocation of `n` in the log is stamped with a frame
`g ≥ D`.  For a callback created once, with delay `d` at frame `F`, this is
`g ≥ F + d`. -/
theorem never_invoked_early (calls : List Call) (w : World) (n : Nat)
    (hmono : nonDecreasing w.GFrameCounter calls = true)
    (hfresh : pending n w.Timer.FramePayloads = 0) :
    ∃ N, ∀ fuel, N ≤ fuel →
      ∃ (w1 : World) (es : List Event), run fuel calls w = .ok w1 ∧
        w1.Log = w.Log ++ es ∧
        ∀ D, (∀ d F, Event.create n d F ∈ es → d < U64 ∧ D ≤ F + d) →
          ∀ g, Event.invoke n g ∈ es → D ≤ g := by
  refine ⟨runFuel calls w, fun fuel hf => ⟨runSpec calls w, runEvents calls w,
    run_eq fuel calls w hf, runSpec_Log calls w, ?_⟩⟩
  intro D hD
  exact (run_due n D calls w hmono (DueInv_of_fresh n D w hfresh) hD).1

/-- Witness for C2: the calls `sampleCalls` on a freshly constructed timer at
frame 10, for the callback 3 (created at frame 11 with delay 2, invoked at 14). -/
theorem never_invoked_early_witness :
    nonDecreasing (World.fresh 10 0).GFrameCounter sampleCalls = true ∧
    pending 3 (World.fresh 10 0).Timer.FramePayloads = 0 ∧
    ∃ N, ∀ fuel, N ≤ fuel →
      ∃ (w1 : World) (es : List Event), run fuel sampleCalls (World.fresh 10 0) = .ok w1 ∧
        w1.Log = (World.fresh 10 0).Log ++ es ∧
        ∀ D, (∀ d F, Event.create 3 d F ∈ es → d < U64 ∧ D ≤ F + d) →
          ∀ g, Event.invoke 3 g ∈ es → D ≤ g :=
  ⟨by decide, by decide,
    never_invoked_early sampleCalls (World.fresh 10 0) 3 (by decide) (by decide)⟩

/-! ## Callbacks that schedule callbacks -/

theorem Code.calls_payloads (g d : Nat) (f : StdFunction) (c : Code)
    (h : (d, f) ∈ c.calls) (hd : d ≠ 0) :
    some (FFramePayload.new g d f) ∈ c.payloads g := by
  induction c with
  | done => simp [Code.calls] at h
  | create d1 m b k ihb ihk =>
    simp only [Code.calls, List.cons_append, List.mem_cons, List.mem_append, Prod.mk.injEq] at h
    simp only [Code.payloads, List.mem_append]
    rcases h with ⟨h1, h2⟩ | h | h
    · subst h1; subst h2
      left
      simp [hd]
    · by_cases hd1 : d1 = 0
      · simp only [hd1, if_true] at h
        left
        simp only [hd1, if_true]
        exact ihb h
      · simp [hd1] at h
    · right
      exact ihk h

theorem Code.calls_events (g d : Nat) (f : StdFunction) (c : Code)
    (h : (d, f) ∈ c.calls) : Event.create f.Name d g ∈ c.events g := by
  induction c with
  | done => simp [Code.calls] at h
  | create d1 m b k ihb ihk =>
    simp only [Code.calls, List.cons_append, List.mem_cons, List.mem_append, Prod.mk.injEq] at h
    simp only [Code.events, List.cons_append, List.mem_cons, List.mem_append]
    rcases h with ⟨h1, h2⟩ | h | h
    · subst h1; subst h2
      left
      rfl
    · by_cases hd1 : d1 = 0
      · simp only [hd1, if_true] at h
        right; left
        simp only [hd1, if_true, List.mem_cons]
        right
        exact ihb h
      · simp [hd1] at h
    · right; right
      exact ihk h

theorem fires_new_iff (G d g : Nat) (f : StdFunction) (h1 : 1 ≤ d) (h2 : d < U64) :
    (FFramePayload.mk false G d f).fires g = true ↔ G < g ∧ d = 1 := by
  simp only [FFramePayload.fires, Bool.not_false, Bool.true_and, Bool.and_eq_true,
    decide_eq_true_eq, decr_of_pos d h1 h2]
  constructor
  · rintro ⟨a, b⟩; exact ⟨a, by omega⟩
  · rintro ⟨a, b⟩; exact ⟨a, by omega⟩

/-- C8: a callback that runs during a pass at frame `G` and calls
`Create(d, f)` with `1 ≤ d` gets a payload that waits.  Let the payload `p` in
slot `i` fire in the pass and let its function (or a function it runs with delay
zero) call `Create(d, f)`.  With enough budget `Tick` returns; the new payload
is in `FramePayloads` after the pass, not done and with its delay `d`
undiminished; `TickFrame` on it at frame `G` returns `false` and changes
nothing; the log of the pass holds the events of the entries present at pass
start only; the array after the pass is every entry present at pass start ticked
exactly once (dead ones removed), followed by the appended ones; the pass is
remembered in `LastTickFrame`; and the new payload fires at a frame `g` exactly
when `G < g` and `d = 1`: never at `G`, and for `d = 1` in the next pass at a
later frame. -/
theorem nested_Create_waits (w : World) (fuel : Nat) (DeltaTime : float) (i : Nat)
    (p : FFramePayload) (d : Nat) (f : StdFunction)
    (hpass : earlyExit w = false) (hfuel : passFuel w ≤ fuel)
    (hi : w.Timer.FramePayloads[i]? = some (some p))
    (hfire : p.fires w.GFrameCounter = true)
    (hcall : (d, f) ∈ p.Func.Body.calls) (hd : 1 ≤ d) (hd64 : d < U64) :
    ∃ w1, Tick fuel DeltaTime w = .ok (true, w1) ∧
      some ⟨false, w.GFrameCounter, d, f⟩ ∈ w1.Timer.FramePayloads ∧
      (∀ (j : Nat) (v : World), v.GFrameCounter = w.GFrameCounter →
        TickFrame j ⟨false, w.GFrameCounter, d, f⟩ v = (false, v)) ∧
      w1.Log = w.Log ++ Event.pass w.GFrameCounter ::
        passEvents w.GFrameCounter w.Timer.FramePayloads ∧
      w1.Timer.FramePayloads =
        (w.Timer.FramePayloads.map (tickEntry w.GFrameCounter)).filter isLive ++
          passPayloads w.GFrameCounter w.Timer.FramePayloads ∧
      w1.Timer.LastTickFrame = w.GFrameCounter ∧
      ∀ g, (FFramePayload.mk false w.GFrameCounter d f).fires g = true ↔
        w.GFrameCounter < g ∧ d = 1 := by
  have hnew : FFramePayload.new w.GFrameCounter d f = ⟨false, w.GFrameCounter, d, f⟩ := by
    have : d > 0 := hd
    simp [FFramePayload.new, this]
  refine ⟨passSpec w, ?_, ?_, ?_, rfl, rfl, rfl, fun g => fires_new_iff _ d g f hd hd64⟩
  · rw [Tick_eq fuel DeltaTime w hfuel, TickSpec_pass w hpass]
  · simp only [passSpec, List.mem_append]
    right
    rw [mem_passPayloads]
    refine ⟨some p, List.getElem?_mem hi, ?_⟩
    simp only [entryPayloads, hfire, if_true]
    rw [← hnew]
    exact Code.calls_payloads _ d f _ hcall (by omega)
  · intro j v hv
    apply TickFrame_inert
    simp [inert, hv]

/-- Witness for C8: the payload of `sampleNested` fires at frame 5 and its
callback calls `Create(1, f)`. -/
theorem nested_Create_waits_witness :
    ∃ w1, Tick 3 0 sampleNested = .ok (true, w1) ∧
      some ⟨false, sampleNested.GFrameCounter, 1, ⟨9, .done⟩⟩ ∈ w1.Timer.FramePayloads ∧
      (∀ (j : Nat) (v : World), v.GFrameCounter = sampleNested.GFrameCounter →
        TickFrame j ⟨false, sampleNested.GFrameCounter, 1, ⟨9, .done⟩⟩ v = (false, v)) ∧
      w1.Log = sampleNested.Log ++ Event.pass sampleNested.GFrameCounter ::
        passEvents sampleNested.GFrameCounter sampleNested.Timer.FramePayloads ∧
      w1.Timer.FramePayloads =
        (sampleNested.Timer.FramePayloads.map (tickEntry sampleNested.GFrameCounter)).filter
            isLive ++
          passPayloads sampleNested.GFrameCounter sampleNested.Timer.FramePayloads ∧
      w1.Timer.LastTickFrame = sampleNested.GFrameCounter ∧
      ∀ g, (FFramePayload.mk false sampleNested.GFrameCounter 1 ⟨9, .done⟩).fires g = true ↔
        sampleNested.GFrameCounter < g ∧ 1 = 1 :=
  nested_Create_waits sampleNested 3 0 0 ⟨false, 1, 1, ⟨1, .create 1 9 .done .done⟩⟩ 1
    ⟨9, .done⟩ (by decide) (by decide) (by decide) (by decide) (by decide) (by decide)
    (by decide)

/-! ## One pass per frame: waiting and firing -/

theorem runSpec_append (a b : List Call) : ∀ w : World,
    runSpec (a ++ b) w = runSpec b (runSpec a w) := by
  induction a with
  | nil => intro w; rfl
  | cons c cs ih => intro w; simp [runSpec, ih]

theorem runFuel_append (a b : List Call) : ∀ w : World,
    runFuel (a ++ b) w = max (runFuel a w) (runFuel b (runSpec a w)) := by
  induction a with
  | nil => intro w; simp [runFuel, runSpec]
  | cons c cs ih => intro w; simp [runFuel, runSpec, ih, max_assoc]

theorem runEvents_append (a b : List Call) : ∀ w : World,
    runEvents (a ++ b) w = runEvents a w ++ runEvents b (runSpec a w) := by
  induction a with
  | nil => intro w; simp [runEvents, runSpec]
  | cons c cs ih => intro w; simp [runEvents, runSpec, ih]

theorem earlyExit_false_of_mem (v : World) (e : Option FFramePayload)
    (he : e ∈ v.Timer.FramePayloads) (hl : v.Timer.LastTickFrame ≠ v.GFrameCounter) :
    earlyExit v = false := by
  have hne : v.Timer.FramePayloads ≠ [] := List.ne_nil_of_mem he
  simp [earlyExit, AllTimersDone, hne, hl]

/-- A pending payload with one frame left fires in a pass at a later frame. -/
theorem pass_fires (v : World) (C : Nat) (f : StdFunction)
    (hq : some ⟨false, C, 1, f⟩ ∈ v.Timer.FramePayloads) (hC : C < v.GFrameCounter) :
    Event.invoke f.Name v.GFrameCounter ∈ passEvents v.GFrameCounter v.Timer.FramePayloads := by
  rw [mem_passEvents]
  refine ⟨_, hq, ?_⟩
  have hf : (FFramePayload.mk false C 1 f).fires v.GFrameCounter = true :=
    (fires_new_iff C 1 v.GFrameCounter f (le_refl _) (by unfold U64; norm_num)).2 ⟨hC, rfl⟩
  simp [entryEvents, hf, StdFunction.events]

/-- A pending payload with more than one frame left loses one in a pass at a
later frame and stays pending. -/
theorem pass_waits (v : World) (C r : Nat) (f : StdFunction)
    (hq : some ⟨false, C, r, f⟩ ∈ v.Timer.FramePayloads) (hC : C < v.GFrameCounter)
    (hr : 2 ≤ r) (hr64 : r < U64) :
    some ⟨false, C, r - 1, f⟩ ∈ (passSpec v).Timer.FramePayloads := by
  simp only [passSpec, List.mem_append, List.mem_filter, List.mem_map]
  left
  have hne : r - 1 ≠ 0 := by omega
  have ht : (FFramePayload.mk false C r f).tick v.GFrameCounter = ⟨false, C, r - 1, f⟩ := by
    simp [FFramePayload.tick, hC, decr_of_pos r (by omega) hr64, hne]
  refine ⟨⟨_, hq, ?_⟩, ?_⟩
  · simp [tickEntry, ht]
  · simp [isLive, isDead]

/-- A `Tick` at the creation frame of a pending payload leaves it as it is. -/
theorem Tick_idle (v : World) (C r : Nat) (f : StdFunction)
    (hq : some ⟨false, C, r, f⟩ ∈ v.Timer.FramePayloads) (hC : v.GFrameCounter ≤ C) :
    some ⟨false, C, r, f⟩ ∈ (TickSpec v).Timer.FramePayloads := by
  cases he : earlyExit v with
  | true => rw [TickSpec_early v he]; exact hq
  | false =>
    rw [TickSpec_pass v he]
    simp only [passSpec, List.mem_append, List.mem_filter, List.mem_map]
    left
    have hng : ¬ C < v.GFrameCounter := by omega
    have ht : (FFramePayload.mk false C r f).tick v.GFrameCounter = ⟨false, C, r, f⟩ := by
      simp [FFramePayload.tick, hng]
    refine ⟨⟨_, hq, ?_⟩, ?_⟩
    · simp [tickEntry, ht]
    · simp [isLive, isDead]

theorem Create_mem (w : World) (d : Nat) (f : StdFunction) (hd : 1 ≤ d) :
    some ⟨false, w.GFrameCounter, d, f⟩ ∈ (Create d f w).Timer.FramePayloads := by
  have hpos : d > 0 := hd
  have hne : d ≠ 0 := by omega
  simp [Create_eq, World.extend, createPayloads, hne, FFramePayload.new, hpos]

theorem Create_LastTickFrame (w : World) (d : Nat) (f : StdFunction) :
    (Create d f w).Timer.LastTickFrame = w.Timer.LastTickFrame := by
  rw [Create_eq]; rfl

theorem TickSpec_LastTickFrame_of_mem (v : World) (e : Option FFramePayload)
    (he : e ∈ v.Timer.FramePayloads) :
    (TickSpec v).Timer.LastTickFrame = v.GFrameCounter := by
  cases hx : earlyExit v with
  | true =>
    rw [TickSpec_early v hx]
    by_contra hne
    rw [earlyExit_false_of_mem v e he hne] at hx
    cases hx
  | false => rw [TickSpec_pass v hx]; rfl

/-- With one pass per frame from the creation frame on, a payload created with
delay `d` at frame `F` has `d - k` frames left after `k < d` frames, provided
`LastTickFrame` holds none of the frames `F + 1 .. F + d` at creation. -/
theorem waits_through (w : World) (d : Nat) (f : StdFunction) (hd64 : d < U64)
    (hltf : ∀ j, 1 ≤ j → j ≤ d → w.Timer.LastTickFrame ≠ w.GFrameCounter + j) :
    ∀ k, k < d →
    some ⟨false, w.GFrameCounter, d - k, f⟩ ∈
        (runSpec (ticks w.GFrameCounter k) (Create d f w)).Timer.FramePayloads ∧
      (runSpec (ticks w.GFrameCounter k) (Create d f w)).GFrameCounter = w.GFrameCounter + k ∧
      (∀ j, k < j → j ≤ d →
        (runSpec (ticks w.GFrameCounter k) (Create d f w)).Timer.LastTickFrame ≠
          w.GFrameCounter + j) := by
  intro k
  induction k with
  | zero =>
    intro hk
    refine ⟨Create_mem w d f hk, Create_GFrameCounter d f w, ?_⟩
    intro j hj1 hj2
    simp only [ticks, runSpec]
    rw [Create_LastTickFrame]
    exact hltf j hj1 hj2
  | succ k ih =>
    intro hk
    obtain ⟨h1, h2, h3⟩ := ih (by omega)
    simp only [ticks, runSpec_append, runSpec, Call.spec]
    generalize runSpec (ticks w.GFrameCounter k) (Create d f w) = v at h1 h2 h3
    have hmem : some ⟨false, w.GFrameCounter, d - k, f⟩ ∈
        ({ v with GFrameCounter := w.GFrameCounter + k + 1 } : World).Timer.FramePayloads := h1
    have he : earlyExit ({ v with GFrameCounter := w.GFrameCounter + k + 1 } : World) = false := by
      apply earlyExit_false_of_mem _ _ hmem
      exact h3 (k + 1) (by omega) (by omega)
    rw [TickSpec_pass _ he]
    refine ⟨?_, rfl, ?_⟩
    · have := pass_waits _ w.GFrameCounter (d - k) f hmem
        (by show w.GFrameCounter < w.GFrameCounter + k + 1; omega) (by omega) (by omega)
      have hsub : d - k - 1 = d - (k + 1) := by omega
      rw [hsub] at this
      exact this
    · intro j hj1 _
      show w.GFrameCounter + k + 1 ≠ w.GFrameCounter + j
      omega

/-- C1 (broken by the code when `LastTickFrame` is garbage): `Create(d, f)` at
frame `F` followed by one `Tick` per frame.  The constructor of `FFrameTimer`
does not initialise `LastTickFrame`, and `Tick` compares it with the frame
counter before any pass has written it.
First part: in every world whose `LastTickFrame` holds none of the frames
`F + 1 .. F + d` (in particular when it is at most `F`), with `1 ≤ d < 2 ^ 64`
and enough budget, the payload is still pending with one frame left after the
`Tick` calls of frames `F + 1 .. F + d - 1`, and the `Tick` call of frame
`F + d` invokes `f`.
Second part: the example of the specification on a fresh timer whose
`LastTickFrame` holds 0: `Create(3, f)` at frame 10 fires `f` in the pass of
frame 13 and `Num()` is 0 afterwards.
Third part (the failing input): on a fresh timer whose `LastTickFrame` holds
11, after `Create(1, f)` at frame 10 the `Tick` call of frame 11 takes the early
exit: nothing is logged, `f` is not invoked at frame `F + d = 11`, and the
payload is still pending. -/
theorem fires_on_time_unless_LastTickFrame_garbage :
    (∀ (w : World) (d : Nat) (f : StdFunction), 1 ≤ d → d < U64 →
      (∀ j, 1 ≤ j → j ≤ d → w.Timer.LastTickFrame ≠ w.GFrameCounter + j) →
      ∃ N, ∀ fuel, N ≤ fuel →
        ∃ (wa wb : World) (es : List Event),
          run fuel (ticks w.GFrameCounter (d - 1)) (Create d f w) = .ok wa ∧
          some ⟨false, w.GFrameCounter, 1, f⟩ ∈ wa.Timer.FramePayloads ∧
          run fuel [Call.Frame (w.GFrameCounter + d), Call.Tick 0] wa = .ok wb ∧
          wb.Log = wa.Log ++ es ∧ Event.invoke f.Name (w.GFrameCounter + d) ∈ es) ∧
    (∀ fuel, 2 ≤ fuel →
      run fuel (Call.Create 3 ⟨7, .done⟩ :: ticks 10 3) (World.fresh 10 0) =
        .ok ⟨13, ⟨[], false, 13⟩,
          [.create 7 3 10, .pass 11, .pass 12, .pass 13, .invoke 7 13]⟩) ∧
    (∀ fuel,
      run fuel (Call.Create 1 ⟨7, .done⟩ :: ticks 10 1) (World.fresh 10 11) =
        .ok ⟨11, ⟨[some ⟨false, 10, 1, ⟨7, .done⟩⟩], false, 11⟩, [.create 7 1 10]⟩) := by
  refine ⟨?_, ?_, ?_⟩
  · intro w d f hd hd64 hltf
    obtain ⟨h1, h2, h3⟩ := waits_through w d f hd64 hltf (d - 1) (by omega)
    have hsub : d - (d - 1) = 1 := by omega
    rw [hsub] at h1
    refine ⟨max (runFuel (ticks w.GFrameCounter (d - 1)) (Create d f w))
      (runFuel [Call.Frame (w.GFrameCounter + d), Call.Tick 0]
        (runSpec (ticks w.GFrameCounter (d - 1)) (Create d f w))), fun fuel hf => ?_⟩
    refine ⟨runSpec (ticks w.GFrameCounter (d - 1)) (Create d f w),
      runSpec [Call.Frame (w.GFrameCounter + d), Call.Tick 0]
        (runSpec (ticks w.GFrameCounter (d - 1)) (Create d f w)),
      runEvents [Call.Frame (w.GFrameCounter + d), Call.Tick 0]
        (runSpec (ticks w.GFrameCounter (d - 1)) (Create d f w)),
      run_eq fuel _ _ (le_trans (le_max_left _ _) hf), h1,
      run_eq fuel _ _ (le_trans (le_max_right _ _) hf), runSpec_Log _ _, ?_⟩
    generalize runSpec (ticks w.GFrameCounter (d - 1)) (Create d f w) = v at h1 h2 h3
    have hmem : some ⟨false, w.GFrameCounter, 1, f⟩ ∈
        ({ v with GFrameCounter := w.GFrameCounter + d } : World).Timer.FramePayloads := h1
    have he : earlyExit ({ v with GFrameCounter := w.GFrameCounter + d } : World) = false := by
      apply earlyExit_false_of_mem _ _ hmem
      exact h3 d (by omega) (le_refl _)
    have hfire := pass_fires _ w.GFrameCounter f hmem
      (by show w.GFrameCounter < w.GFrameCounter + d; omega)
    simp only [runEvents, Call.events, Call.spec, he, List.nil_append, List.append_nil,
      Bool.false_eq_true, if_false]
    exact List.mem_cons_of_mem _ hfire
  · intro fuel hf
    rw [run_eq fuel _ _ (le_trans (by decide) hf)]
    decide
  · intro fuel
    rfl

/-- Witness for C1: the first part at `Create(2, f)` on `sampleTwoDue`. -/
theorem fires_on_time_unless_LastTickFrame_garbage_witness :
    1 ≤ 2 ∧ 2 < U64 ∧
    (∀ j, 1 ≤ j → j ≤ 2 →
      sampleTwoDue.Timer.LastTickFrame ≠ sampleTwoDue.GFrameCounter + j) ∧
    ∃ N, ∀ fuel, N ≤ fuel →
      ∃ (wa wb : World) (es : List Event),
        run fuel (ticks sampleTwoDue.GFrameCounter (2 - 1)) (Create 2 ⟨8, .done⟩ sampleTwoDue) =
          .ok wa ∧
        some ⟨false, sampleTwoDue.GFrameCounter, 1, ⟨8, .done⟩⟩ ∈ wa.Timer.FramePayloads ∧
        run fuel [Call.Frame (sampleTwoDue.GFrameCounter + 2), Call.Tick 0] wa = .ok wb ∧
        wb.Log = wa.Log ++ es ∧
        Event.invoke (StdFunction.mk 8 .done).Name (sampleTwoDue.GFrameCounter + 2) ∈ es :=
  ⟨by decide, by decide, fun j h1 _ => by
      show (4 : Nat) ≠ 5 + j
      omega,
    fires_on_time_unless_LastTickFrame_garbage.1 sampleTwoDue 2 ⟨8, .done⟩ (by decide)
      (by decide) (fun j h1 _ => by
        show (4 : Nat) ≠ 5 + j
        omega)⟩

theorem idle_through (w : World) (f : StdFunction) : ∀ k : Nat,
    some ⟨false, w.GFrameCounter, 1, f⟩ ∈
        (runSpec (List.replicate k (Call.Tick 0)) (Create 1 f w)).Timer.FramePayloads ∧
      (runSpec (List.replicate k (Call.Tick 0)) (Create 1 f w)).GFrameCounter =
        w.GFrameCounter ∧
      (1 ≤ k →
        (runSpec (List.replicate k (Call.Tick 0)) (Create 1 f w)).Timer.LastTickFrame =
          w.GFrameCounter) := by
  intro k
  induction k with
  | zero => exact ⟨Create_mem w 1 f (le_refl _), Create_GFrameCounter 1 f w, fun h => by omega⟩
  | succ k ih =>
    obtain ⟨h1, h2, _⟩ := ih
    have hrep : List.replicate (k + 1) (Call.Tick 0) =
        List.replicate k (Call.Tick 0) ++ [Call.Tick 0] := by
      rw [List.replicate_succ']
    rw [hrep, runSpec_append]
    simp only [runSpec, Call.spec]
    exact ⟨Tick_idle _ _ 1 f h1 (by omega), by rw [TickSpec_GFrameCounter, h2],
      fun _ => by rw [TickSpec_LastTickFrame_of_mem _ _ h1, h2]⟩

/-- C5 (broken by the code when `LastTickFrame` is garbage): a delay of 1
created at frame `F`.
First part: in every world, after `Create(1, f)` at frame `F`, any number `k` of
`Tick` calls at frame `F` (with enough budget) leaves the payload pending with
its one frame left, so `f` has not run.
Second part: in every world at a frame `G > F` that holds this payload, a `Tick`
call whose early exit is not taken because of `LastTickFrame` invokes `f`.
Third part: in every world, when at least one `Tick` call was made at frame `F`
after `Create(1, f)`, the first `Tick` call at any frame `G > F` invokes `f`.
Fourth part (the failing input): the constructor of `FFrameTimer` does not
initialise `LastTickFrame`; on a fresh timer whose `LastTickFrame` holds 25,
after `Create(1, f)` at frame 20 and no `Tick` call at frame 20, the first
`Tick` call with a larger counter, at frame 25, takes the early exit, `f` is not
invoked and the payload is still pending. -/
theorem delay_one_waits_for_next_frame :
    (∀ (w : World) (f : StdFunction) (k : Nat),
      ∃ N, ∀ fuel, N ≤ fuel →
        ∃ wk, run fuel (List.replicate k (Call.Tick 0)) (Create 1 f w) = .ok wk ∧
          some ⟨false, w.GFrameCounter, 1, f⟩ ∈ wk.Timer.FramePayloads ∧
          wk.GFrameCounter = w.GFrameCounter) ∧
    (∀ (v : World) (f : StdFunction) (F : Nat) (fuel : Nat) (DeltaTime : float),
      some ⟨false, F, 1, f⟩ ∈ v.Timer.FramePayloads → F < v.GFrameCounter →
      v.Timer.LastTickFrame ≠ v.GFrameCounter → passFuel v ≤ fuel →
      ∃ (v1 : World) (es : List Event), Tick fuel DeltaTime v = .ok (true, v1) ∧
        v1.Log = v.Log ++ es ∧ Event.invoke f.Name v.GFrameCounter ∈ es) ∧
    (∀ (w : World) (f : StdFunction) (k G : Nat), 1 ≤ k → w.GFrameCounter < G →
      ∃ N, ∀ fuel, N ≤ fuel →
        ∃ (wk wb : World) (es : List Event),
          run fuel (List.replicate k (Call.Tick 0)) (Create 1 f w) = .ok wk ∧
          run fuel [Call.Frame G, Call.Tick 0] wk = .ok wb ∧
          wb.Log = wk.Log ++ es ∧ Event.invoke f.Name G ∈ es) ∧
    (∀ fuel,
      run fuel [Call.Create 1 ⟨7, .done⟩, Call.Frame 25, Call.Tick 0] (World.fresh 20 25) =
        .ok ⟨25, ⟨[some ⟨false, 20, 1, ⟨7, .done⟩⟩], false, 25⟩, [.create 7 1 20]⟩) := by
  refine ⟨?_, ?_, ?_, ?_⟩
  · intro w f k
    obtain ⟨h1, h2, _⟩ := idle_through w f k
    exact ⟨runFuel (List.replicate k (Call.Tick 0)) (Create 1 f w), fun fuel hf =>
      ⟨_, run_eq fuel _ _ hf, h1, h2⟩⟩
  · intro v f F fuel dt hq hF hl hf
    have he := earlyExit_false_of_mem v _ hq hl
    refine ⟨passSpec v, Event.pass v.GFrameCounter ::
      passEvents v.GFrameCounter v.Timer.FramePayloads, ?_, rfl, ?_⟩
    · rw [Tick_eq fuel dt v hf, TickSpec_pass v he]
    · exact List.mem_cons_of_mem _ (pass_fires v F f hq hF)
  · intro w f k G hk hG
    obtain ⟨h1, h2, h3⟩ := idle_through w f k
    have h3 := h3 hk
    refine ⟨max (runFuel (List.replicate k (Call.Tick 0)) (Create 1 f w))
      (runFuel [Call.Frame G, Call.Tick 0]
        (runSpec (List.replicate k (Call.Tick 0)) (Create 1 f w))), fun fuel hf => ?_⟩
    refine ⟨_, _, runEvents [Call.Frame G, Call.Tick 0]
        (runSpec (List.replicate k (Call.Tick 0)) (Create 1 f w)),
      run_eq fuel _ _ (le_trans (le_max_left _ _) hf),
      run_eq fuel _ _ (le_trans (le_max_right _ _) hf), runSpec_Log _ _, ?_⟩
    generalize runSpec (List.replicate k (Call.Tick 0)) (Create 1 f w) = v at h1 h2 h3
    have hmem : some ⟨false, w.GFrameCounter, 1, f⟩ ∈
        ({ v with GFrameCounter := G } : World).Timer.FramePayloads := h1
    have he : earlyExit ({ v with GFrameCounter := G } : World) = false := by
      apply earlyExit_false_of_mem _ _ hmem
      show v.Timer.LastTickFrame ≠ G
      omega
    have hfire := pass_fires _ w.GFrameCounter f hmem (by show w.GFrameCounter < G; omega)
    simp only [runEvents, Call.events, Call.spec, he, List.nil_append, List.append_nil,
      Bool.false_eq_true, if_false]
    exact List.mem_cons_of_mem _ hfire
  · intro fuel
    rfl

/-- Witness for C5: the second part on `sampleTwoDue`, whose second payload was
created at frame 2 with one frame left, and the third part with two `Tick`
calls at the creation frame. -/
theorem delay_one_waits_for_next_frame_witness :
    (some ⟨false, 2, 1, ⟨4, .done⟩⟩ ∈ sampleTwoDue.Timer.FramePayloads ∧
      2 < sampleTwoDue.GFrameCounter ∧
      sampleTwoDue.Timer.LastTickFrame ≠ sampleTwoDue.GFrameCounter ∧
      passFuel sampleTwoDue ≤ 4 ∧
      ∃ (v1 : World) (es : List Event), Tick 4 0 sampleTwoDue = .ok (true, v1) ∧
        v1.Log = sampleTwoDue.Log ++ es ∧
        Event.invoke (StdFunction.mk 4 .done).Name sampleTwoDue.GFrameCounter ∈ es) ∧
    (1 ≤ 2 ∧ (World.fresh 20 25).GFrameCounter < 25 ∧
      ∃ N, ∀ fuel, N ≤ fuel →
        ∃ (wk wb : World) (es : List Event),
          run fuel (List.replicate 2 (Call.Tick 0)) (Create 1 ⟨7, .done⟩ (World.fresh 20 25)) =
            .ok wk ∧
          run fuel [Call.Frame 25, Call.Tick 0] wk = .ok wb ∧
          wb.Log = wk.Log ++ es ∧ Event.invoke (StdFunction.mk 7 .done).Name 25 ∈ es) :=
  ⟨⟨by decide, by decide, by decide, by decide,
    delay_one_waits_for_next_frame.2.1 sampleTwoDue ⟨4, .done⟩ 2 4 0 (by decide) (by decide)
      (by decide) (by decide)⟩,
   ⟨by decide, by decide,
    delay_one_waits_for_next_frame.2.2.1 (World.fresh 20 25) ⟨7, .done⟩ 2 25 (by decide)
      (by decide)⟩⟩

/-- Witness for C3: the calls `sampleCalls` on a freshly constructed timer and
the callback 2, a payload that is done, and the first payload of
`sampleTwoDue`, which fires at frame 5. -/
theorem invoked_at_most_once_witness :
    (∃ N, ∀ fuel, N ≤ fuel →
      ∃ (w1 : World) (es : List Event), run fuel sampleCalls (World.fresh 10 0) = .ok w1 ∧
        w1.Log = (World.fresh 10 0).Log ++ es ∧
        invokes 2 es + pending 2 w1.Timer.FramePayloads =
          creates 2 es + pending 2 (World.fresh 10 0).Timer.FramePayloads) ∧
    TickFrame 2 ⟨true, 0, 0, ⟨2, .done⟩⟩ samplePass = (true, samplePass) ∧
    (∃ q : FFramePayload, q.bDone = true ∧
      TickFrame 0 ⟨false, 1, 1, ⟨1, .create 2 9 .done .done⟩⟩ sampleTwoDue =
        (true, q.Func.call (sampleTwoDue.store 0 q)) ∧
      ∀ v : World, TickFrame 0 q v = (true, v)) :=
  ⟨invoked_at_most_once.1 sampleCalls (World.fresh 10 0) 2,
    invoked_at_most_once.2.1 2 ⟨true, 0, 0, ⟨2, .done⟩⟩ samplePass (by decide),
    invoked_at_most_once.2.2 0 ⟨false, 1, 1, ⟨1, .create 2 9 .done .done⟩⟩ sampleTwoDue
      (by decide)⟩

/-! ## The payload: construction and `TickFrame` -/

/-- C16: a payload constructed with requested delay `r` while the frame counter
is `F` starts not done, with `CreationFrame = F` and remaining delay
`max r 1`, holding the function it was given; `Create_Internal` constructs it
from the counter at the time of the call, and `TickFrame` never writes
`CreationFrame` afterwards.  A payload constructed with delay 0 is the same
object state as one constructed with delay 1, so `TickFrame` returns the same
result on both in every world, and so does every sequence of evaluations. -/
theorem payload_construction (F r : Nat) (f : StdFunction) :
    (FFramePayload.new F r f).bDone = false ∧
    (FFramePayload.new F r f).CreationFrame = F ∧
    (FFramePayload.new F r f).FrameDelay = max r 1 ∧
    (FFramePayload.new F r f).Func = f ∧
    (∀ w : World, (Create_Internal r f w).Timer.FramePayloads =
      w.Timer.FramePayloads ++ [some (FFramePayload.new w.GFrameCounter r f)]) ∧
    (∀ (g : Nat) (p : FFramePayload), (p.tick g).CreationFrame = p.CreationFrame) ∧
    FFramePayload.new F 0 f = FFramePayload.new F 1 f ∧
    (∀ (self : Nat) (w : World),
      TickFrame self (FFramePayload.new F 0 f) w = TickFrame self (FFramePayload.new F 1 f) w) ∧
    (∀ gs : List Nat,
      gs.foldl (fun p g => p.tick g) (FFramePayload.new F 0 f) =
        gs.foldl (fun p g => p.tick g) (FFramePayload.new F 1 f)) := by
  have h01 : FFramePayload.new F 0 f = FFramePayload.new F 1 f := by
    simp [FFramePayload.new]
  refine ⟨rfl, rfl, ?_, rfl, fun w => rfl, ?_, h01, fun self w => by rw [h01],
    fun gs => by rw [h01]⟩
  · by_cases hr : r > 0
    · have : max r 1 = r := max_eq_left hr
      simp [FFramePayload.new, hr, this]
    · have h0 : r = 0 := by omega
      subst h0
      simp [FFramePayload.new]
  · intro g p
    unfold FFramePayload.tick
    split <;> rfl

/-- C14: `Tick` returns `true` whenever it returns, from every timer state, at
every frame counter value and for every `DeltaTime`, at the early exit and after
a pass; with enough budget it does return; and `DeltaTime` has no influence: two
calls that differ only in `DeltaTime` give the same result, log included. -/
theorem Tick_returns_true (w : World) (fuel : Nat) (DeltaTime : float) :
    (∀ (b : Bool) (w1 : World), Tick fuel DeltaTime w = .ok (b, w1) → b = true) ∧
    (earlyExit w = true → Tick fuel DeltaTime w = .ok (true, w)) ∧
    (passFuel w ≤ fuel → ∃ w1, Tick fuel DeltaTime w = .ok (true, w1)) ∧
    (∀ DeltaTime2 : float, Tick fuel DeltaTime2 w = Tick fuel DeltaTime w) := by
  refine ⟨?_, fun h => Tick_early fuel DeltaTime w h,
    fun h => ⟨TickSpec w, Tick_eq fuel DeltaTime w h⟩, fun _ => rfl⟩
  intro b w1 h
  unfold Tick at h
  split at h
  · cases h; rfl
  · split at h
    · cases h
    · split at h
      · cases h
      · cases h; rfl

/-- Witness for C14: `Tick` on `samplePass` (a pass) with enough budget. -/
theorem Tick_returns_true_witness :
    passFuel samplePass ≤ 8 ∧ ∃ w1, Tick 8 3 samplePass = .ok (true, w1) :=
  ⟨by decide, (Tick_returns_true samplePass 8 3).2.2.1 (by decide)⟩

/-- C15: the transition of `TickFrame` on a payload `p` held in slot `self`, at
the frame counter value of the world.  If `p` is done or the counter is at most
`CreationFrame`, the world is unchanged, nothing is invoked and the result is
the done flag of `p` (so `true` on a done payload).  Otherwise the remaining
delay is decremented as a `uint64` (which is `FrameDelay - 1` for every
`FrameDelay` from 1 to `2 ^ 64 - 1`); if the new delay is not zero the payload
is written back not done and the result is `false`; if it is zero the payload is
written back done with delay zero, then `Func()` is called once, which appends
the invocation and the events of its body to the log, and the result is `true`.
In every case the result is the done flag of the payload after the call. -/
theorem TickFrame_transition (self : Nat) (p : FFramePayload) (w : World) :
    ((p.bDone = true ∨ w.GFrameCounter ≤ p.CreationFrame) →
      TickFrame self p w = (p.bDone, w)) ∧
    (p.bDone = false → p.CreationFrame < w.GFrameCounter → decr p.FrameDelay ≠ 0 →
      TickFrame self p w =
        (false, w.store self ⟨false, p.CreationFrame, decr p.FrameDelay, p.Func⟩)) ∧
    (p.bDone = false → p.CreationFrame < w.GFrameCounter → decr p.FrameDelay = 0 →
      TickFrame self p w =
        (true, p.Func.call (w.store self ⟨true, p.CreationFrame, 0, p.Func⟩)) ∧
      (TickFrame self p w).2.Log =
        w.Log ++ Event.invoke p.Func.Name w.GFrameCounter ::
          p.Func.Body.events w.GFrameCounter) ∧
    (1 ≤ p.FrameDelay → p.FrameDelay < U64 → decr p.FrameDelay = p.FrameDelay - 1) ∧
    (TickFrame self p w).1 = (p.tick w.GFrameCounter).bDone := by
  refine ⟨?_, ?_, ?_, fun h1 h2 => decr_of_pos _ h1 h2, ?_⟩
  · rintro (h | h)
    · simp [TickFrame, h]
    · have hn : ¬ p.CreationFrame < w.GFrameCounter := by omega
      simp [TickFrame, hn]
  · intro hb hg hz
    simp [TickFrame, hb, hg, hz]
  · intro hb hg hz
    have h1 : TickFrame self p w =
        (true, p.Func.call (w.store self ⟨true, p.CreationFrame, 0, p.Func⟩)) := by
      simp [TickFrame, hb, hg, hz]
    refine ⟨h1, ?_⟩
    rw [h1, StdFunction.call_extend]
    simp [World.extend, World.store, World.setPayloads, StdFunction.events]
  · by_cases hb : p.bDone = true
    · simp [TickFrame, FFramePayload.tick, hb]
    · have hb2 : p.bDone = false := by simpa using hb
      by_cases hg : p.CreationFrame < w.GFrameCounter
      · by_cases hz : decr p.FrameDelay = 0
        · simp [TickFrame, FFramePayload.tick, hb2, hg, hz]
        · simp [TickFrame, FFramePayload.tick, hb2, hg, hz]
      · simp [TickFrame, FFramePayload.tick, hb2, hg]

/-- Witness for C15: the three cases on payloads of `samplePass` (done; two
frames left; one frame left). -/
theorem TickFrame_transition_witness :
    TickFrame 2 ⟨true, 0, 0, ⟨2, .done⟩⟩ samplePass = (true, samplePass) ∧
    TickFrame 3 ⟨false, 1, 2, ⟨3, .done⟩⟩ samplePass =
      (false, samplePass.store 3 ⟨false, 1, decr 2, ⟨3, .done⟩⟩) ∧
    (TickFrame 0 ⟨false, 1, 1, ⟨1, .create 2 9 .done .done⟩⟩ samplePass =
        (true, StdFunction.call ⟨1, .create 2 9 .done .done⟩
          (samplePass.store 0 ⟨true, 1, 0, ⟨1, .create 2 9 .done .done⟩⟩)) ∧
      (TickFrame 0 ⟨false, 1, 1, ⟨1, .create 2 9 .done .done⟩⟩ samplePass).2.Log =
        samplePass.Log ++ Event.invoke 1 5 :: (Code.create 2 9 .done .done).events 5) :=
  ⟨(TickFrame_transition 2 ⟨true, 0, 0, ⟨2, .done⟩⟩ samplePass).1 (Or.inl rfl),
    (TickFrame_transition 3 ⟨false, 1, 2, ⟨3, .done⟩⟩ samplePass).2.1 rfl (by decide)
      (by decide),
    (TickFrame_transition 0 ⟨false, 1, 1, ⟨1, .create 2 9 .done .done⟩⟩ samplePass).2.2.1 rfl
      (by decide) (by decide)⟩

/-! ## Subscription -/

/-- Counterexample for C12: on a freshly constructed timer (not subscribed),
`Create(1, f)` emplaces the payload and leaves `bTickRegistered` false: no
subscription is made. -/
theorem Create_does_not_subscribe :
    (Create 1 ⟨7, .done⟩ (World.fresh 10 0)).Timer.FramePayloads =
      [some ⟨false, 10, 1, ⟨7, .done⟩⟩] ∧
    ¬ ((Create 1 ⟨7, .done⟩ (World.fresh 10 0)).Timer.bTickRegistered = true) := by
  decide

/-- C12 (amended): for every timer state, `Create(d, f)` with `1 ≤ d` appends
exactly one payload at the end of `FramePayloads` (not done, created at the
current frame, with delay `d`, holding `f`) and leaves `bTickRegistered` as it
was.  The subscription is made by `StartTicking` alone: after it
`bTickRegistered` is true, set if it was not and left alone if it was, so a
second `StartTicking` changes nothing. -/
theorem Create_appends_one_payload (w : World) (d : Nat) (f : StdFunction) (hd : 1 ≤ d) :
    (Create d f w).Timer.FramePayloads =
      w.Timer.FramePayloads ++ [some ⟨false, w.GFrameCounter, d, f⟩] ∧
    Num (Create d f w) = Num w + 1 ∧
    (Create d f w).Timer.bTickRegistered = w.Timer.bTickRegistered ∧
    (Create d f w).Timer.LastTickFrame = w.Timer.LastTickFrame ∧
    (StartTicking w).Timer.bTickRegistered = true ∧
    (StartTicking w).Timer.FramePayloads = w.Timer.FramePayloads ∧
    (w.Timer.bTickRegistered = true → StartTicking w = w) ∧
    StartTicking (StartTicking w) = StartTicking w := by
  have hpos : d > 0 := hd
  have hne : d ≠ 0 := by omega
  have hc : (Create d f w).Timer.FramePayloads =
      w.Timer.FramePayloads ++ [some ⟨false, w.GFrameCounter, d, f⟩] := by
    simp [Create_eq, World.extend, createPayloads, hne, FFramePayload.new, hpos]
  refine ⟨hc, ?_, ?_, ?_, ?_, ?_, ?_, ?_⟩
  · simp [Num, hc]
  · rw [Create_eq]; rfl
  · rw [Create_eq]; rfl
  · by_cases hr : w.Timer.bTickRegistered = true <;> simp [StartTicking, hr]
  · by_cases hr : w.Timer.bTickRegistered = true <;> simp [StartTicking, hr]
  · intro hr; simp [StartTicking, hr]
  · by_cases hr : w.Timer.bTickRegistered = true <;> simp [StartTicking, hr]

/-- Witness for C12 (amended): `Create(2, f)` on `sampleTwoDue`. -/
theorem Create_appends_one_payload_witness :
    1 ≤ 2 ∧
    (Create 2 ⟨8, .done⟩ sampleTwoDue).Timer.FramePayloads =
      sampleTwoDue.Timer.FramePayloads ++ [some ⟨false, sampleTwoDue.GFrameCounter, 2, ⟨8, .done⟩⟩] ∧
    Num (Create 2 ⟨8, .done⟩ sampleTwoDue) = Num sampleTwoDue + 1 ∧
    (Create 2 ⟨8, .done⟩ sampleTwoDue).Timer.bTickRegistered =
      sampleTwoDue.Timer.bTickRegistered ∧
    (Create 2 ⟨8, .done⟩ sampleTwoDue).Timer.LastTickFrame =
      sampleTwoDue.Timer.LastTickFrame ∧
    (StartTicking sampleTwoDue).Timer.bTickRegistered = true ∧
    (StartTicking sampleTwoDue).Timer.FramePayloads = sampleTwoDue.Timer.FramePayloads ∧
    (sampleTwoDue.Timer.bTickRegistered = true → StartTicking sampleTwoDue = sampleTwoDue) ∧
    StartTicking (StartTicking sampleTwoDue) = StartTicking sampleTwoDue :=
  ⟨by decide, Create_appends_one_payload sampleTwoDue 2 ⟨8, .done⟩ (by decide)⟩

/-! ## The initial value of `LastTickFrame` -/

/-- C18: two freshly constructed timers that differ only in the value their
storage held for `LastTickFrame` behave differently on the same calls.  For
every frame `F` and callback `f`, with enough budget: when the initial value is
`F + 1`, after `Create(1, f)` at frame `F` the `Tick` of frame `F + 1` takes the
early exit, logs nothing and leaves the payload pending, and the `Tick` of frame
`F + 2` runs the pass that invokes `f`; with any other initial value the `Tick`
of frame `F + 1` runs the pass that invokes `f`. -/
theorem LastTickFrame_initial_value_matters (F : Nat) (f : StdFunction) :
    ∃ N, ∀ fuel, N ≤ fuel →
      (∃ w1 w2 : World,
        run fuel [Call.Create 1 f, Call.Frame (F + 1), Call.Tick 0] (World.fresh F (F + 1)) =
          .ok w1 ∧
        w1.Log = [Event.create f.Name 1 F] ∧
        w1.Timer.FramePayloads = [some ⟨false, F, 1, f⟩] ∧
        run fuel [Call.Frame (F + 2), Call.Tick 0] w1 = .ok w2 ∧
        w2.Log = [Event.create f.Name 1 F, Event.pass (F + 2), Event.invoke f.Name (F + 2)] ++
          f.Body.events (F + 2)) ∧
      (∀ L, L ≠ F + 1 →
        ∃ w1, run fuel [Call.Create 1 f, Call.Frame (F + 1), Call.Tick 0] (World.fresh F L) =
            .ok w1 ∧
          w1.Log = [Event.create f.Name 1 F, Event.pass (F + 1), Event.invoke f.Name (F + 1)] ++
            f.Body.events (F + 1)) := by
  have hfire1 : ∀ g, F < g → (FFramePayload.mk false F 1 f).fires g = true := fun g hg =>
    (fires_new_iff F 1 g f (le_refl _) (by unfold U64; norm_num)).2 ⟨hg, rfl⟩
  have hc : ∀ L, Create 1 f (World.fresh F L) =
      ⟨F, ⟨[some ⟨false, F, 1, f⟩], false, L⟩, [Event.create f.Name 1 F]⟩ := by
    intro L
    rw [Create_eq]
    simp [World.extend, createPayloads, createEvents, World.fresh, FFrameTimer.new,
      FFramePayload.new]
  have hpass : ∀ (g L : Nat) (es : List Event), F < g → L ≠ g →
      TickSpec ⟨g, ⟨[some ⟨false, F, 1, f⟩], false, L⟩, es⟩ =
        ⟨g, ⟨f.Body.payloads g, false, g⟩,
          es ++ Event.pass g :: Event.invoke f.Name g :: f.Body.events g⟩ ∧
      passFuel ⟨g, ⟨[some ⟨false, F, 1, f⟩], false, L⟩, es⟩ =
        (f.Body.payloads g).length + 2 := by
    intro g L es hg hL
    have hfire := hfire1 g hg
    have hdone : (FFramePayload.mk false F 1 f).tick g = ⟨true, F, 0, f⟩ := by
      have hz : decr 1 = 0 := by
        rw [decr_of_pos 1 (le_refl _) (by unfold U64; norm_num)]
      simp [FFramePayload.tick, hg, hz]
    constructor
    · simp [TickSpec, earlyExit, AllTimersDone, hL, passSpec, passEvents, passPayloads,
        entryEvents, entryPayloads, hfire, StdFunction.events, tickEntry, hdone, isLive,
        isDead]
    · simp [passFuel, Num, passPayloads, entryPayloads, hfire]
      omega
  have hw1 : runSpec [Call.Create 1 f, Call.Frame (F + 1), Call.Tick 0]
      (World.fresh F (F + 1)) =
      ⟨F + 1, ⟨[some ⟨false, F, 1, f⟩], false, F + 1⟩, [Event.create f.Name 1 F]⟩ := by
    simp only [runSpec, Call.spec, hc]
    simp [TickSpec, earlyExit]
  refine ⟨(f.Body.payloads (F + 1)).length + (f.Body.payloads (F + 2)).length + 2,
    fun fuel hf => ⟨?_, ?_⟩⟩
  · refine ⟨_, _, run_eq fuel _ _ ?_, by rw [hw1], by rw [hw1], run_eq fuel _ _ ?_, ?_⟩
    · simp only [runFuel, Call.fuel, Call.spec, hc]
      simp [passFuel, Num, passPayloads, entryPayloads, hfire1 (F + 1) (by omega)]
      omega
    · rw [hw1]
      simp only [runFuel, Call.fuel, Call.spec]
      rw [(hpass (F + 2) (F + 1) _ (by omega) (by omega)).2]
      simp
      omega
    · rw [hw1]
      simp only [runSpec, Call.spec]
      rw [(hpass (F + 2) (F + 1) _ (by omega) (by omega)).1]
      simp
  · intro L hL
    refine ⟨_, run_eq fuel _ _ ?_, ?_⟩
    · simp only [runFuel, Call.fuel, Call.spec, hc]
      rw [(hpass (F + 1) L _ (by omega) hL).2]
      simp
      omega
    · simp only [runSpec, Call.spec, hc]
      rw [(hpass (F + 1) L _ (by omega) hL).1]
      simp

/-- Witness for C18: frame 10 and a callback that makes no call on the timer. -/
theorem LastTickFrame_initial_value_matters_witness :
    ∃ N, ∀ fuel, N ≤ fuel →
      (∃ w1 w2 : World,
        run fuel [Call.Create 1 ⟨7, .done⟩, Call.Frame (10 + 1), Call.Tick 0]
            (World.fresh 10 (10 + 1)) = .ok w1 ∧
        w1.Log = [Event.create (StdFunction.mk 7 .done).Name 1 10] ∧
        w1.Timer.FramePayloads = [some ⟨false, 10, 1, ⟨7, .done⟩⟩] ∧
        run fuel [Call.Frame (10 + 2), Call.Tick 0] w1 = .ok w2 ∧
        w2.Log = [Event.create (StdFunction.mk 7 .done).Name 1 10, Event.pass (10 + 2),
            Event.invoke (StdFunction.mk 7 .done).Name (10 + 2)] ++
          (StdFunction.mk 7 .done).Body.events (10 + 2)) ∧
      (∀ L, L ≠ 10 + 1 →
        ∃ w1, run fuel [Call.Create 1 ⟨7, .done⟩, Call.Frame (10 + 1), Call.Tick 0]
            (World.fresh 10 L) = .ok w1 ∧
          w1.Log = [Event.create (StdFunction.mk 7 .done).Name 1 10, Event.pass (10 + 1),
              Event.invoke (StdFunction.mk 7 .done).Name (10 + 1)] ++
            (StdFunction.mk 7 .done).Body.events (10 + 1)) :=
  LastTickFrame_initial_value_matters 10 ⟨7, .done⟩

/-! ## The remaining delay never wraps -/

theorem decr_lt (x : Nat) : decr x < U64 := by
  unfold decr
  exact Nat.mod_lt _ (by unfold U64; norm_num)

theorem tick_delay (g : Nat) (p : FFramePayload) (h1 : p.FrameDelay < U64)
    (h2 : p.bDone = false → 1 ≤ p.FrameDelay) :
    (p.tick g).FrameDelay < U64 ∧ ((p.tick g).bDone = false → 1 ≤ (p.tick g).FrameDelay) := by
  by_cases hc : (!p.bDone && decide (g > p.CreationFrame)) = true
  · have hfd : (p.tick g).FrameDelay = decr p.FrameDelay := by
      simp only [FFramePayload.tick, hc, if_true]
    have hbd : (p.tick g).bDone = decide (decr p.FrameDelay = 0) := by
      simp only [FFramePayload.tick, hc, if_true]
    rw [hfd, hbd]
    refine ⟨decr_lt _, ?_⟩
    intro hb
    have hne : decr p.FrameDelay ≠ 0 := by
      intro hz
      rw [hz] at hb
      simp at hb
    exact Nat.pos_of_ne_zero hne
  · have ht : p.tick g = p := by simp only [FFramePayload.tick, hc]; simp
    rw [ht]
    exact ⟨h1, h2⟩

theorem foldl_tick_delay (gs : List Nat) : ∀ p : FFramePayload, p.FrameDelay < U64 →
    (p.bDone = false → 1 ≤ p.FrameDelay) →
    (gs.foldl (fun q g => q.tick g) p).FrameDelay < U64 ∧
      ((gs.foldl (fun q g => q.tick g) p).bDone = false →
        1 ≤ (gs.foldl (fun q g => q.tick g) p).FrameDelay) := by
  induction gs with
  | nil => intro p h1 h2; exact ⟨h1, h2⟩
  | cons g rest ih =>
    intro p h1 h2
    obtain ⟨k1, k2⟩ := tick_delay g p h1 h2
    exact ih (p.tick g) k1 k2

theorem new_delay (g d : Nat) (f : StdFunction) (hd : d < U64) :
    (FFramePayload.new g d f).FrameDelay < U64 ∧ 1 ≤ (FFramePayload.new g d f).FrameDelay := by
  by_cases h : d > 0
  · simp [FFramePayload.new, h, hd]; omega
  · simp [FFramePayload.new, h, U64]

theorem Code.payloads_DelayInv (g : Nat) (c : Code) (h : c.typed = true) :
    DelayInv (c.payloads g) := by
  induction c with
  | done => intro e he; simp [Code.payloads] at he
  | create d n b k ihb ihk =>
    simp only [Code.typed, Bool.and_eq_true, decide_eq_true_eq] at h
    obtain ⟨⟨hd, hb⟩, hk⟩ := h
    intro e he
    simp only [Code.payloads, List.mem_append] at he
    rcases he with he | he
    · by_cases hd0 : d = 0
      · simp only [hd0, if_true] at he
        exact ihb hb e he
      · simp only [hd0, if_false, List.mem_singleton] at he
        subst he
        obtain ⟨k1, k2⟩ := new_delay g d ⟨n, b⟩ hd
        refine ⟨?_, ?_⟩
        · simp only [entryTyped, Bool.and_eq_true, decide_eq_true_eq]
          exact ⟨k1, hb⟩
        · intro p hp _
          cases hp
          exact k2
    · exact ihk hk e he

theorem DelayInv_append (a b : List (Option FFramePayload)) (ha : DelayInv a)
    (hb : DelayInv b) : DelayInv (a ++ b) := by
  intro e he
  rcases List.mem_append.1 he with he | he
  · exact ha e he
  · exact hb e he

theorem createPayloads_DelayInv (g d : Nat) (f : StdFunction) (hd : d < U64)
    (hf : f.Body.typed = true) : DelayInv (createPayloads g d f) := by
  by_cases hd0 : d = 0
  · simp only [createPayloads, hd0, if_true]
    exact Code.payloads_DelayInv g _ hf
  · simp only [createPayloads, hd0, if_false]
    intro e he
    simp only [List.mem_singleton] at he
    subst he
    obtain ⟨k1, k2⟩ := new_delay g d f hd
    refine ⟨?_, ?_⟩
    · simp only [entryTyped, Bool.and_eq_true, decide_eq_true_eq]
      exact ⟨k1, hf⟩
    · intro p hp _
      cases hp
      exact k2

theorem passPayloads_DelayInv (g : Nat) (l : List (Option FFramePayload))
    (h : DelayInv l) : DelayInv (passPayloads g l) := by
  intro e he
  obtain ⟨x, hx, hin⟩ := (mem_passPayloads g e l).1 he
  cases x with
  | none => simp [entryPayloads] at hin
  | some p =>
    by_cases hf : p.fires g = true
    · simp only [entryPayloads, hf, if_true] at hin
      have ht := (h (some p) hx).1
      simp only [entryTyped, Bool.and_eq_true, decide_eq_true_eq] at ht
      exact Code.payloads_DelayInv g _ ht.2 e hin
    · simp [entryPayloads, hf] at hin

theorem passSpec_DelayInv (w : World) (h : DelayInv w.Timer.FramePayloads) :
    DelayInv (passSpec w).Timer.FramePayloads := by
  apply DelayInv_append
  · intro e he
    simp only [List.mem_filter, List.mem_map] at he
    obtain ⟨⟨x, hx, hxe⟩, _⟩ := he
    cases x with
    | none =>
      simp only [tickEntry] at hxe
      subst hxe
      exact ⟨rfl, fun p hp => by cases hp⟩
    | some p =>
      simp only [tickEntry] at hxe
      subst hxe
      obtain ⟨ht, hp⟩ := h (some p) hx
      simp only [entryTyped, Bool.and_eq_true, decide_eq_true_eq] at ht
      obtain ⟨k1, k2⟩ := tick_delay w.GFrameCounter p ht.1 (hp p rfl)
      refine ⟨?_, ?_⟩
      · simp only [entryTyped, Bool.and_eq_true, decide_eq_true_eq, tick_Func]
        exact ⟨k1, ht.2⟩
      · intro q hq hb
        cases hq
        exact k2 hb
  · exact passPayloads_DelayInv _ _ h

theorem spec_DelayInv (c : Call) (w : World) (hc : c.typed = true)
    (h : DelayInv w.Timer.FramePayloads) : DelayInv (c.spec w).Timer.FramePayloads := by
  cases c with
  | Create d f =>
    simp only [Call.typed, Bool.and_eq_true, decide_eq_true_eq] at hc
    simp only [Call.spec, Cybergem.Create_eq, World.extend]
    exact DelayInv_append _ _ h (createPayloads_DelayInv _ d f hc.1 hc.2)
  | Tick dt =>
    cases he : earlyExit w with
    | true => simp only [Call.spec, TickSpec_early w he]; exact h
    | false => simp only [Call.spec, TickSpec_pass w he]; exact passSpec_DelayInv w h
  | StartTicking =>
    have : (Cybergem.StartTicking w).Timer.FramePayloads = w.Timer.FramePayloads := by
      by_cases hr : w.Timer.bTickRegistered = true <;> simp [Cybergem.StartTicking, hr]
    simp only [Call.spec, this]
    exact h
  | Frame g => exact h

theorem runSpec_DelayInv : ∀ (calls : List Call) (w : World),
    (∀ c ∈ calls, c.typed = true) → DelayInv w.Timer.FramePayloads →
    DelayInv (runSpec calls w).Timer.FramePayloads := by
  intro calls
  induction calls with
  | nil => intro w _ h; exact h
  | cons c cs ih =>
    intro w hc h
    exact ih _ (fun x hx => hc x (List.mem_cons_of_mem _ hx))
      (spec_DelayInv c w (hc c (List.mem_cons_self _ _)) h)

/-- C20: a payload that is not done always has at least one frame left, so the
`uint64` pre-decrement of `TickFrame` never wraps.  First part: from
construction with a `uint64` delay, after any sequence of `TickFrame`
evaluations at any frame counter values, the remaining delay is a `uint64` and
is at least 1 unless the payload is done.  Second part: after any sequence of
calls with `uint64` delays on a freshly constructed timer (with enough budget),
every payload in the array is not done and has between 1 and `2 ^ 64 - 1`
frames left.  Third part: on such a value the decrement is `FrameDelay - 1`,
which is less than `2 ^ 64 - 1`; only from 0 would it wrap to `2 ^ 64 - 1`.
Fourth part: `TickFrame` leaves a done payload alone, so the decrement is only
applied to payloads that are not done. -/
theorem FrameDelay_never_wraps :
    (∀ (F r : Nat) (f : StdFunction) (gs : List Nat), r < U64 →
      (gs.foldl (fun q g => q.tick g) (FFramePayload.new F r f)).FrameDelay < U64 ∧
      ((gs.foldl (fun q g => q.tick g) (FFramePayload.new F r f)).bDone = false →
        1 ≤ (gs.foldl (fun q g => q.tick g) (FFramePayload.new F r f)).FrameDelay)) ∧
    (∀ (calls : List Call) (GFrameCounter LastTickFrame : Nat),
      (∀ c ∈ calls, c.typed = true) →
      ∃ N, ∀ fuel, N ≤ fuel →
        ∃ w1, run fuel calls (World.fresh GFrameCounter LastTickFrame) = .ok w1 ∧
          ∀ e ∈ w1.Timer.FramePayloads, ∃ p, e = some p ∧ p.bDone = false ∧
            1 ≤ p.FrameDelay ∧ p.FrameDelay < U64) ∧
    (∀ x : Nat, 1 ≤ x → x < U64 → decr x = x - 1 ∧ decr x < U64 - 1) ∧
    decr 0 = U64 - 1 ∧
    (∀ (self : Nat) (p : FFramePayload) (w : World), p.bDone = true →
      TickFrame self p w = (true, w)) := by
  refine ⟨?_, ?_, ?_, ?_, ?_⟩
  · intro F r f gs hr
    obtain ⟨k1, k2⟩ := new_delay F r f hr
    exact foldl_tick_delay gs _ k1 (fun _ => k2)
  · intro calls g l hc
    refine ⟨runFuel calls (World.fresh g l), fun fuel hf =>
      ⟨runSpec calls (World.fresh g l), run_eq fuel calls _ hf, ?_⟩⟩
    intro e he
    have hlive := allLive_runSpec calls (World.fresh g l)
      (by simp [World.fresh, FFrameTimer.new]) e he
    have hinv := runSpec_DelayInv calls (World.fresh g l) hc
      (by intro x hx; simp [World.fresh, FFrameTimer.new] at hx) e he
    cases e with
    | none => simp [isDead] at hlive
    | some p =>
      have hb : p.bDone = false := by simpa [isDead] using hlive
      have ht := hinv.1
      simp only [entryTyped, Bool.and_eq_true, decide_eq_true_eq] at ht
      exact ⟨p, rfl, hb, hinv.2 p rfl hb, ht.1⟩
  · intro x h1 h2
    rw [decr_of_pos x h1 h2]
    exact ⟨rfl, by omega⟩
  · unfold decr
    simp only [Nat.zero_add]
    exact Nat.mod_eq_of_lt (by unfold U64; norm_num)
  · intro self p w hb
    simp [TickFrame, hb]

/-- Witness for C20: a payload constructed with delay 3 and evaluated at frames
11, 11, 12; and the calls `sampleCalls` on a freshly constructed timer. -/
theorem FrameDelay_never_wraps_witness :
    (3 < U64 ∧
      ([11, 11, 12].foldl (fun q g => q.tick g) (FFramePayload.new 10 3 ⟨7, .done⟩)).FrameDelay
        < U64 ∧
      (([11, 11, 12].foldl (fun q g => q.tick g) (FFramePayload.new 10 3 ⟨7, .done⟩)).bDone =
          false →
        1 ≤ ([11, 11, 12].foldl (fun q g => q.tick g)
          (FFramePayload.new 10 3 ⟨7, .done⟩)).FrameDelay)) ∧
    ((∀ c ∈ sampleCalls, c.typed = true) ∧
      ∃ N, ∀ fuel, N ≤ fuel →
        ∃ w1, run fuel sampleCalls (World.fresh 10 0) = .ok w1 ∧
          ∀ e ∈ w1.Timer.FramePayloads, ∃ p, e = some p ∧ p.bDone = false ∧
            1 ≤ p.FrameDelay ∧ p.FrameDelay < U64) ∧
    (1 ≤ 5 ∧ 5 < U64 ∧ decr 5 = 5 - 1 ∧ decr 5 < U64 - 1) :=
  ⟨⟨by decide, FrameDelay_never_wraps.1 10 3 ⟨7, .done⟩ [11, 11, 12] (by decide)⟩,
    ⟨by decide, FrameDelay_never_wraps.2.1 sampleCalls 10 0 (by decide)⟩,
    ⟨by decide, by decide, FrameDelay_never_wraps.2.2.1 5 (by decide) (by decide)⟩⟩

/-! ## `Num` counts the deferred callbacks that have not run -/

theorem invoked_append (a b : List Event) : invoked (a ++ b) = invoked a + invoked b := by
  simp [invoked, List.countP_append]

theorem deferred_append (a b : List Event) : deferred (a ++ b) = deferred a + deferred b := by
  simp [deferred, List.countP_append]

theorem immediate_append (a b : List Event) :
    immediate (a ++ b) = immediate a + immediate b := by
  simp [immediate, List.countP_append]

theorem live_append (a b : List (Option FFramePayload)) : live (a ++ b) = live a + live b := by
  simp [live, List.countP_append]

theorem code_total_law (g : Nat) (c : Code) :
    invoked (c.events g) = immediate (c.events g) ∧
      (c.payloads g).length = deferred (c.events g) := by
  induction c with
  | done => simp [Code.events, Code.payloads, invoked, immediate, deferred]
  | create d m b k ihb ihk =>
    obtain ⟨b1, b2⟩ := ihb
    obtain ⟨k1, k2⟩ := ihk
    by_cases hd : d = 0
    · simp only [Code.events, Code.payloads, hd, if_true, invoked_append, immediate_append,
        deferred_append, List.length_append]
      simp only [invoked, immediate, deferred, List.countP_cons, Event.isInvokeAny,
        Event.isImmediate, Event.isDeferred] at *
      simp
      omega
    · simp only [Code.events, Code.payloads, hd, if_false, invoked_append, immediate_append,
        deferred_append, List.length_append]
      simp only [invoked, immediate, deferred, List.countP_cons, List.countP_nil,
        Event.isInvokeAny, Event.isImmediate, Event.isDeferred] at *
      simp [hd]
      omega

theorem createEvents_total_law (g d : Nat) (f : StdFunction) :
    invoked (createEvents g d f) = immediate (createEvents g d f) ∧
      (createPayloads g d f).length = deferred (createEvents g d f) := by
  obtain ⟨b1, b2⟩ := code_total_law g f.Body
  by_cases hd : d = 0
  · simp only [createEvents, createPayloads, hd, if_true, StdFunction.events]
    simp only [invoked, immediate, deferred, List.countP_cons, Event.isInvokeAny,
      Event.isImmediate, Event.isDeferred] at *
    simp
    omega
  · simp only [createEvents, createPayloads, hd, if_false]
    simp [invoked, immediate, deferred, List.countP_cons, Event.isInvokeAny,
      Event.isImmediate, Event.isDeferred, hd]

theorem entry_total_law (g : Nat) (e : Option FFramePayload) :
    immediate (entryEvents g e) ≤ invoked (entryEvents g e) ∧
      invoked (entryEvents g e) + live [tickEntry g e] + (entryPayloads g e).length =
        immediate (entryEvents g e) + deferred (entryEvents g e) + live [e] := by
  cases e with
  | none => simp [entryEvents, entryPayloads, tickEntry, invoked, immediate, deferred, live]
  | some p =>
    obtain ⟨b1, b2⟩ := code_total_law g p.Func.Body
    cases hb : p.bDone with
    | true =>
      have hf : p.fires g = false := by simp [FFramePayload.fires, hb]
      have ht : p.tick g = p := by simp [FFramePayload.tick, hb]
      simp [entryEvents, entryPayloads, tickEntry, hf, ht, invoked, immediate, deferred]
    | false =>
      by_cases hg : g > p.CreationFrame
      · by_cases h2 : decr p.FrameDelay = 0
        · have hf : p.fires g = true := by simp [FFramePayload.fires, hb, hg, h2]
          have hd : (p.tick g).bDone = true := by simp [FFramePayload.tick, hb, hg, h2]
          simp only [entryEvents, entryPayloads, tickEntry, hf, if_true, StdFunction.events]
          simp only [invoked, immediate, deferred, live, List.countP_cons, List.countP_nil,
            Event.isInvokeAny, Event.isImmediate, Event.isDeferred, isLive, isDead, hd, hb] at *
          simp
          omega
        · have hf : p.fires g = false := by simp [FFramePayload.fires, hb, hg, h2]
          have hd : (p.tick g).bDone = false := by simp [FFramePayload.tick, hb, hg, h2]
          simp [entryEvents, entryPayloads, tickEntry, hf, invoked, immediate, deferred, live,
            isLive, isDead, hd, hb, List.countP_cons]
      · have hf : p.fires g = false := by simp [FFramePayload.fires, hb, hg]
        have ht : p.tick g = p := by simp [FFramePayload.tick, hb, hg]
        simp [entryEvents, entryPayloads, tickEntry, hf, ht, invoked, immediate, deferred]

theorem pass_total_law (g : Nat) (l : List (Option FFramePayload)) :
    immediate (passEvents g l) ≤ invoked (passEvents g l) ∧
      invoked (passEvents g l) + live (l.map (tickEntry g)) + (passPayloads g l).length =
        immediate (passEvents g l) + deferred (passEvents g l) + live l := by
  induction l with
  | nil => simp [passEvents, passPayloads, invoked, immediate, deferred, live]
  | cons x xs ih =>
    obtain ⟨h1, h2⟩ := entry_total_law g x
    obtain ⟨i1, i2⟩ := ih
    have hp : ∀ (a : Option FFramePayload) (t : List (Option FFramePayload)),
        live (a :: t) = live [a] + live t := by
      intro a t
      rw [show a :: t = [a] ++ t from rfl, live_append]
    simp only [passEvents, passPayloads, List.map_cons, invoked_append, immediate_append,
      deferred_append, List.length_append]
    rw [hp (tickEntry g x), hp x]
    omega

theorem live_of_allLive (l : List (Option FFramePayload))
    (h : ∀ e ∈ l, isDead e = false) : live l = l.length := by
  unfold live
  rw [List.countP_eq_length]
  intro e he
  simp [isLive, h e he]

theorem live_filter_isLive (l : List (Option FFramePayload)) :
    live (l.filter isLive) = live l := by
  unfold live
  rw [List.countP_filter]
  congr 1
  funext e
  simp

theorem call_total_law (c : Call) (w : World) :
    immediate (c.events w) ≤ invoked (c.events w) ∧
      invoked (c.events w) + live (c.spec w).Timer.FramePayloads =
        immediate (c.events w) + deferred (c.events w) + live w.Timer.FramePayloads := by
  cases c with
  | Create d f =>
    obtain ⟨h1, h2⟩ := createEvents_total_law w.GFrameCounter d f
    have hl : live (createPayloads w.GFrameCounter d f) =
        (createPayloads w.GFrameCounter d f).length :=
      live_of_allLive _ (fun e he => isDead_of_inert _ e (createPayloads_inert _ _ _ e he))
    simp only [Call.events, Call.spec, Cybergem.Create_eq, World.extend, live_append]
    omega
  | Tick dt =>
    cases he : earlyExit w with
    | true =>
      simp [Call.events, Call.spec, he, TickSpec_early w he, invoked, immediate, deferred]
    | false =>
      obtain ⟨h1, h2⟩ := pass_total_law w.GFrameCounter w.Timer.FramePayloads
      have hl : live (passPayloads w.GFrameCounter w.Timer.FramePayloads) =
          (passPayloads w.GFrameCounter w.Timer.FramePayloads).length :=
        live_of_allLive _ (fun e he => isDead_of_inert _ e (passPayloads_inert _ _ e he))
      simp only [Call.events, Call.spec, he, Bool.false_eq_true, if_false, TickSpec_pass w he,
        passSpec, live_append, live_filter_isLive]
      simp only [invoked, immediate, deferred, List.countP_cons, Event.isInvokeAny,
        Event.isImmediate, Event.isDeferred] at *
      simp
      omega
  | StartTicking =>
    by_cases hr : w.Timer.bTickRegistered = true <;>
      simp [Call.events, Call.spec, Cybergem.StartTicking, hr, invoked, immediate, deferred]
  | Frame g => simp [Call.events, Call.spec, invoked, immediate, deferred]

theorem run_total_law : ∀ (calls : List Call) (w : World),
    immediate (runEvents calls w) ≤ invoked (runEvents calls w) ∧
      invoked (runEvents calls w) + live (runSpec calls w).Timer.FramePayloads =
        immediate (runEvents calls w) + deferred (runEvents calls w) +
          live w.Timer.FramePayloads := by
  intro calls
  induction calls with
  | nil => intro w; simp [runEvents, runSpec, invoked, immediate, deferred]
  | cons c cs ih =>
    intro w
    obtain ⟨h1, h2⟩ := call_total_law c w
    obtain ⟨i1, i2⟩ := ih (c.spec w)
    simp only [runEvents, runSpec, invoked_append, immediate_append, deferred_append]
    omega

/-- C13: after any sequence of calls on a freshly constructed timer (with enough
budget), `Num()` is the number of callbacks passed to `Create` with a non-zero
delay that have not been executed yet.  In the log `es` of the sequence, every
`Create` call with delay zero has run its callback at once, so the callbacks
executed after a delay number `invoked es - immediate es`; `Num()` plus that
number equals the number `deferred es` of `Create` calls with a non-zero delay.
`AllTimersDone()` is true exactly when `Num()` is 0, that is exactly when every
deferred callback has been executed. -/
theorem Num_counts_unexecuted :
    ∀ (calls : List Call) (GFrameCounter LastTickFrame : Nat),
      ∃ N, ∀ fuel, N ≤ fuel →
        ∃ (w1 : World) (es : List Event),
          run fuel calls (World.fresh GFrameCounter LastTickFrame) = .ok w1 ∧
          w1.Log = es ∧
          immediate es ≤ invoked es ∧
          Num w1 + (invoked es - immediate es) = deferred es ∧
          (AllTimersDone w1 = true ↔ Num w1 = 0) ∧
          (AllTimersDone w1 = true ↔ invoked es - immediate es = deferred es) := by
  intro calls g l
  refine ⟨runFuel calls (World.fresh g l), fun fuel hf =>
    ⟨runSpec calls (World.fresh g l), runEvents calls (World.fresh g l),
      run_eq fuel calls _ hf, ?_, ?_⟩⟩
  · rw [runSpec_Log]; simp [World.fresh]
  · obtain ⟨h1, h2⟩ := run_total_law calls (World.fresh g l)
    have hlive : live (runSpec calls (World.fresh g l)).Timer.FramePayloads =
        Num (runSpec calls (World.fresh g l)) :=
      live_of_allLive _ (allLive_runSpec calls _ (by simp [World.fresh, FFrameTimer.new]))
    have h0 : live (World.fresh g l).Timer.FramePayloads = 0 := by
      simp [live, World.fresh, FFrameTimer.new]
    rw [hlive, h0] at h2
    have hA : AllTimersDone (runSpec calls (World.fresh g l)) = true ↔
        Num (runSpec calls (World.fresh g l)) = 0 := by
      simp [AllTimersDone, Num]
    refine ⟨h1, by omega, hA, ?_⟩
    rw [hA]
    omega

/-- Witness for C13: the calls `sampleCalls` on a freshly constructed timer. -/
theorem Num_counts_unexecuted_witness :
    ∃ N, ∀ fuel, N ≤ fuel →
      ∃ (w1 : World) (es : List Event),
        run fuel sampleCalls (World.fresh 10 0) = .ok w1 ∧
        w1.Log = es ∧
        immediate es ≤ invoked es ∧
        Num w1 + (invoked es - immediate es) = deferred es ∧
        (AllTimersDone w1 = true ↔ Num w1 = 0) ∧
        (AllTimersDone w1 = true ↔ invoked es - immediate es = deferred es) :=
  Num_counts_unexecuted sampleCalls 10 0

/-! ## The timer counts passes -/

theorem passesAfter_append (F : Nat) (a b : List Event) :
    passesAfter F (a ++ b) = passesAfter F a + passesAfter F b := by
  simp [passesAfter, List.countP_append]

theorem passFrames_append (a b : List Event) :
    passFrames (a ++ b) = passFrames a ++ passFrames b := by
  induction a with
  | nil => rfl
  | cons x xs ih =>
    cases x <;> simp [passFrames, ih]

theorem mem_passFrames (f : Nat) (es : List Event) :
    f ∈ passFrames es ↔ Event.pass f ∈ es := by
  induction es with
  | nil => simp [passFrames]
  | cons x xs ih =>
    cases x <;> simp [passFrames, ih]

theorem passFrames_of_no_pass (es : List Event) (h : ∀ f, Event.pass f ∉ es) :
    passFrames es = [] := by
  apply List.eq_nil_iff_forall_not_mem.2
  intro f hf
  exact h f ((mem_passFrames f es).1 hf)

theorem passesAfter_of_no_pass (F : Nat) (es : List Event) (h : ∀ f, Event.pass f ∉ es) :
    passesAfter F es = 0 := by
  unfold passesAfter
  rw [List.countP_eq_zero]
  intro e he
  cases e with
  | pass g => exact absurd he (h g)
  | create _ _ _ => simp [Event.isPassAfter]
  | invoke _ _ => simp [Event.isPassAfter]

theorem passesAfter_eq_length (F : Nat) (es : List Event) :
    passesAfter F es = (passFramesAfter F es).length := by
  induction es with
  | nil => rfl
  | cons x xs ih =>
    unfold passesAfter passFramesAfter at *
    cases x with
    | pass g =>
      by_cases hg : F < g <;>
        simp [List.countP_cons, Event.isPassAfter, passFrames, List.filter_cons, hg, ih]
    | create _ _ _ => simpa [List.countP_cons, Event.isPassAfter, passFrames] using ih
    | invoke _ _ => simpa [List.countP_cons, Event.isPassAfter, passFrames] using ih

theorem remaining_step (c : Call) (w : World) (F r : Nat) (f : StdFunction)
    (hq : some ⟨false, F, r, f⟩ ∈ w.Timer.FramePayloads) (hr64 : r < U64)
    (hk : passesAfter F (c.events w) < r) :
    some ⟨false, F, r - passesAfter F (c.events w), f⟩ ∈ (c.spec w).Timer.FramePayloads := by
  cases c with
  | Create d fn =>
    have h0 : passesAfter F ((Call.Create d fn).events w) = 0 :=
      passesAfter_of_no_pass F _ (fun f1 => createEvents_no_pass _ f1 d fn)
    rw [h0]
    simp only [Call.spec, Cybergem.Create_eq, World.extend, List.mem_append, Nat.sub_zero]
    exact Or.inl hq
  | Tick dt =>
    cases he : earlyExit w with
    | true =>
      simp only [Call.events, Call.spec, he, if_true, TickSpec_early w he]
      simpa [passesAfter] using hq
    | false =>
      have hno : passesAfter F (passEvents w.GFrameCounter w.Timer.FramePayloads) = 0 :=
        passesAfter_of_no_pass F _ (fun f1 => passEvents_no_pass _ f1 _)
      have hev : passesAfter F ((Call.Tick dt).events w) =
          if F < w.GFrameCounter then 1 else 0 := by
        simp only [Call.events, he, Bool.false_eq_true, if_false]
        rw [show Event.pass w.GFrameCounter ::
            passEvents w.GFrameCounter w.Timer.FramePayloads =
            [Event.pass w.GFrameCounter] ++
              passEvents w.GFrameCounter w.Timer.FramePayloads from rfl,
          passesAfter_append, hno]
        by_cases hg : F < w.GFrameCounter <;>
          simp [passesAfter, List.countP_cons, Event.isPassAfter, hg]
      rw [hev] at hk ⊢
      by_cases hg : F < w.GFrameCounter
      · simp only [hg, if_true] at hk ⊢
        simp only [Call.spec, TickSpec_pass w he]
        exact pass_waits w F r f hq hg (by omega) hr64
      · simp only [hg, if_false, Nat.sub_zero]
        simp only [Call.spec]
        exact Tick_idle w F r f hq (by omega)
  | StartTicking =>
    have : (Cybergem.StartTicking w).Timer.FramePayloads = w.Timer.FramePayloads := by
      by_cases hr : w.Timer.bTickRegistered = true <;> simp [Cybergem.StartTicking, hr]
    simp only [Call.events, Call.spec, this]
    simpa [passesAfter] using hq
  | Frame g =>
    simp only [Call.events, Call.spec]
    simpa [passesAfter] using hq

theorem remaining_run (F : Nat) (f : StdFunction) : ∀ (calls : List Call) (w : World) (r : Nat),
    some ⟨false, F, r, f⟩ ∈ w.Timer.FramePayloads → r < U64 →
    passesAfter F (runEvents calls w) < r →
    some ⟨false, F, r - passesAfter F (runEvents calls w), f⟩ ∈
      (runSpec calls w).Timer.FramePayloads := by
  intro calls
  induction calls with
  | nil =>
    intro w r hq _ _
    simpa [runEvents, runSpec, passesAfter] using hq
  | cons c cs ih =>
    intro w r hq hr64 hk
    simp only [runEvents, passesAfter_append] at hk
    have h1 := remaining_step c w F r f hq hr64 (by omega)
    have h2 := ih (c.spec w) (r - passesAfter F (c.events w)) h1 (by omega) (by omega)
    simp only [runEvents, runSpec, passesAfter_append]
    have hsub : r - (passesAfter F (c.events w) + passesAfter F (runEvents cs (c.spec w))) =
        r - passesAfter F (c.events w) - passesAfter F (runEvents cs (c.spec w)) := by
      omega
    rw [hsub]
    exact h2

theorem SortedInv_same (es ev : List Event) (w v : World)
    (hno : ∀ f, Event.pass f ∉ ev) (hg : v.GFrameCounter = w.GFrameCounter)
    (hl : v.Timer.LastTickFrame = w.Timer.LastTickFrame) (h : SortedInv es w) :
    SortedInv (es ++ ev) v := by
  obtain ⟨h1, h2, h3⟩ := h
  have hpf : passFrames (es ++ ev) = passFrames es := by
    rw [passFrames_append, passFrames_of_no_pass ev hno, List.append_nil]
  unfold SortedInv
  rw [hpf, hg, hl]
  exact ⟨h1, h2, h3⟩

theorem SortedInv_pass (es : List Event) (w : World) (he : earlyExit w = false)
    (h : SortedInv es w) :
    SortedInv (es ++ Event.pass w.GFrameCounter ::
      passEvents w.GFrameCounter w.Timer.FramePayloads) (passSpec w) := by
  obtain ⟨h1, h2, h3⟩ := h
  have hnot : w.GFrameCounter ∉ passFrames es :=
    fun hin => LastTickFrame_ne_of_pass w he (h3 hin)
  have hpf : passFrames (es ++ Event.pass w.GFrameCounter ::
      passEvents w.GFrameCounter w.Timer.FramePayloads) =
      passFrames es ++ [w.GFrameCounter] := by
    rw [passFrames_append]
    simp only [passFrames]
    rw [passFrames_of_no_pass _ (fun f1 => passEvents_no_pass _ f1 _)]
  unfold SortedInv
  rw [hpf]
  have hg : (passSpec w).GFrameCounter = w.GFrameCounter := rfl
  have hl : (passSpec w).Timer.LastTickFrame = w.GFrameCounter := rfl
  rw [hg, hl]
  refine ⟨?_, ?_, fun _ => rfl⟩
  · rw [List.pairwise_append]
    refine ⟨h1, by simp, ?_⟩
    intro a ha b hb
    simp only [List.mem_singleton] at hb
    subst hb
    have hle := h2 a ha
    have hne : a ≠ w.GFrameCounter := fun hc => hnot (hc ▸ ha)
    omega
  · intro f hf
    rcases List.mem_append.1 hf with hf | hf
    · exact h2 f hf
    · simp only [List.mem_singleton] at hf
      omega

theorem SortedInv_step (c : Call) (w : World) (es : List Event)
    (hmono : nonDecreasing w.GFrameCounter [c] = true) (h : SortedInv es w) :
    SortedInv (es ++ c.events w) (c.spec w) := by
  cases c with
  | Create d f =>
    exact SortedInv_same es _ w _ (fun f1 => createEvents_no_pass _ f1 d f)
      (Create_GFrameCounter d f w) (Create_LastTickFrame w d f) h
  | Tick dt =>
    cases he : earlyExit w with
    | true =>
      simp only [Call.events, Call.spec, he, if_true, List.append_nil, TickSpec_early w he]
      exact h
    | false =>
      simp only [Call.events, Call.spec, he, Bool.false_eq_true, if_false, TickSpec_pass w he]
      exact SortedInv_pass es w he h
  | StartTicking =>
    refine SortedInv_same es _ w _ (by simp [Call.events]) (StartTicking_GFrameCounter w) ?_ h
    by_cases hr : w.Timer.bTickRegistered = true <;> simp [Call.spec, Cybergem.StartTicking, hr]
  | Frame g =>
    obtain ⟨h1, h2, h3⟩ := h
    simp only [nonDecreasing, Bool.and_true, decide_eq_true_eq] at hmono
    simp only [Call.events, List.append_nil, Call.spec]
    refine ⟨h1, fun f hf => le_trans (h2 f hf) hmono, ?_⟩
    intro hf
    have hle : g ≤ w.GFrameCounter := h2 g hf
    have heq : g = w.GFrameCounter := le_antisymm hle hmono
    show w.Timer.LastTickFrame = g
    rw [heq]
    exact h3 (heq ▸ hf)

theorem SortedInv_run : ∀ (calls : List Call) (w : World) (es : List Event),
    nonDecreasing w.GFrameCounter calls = true → SortedInv es w →
    SortedInv (es ++ runEvents calls w) (runSpec calls w) := by
  intro calls
  induction calls with
  | nil => intro w es _ h; simpa [runEvents, runSpec] using h
  | cons c cs ih =>
    intro w es hmono h
    obtain ⟨h1, h2⟩ := nonDecreasing_cons c cs w hmono
    have := ih (c.spec w) (es ++ c.events w) h2 (SortedInv_step c w es h1 h)
    simpa [runEvents, runSpec, List.append_assoc] using this

/-- In a strictly increasing list of frames after `F`, the entry of index `j`
is at least `F + j + 1`. -/
theorem increasing_lower (F : Nat) (l : List Nat) (hs : l.Pairwise (fun a b => a < b))
    (hF : ∀ x ∈ l, F < x) : ∀ (j : Nat) (hj : j < l.length), F + j + 1 ≤ l[j] := by
  intro j
  induction j with
  | zero =>
    intro hj
    have := hF l[0] (List.getElem_mem _)
    omega
  | succ k ih =>
    intro hj
    have h1 := ih (by omega)
    have h2 := (List.pairwise_iff_getElem.1 hs) k (k + 1) (by omega) hj (by omega)
    omega

/-- If the entry of index `j` is exactly `F + j + 1`, the entries before it are
the frames `F + 1, F + 2, ...` without a gap. -/
theorem increasing_tight (F : Nat) (l : List Nat) (hs : l.Pairwise (fun a b => a < b))
    (hF : ∀ x ∈ l, F < x) (j : Nat) (hj : j < l.length) (heq : l[j] = F + j + 1) :
    ∀ (k i : Nat) (hi : i < l.length), i + k = j → l[i] = F + i + 1 := by
  intro k
  induction k with
  | zero =>
    intro i hi hik
    have : i = j := by omega
    subst this
    exact heq
  | succ k ih =>
    intro i hi hik
    have hi1 : i + 1 < l.length := by omega
    have h1 := ih (i + 1) hi1 (by omega)
    have h2 := (List.pairwise_iff_getElem.1 hs) i (i + 1) hi hi1 (by omega)
    have h3 := increasing_lower F l hs hF i hi
    omega

theorem increasing_gap (F : Nat) (l : List Nat) (hs : l.Pairwise (fun a b => a < b))
    (hF : ∀ x ∈ l, F < x) (j : Nat) (hj : j < l.length) (h : Nat) (h1 : F < h)
    (h2 : h ≤ F + j + 1) (hnot : h ∉ l) : F + j + 1 < l[j] := by
  have hlow := increasing_lower F l hs hF j hj
  by_contra hc
  have heq : l[j] = F + j + 1 := by omega
  have hi : h - F - 1 < l.length := by omega
  have := increasing_tight F l hs hF j hj heq (j - (h - F - 1)) (h - F - 1) hi (by omega)
  apply hnot
  have hh : l[h - F - 1] = h := by omega
  rw [← hh]
  exact List.getElem_mem _

theorem passFramesAfter_pass (F : Nat) (es : List Event) (w : World)
    (hg : F < w.GFrameCounter) :
    passFramesAfter F (es ++ Event.pass w.GFrameCounter ::
      passEvents w.GFrameCounter w.Timer.FramePayloads) =
      passFramesAfter F es ++ [w.GFrameCounter] := by
  unfold passFramesAfter
  rw [passFrames_append]
  simp only [passFrames]
  rw [passFrames_of_no_pass _ (fun f1 => passEvents_no_pass _ f1 _)]
  simp [List.filter_append, List.filter_cons, hg]

/-- C17: the timer counts evaluation passes, not frames.
First part: in every world that holds a pending payload created at frame `F`
with `r` frames left (`r` a `uint64`; right after `Create(d, f)` this is
`r = d`), after any sequence of calls (with enough budget) in whose log fewer
than `r` passes ran at frames after `F`, the payload is still pending and has
`r` minus that number of frames left.
Second part: when `r - 1` such passes have run, a `Tick` that runs a pass at a
frame after `F` invokes the function; that pass is the `r`-th pass after `F` of
the log.
Third part: over a sequence of calls in which the frame counter never
decreases, the passes run at strictly increasing frames, so the pass number
`j + 1` after `F` runs at a frame `g ≥ F + j + 1`, and at a frame
`g > F + j + 1` as soon as one of the frames `F + 1 .. F + j + 1` had no pass:
with a pass missing, a delay of `d` ends later than frame `F + d`. -/
theorem timer_counts_passes :
    (∀ (calls : List Call) (w : World) (F r : Nat) (f : StdFunction),
      some ⟨false, F, r, f⟩ ∈ w.Timer.FramePayloads → r < U64 →
      ∃ N, ∀ fuel, N ≤ fuel →
        ∃ (w1 : World) (es : List Event), run fuel calls w = .ok w1 ∧
          w1.Log = w.Log ++ es ∧
          (passesAfter F es < r →
            some ⟨false, F, r - passesAfter F es, f⟩ ∈ w1.Timer.FramePayloads)) ∧
    (∀ (calls : List Call) (w : World) (F r : Nat) (f : StdFunction) (DeltaTime : float),
      some ⟨false, F, r, f⟩ ∈ w.Timer.FramePayloads → 1 ≤ r → r < U64 →
      ∃ N, ∀ fuel, N ≤ fuel →
        ∃ (w1 : World) (es : List Event), run fuel calls w = .ok w1 ∧
          w1.Log = w.Log ++ es ∧
          (passesAfter F es = r - 1 → F < w1.GFrameCounter → earlyExit w1 = false →
            ∃ (w2 : World) (es2 : List Event), Tick fuel DeltaTime w1 = .ok (true, w2) ∧
              w2.Log = w1.Log ++ es2 ∧
              Event.invoke f.Name w1.GFrameCounter ∈ es2 ∧
              passFramesAfter F (es ++ es2) = passFramesAfter F es ++ [w1.GFrameCounter] ∧
              (passFramesAfter F (es ++ es2))[r - 1]? = some w1.GFrameCounter)) ∧
    (∀ (calls : List Call) (w : World), nonDecreasing w.GFrameCounter calls = true →
      ∃ N, ∀ fuel, N ≤ fuel →
        ∃ (w1 : World) (es : List Event), run fuel calls w = .ok w1 ∧
          w1.Log = w.Log ++ es ∧
          (passFrames es).Pairwise (fun a b => a < b) ∧
          ∀ (F j g : Nat), (passFramesAfter F es)[j]? = some g →
            F + j + 1 ≤ g ∧
            ((∃ h, F < h ∧ h ≤ F + j + 1 ∧ Event.pass h ∉ es) → F + j + 1 < g)) := by
  refine ⟨?_, ?_, ?_⟩
  · intro calls w F r f hq hr64
    exact ⟨runFuel calls w, fun fuel hf => ⟨runSpec calls w, runEvents calls w,
      run_eq fuel calls w hf, runSpec_Log calls w,
      fun hk => remaining_run F f calls w r hq hr64 hk⟩⟩
  · intro calls w F r f dt hq hr hr64
    refine ⟨max (runFuel calls w) (passFuel (runSpec calls w)), fun fuel hf =>
      ⟨runSpec calls w, runEvents calls w,
        run_eq fuel calls w (le_trans (le_max_left _ _) hf), runSpec_Log calls w, ?_⟩⟩
    intro hk hg he
    have hmem := remaining_run F f calls w r hq hr64 (by omega)
    have hone : r - passesAfter F (runEvents calls w) = 1 := by omega
    rw [hone] at hmem
    refine ⟨passSpec (runSpec calls w), Event.pass (runSpec calls w).GFrameCounter ::
      passEvents (runSpec calls w).GFrameCounter (runSpec calls w).Timer.FramePayloads,
      ?_, rfl, List.mem_cons_of_mem _ (pass_fires _ F f hmem hg),
      passFramesAfter_pass F _ _ hg, ?_⟩
    · rw [Tick_eq fuel dt _ (le_trans (le_max_right _ _) hf), TickSpec_pass _ he]
    · rw [passFramesAfter_pass F _ _ hg]
      have hlen : (passFramesAfter F (runEvents calls w)).length = r - 1 := by
        rw [← passesAfter_eq_length, hk]
      rw [← hlen]
      exact getElem?_mid _ _ []
  · intro calls w hmono
    refine ⟨runFuel calls w, fun fuel hf => ⟨runSpec calls w, runEvents calls w,
      run_eq fuel calls w hf, runSpec_Log calls w, ?_⟩⟩
    have hinv := SortedInv_run calls w [] hmono
      ⟨by simp [passFrames], by simp [passFrames], by simp [passFrames]⟩
    simp only [List.nil_append] at hinv
    have hsorted := hinv.1
    refine ⟨hsorted, ?_⟩
    intro F j g hget
    have hs2 : (passFramesAfter F (runEvents calls w)).Pairwise (fun a b => a < b) :=
      List.Pairwise.filter _ hsorted
    have hF : ∀ x ∈ passFramesAfter F (runEvents calls w), F < x := by
      intro x hx
      unfold passFramesAfter at hx
      simpa using (List.mem_filter.1 hx).2
    have hj : j < (passFramesAfter F (runEvents calls w)).length := by
      by_contra hc
      rw [List.getElem?_eq_none (by omega)] at hget
      cases hget
    have hgj : (passFramesAfter F (runEvents calls w))[j] = g := by
      rw [List.getElem?_eq_getElem hj] at hget
      exact Option.some.inj hget
    refine ⟨?_, ?_⟩
    · rw [← hgj]; exact increasing_lower F _ hs2 hF j hj
    · rintro ⟨h, h1, h2, h3⟩
      rw [← hgj]
      apply increasing_gap F _ hs2 hF j hj h h1 h2
      intro hin
      unfold passFramesAfter at hin
      exact h3 ((mem_passFrames h _).1 (List.mem_filter.1 hin).1)

/-- Witness for C17: the payload of `samplePass` that was created at frame 1 and
has two frames left; one `Tick` at frame 5 leaves it one frame, and the `Tick`
of frame 7 invokes it. -/
theorem timer_counts_passes_witness :
    (some ⟨false, 1, 2, ⟨3, .done⟩⟩ ∈ samplePass.Timer.FramePayloads ∧ 2 < U64 ∧
      ∃ N, ∀ fuel, N ≤ fuel →
        ∃ (w1 : World) (es : List Event), run fuel [Call.Tick 0] samplePass = .ok w1 ∧
          w1.Log = samplePass.Log ++ es ∧
          (passesAfter 1 es < 2 →
            some ⟨false, 1, 2 - passesAfter 1 es, ⟨3, .done⟩⟩ ∈ w1.Timer.FramePayloads)) ∧
    (1 ≤ 2 ∧
      ∃ N, ∀ fuel, N ≤ fuel →
        ∃ (w1 : World) (es : List Event),
          run fuel [Call.Tick 0, Call.Frame 7] samplePass = .ok w1 ∧
          w1.Log = samplePass.Log ++ es ∧
          (passesAfter 1 es = 2 - 1 → 1 < w1.GFrameCounter → earlyExit w1 = false →
            ∃ (w2 : World) (es2 : List Event), Tick fuel 0 w1 = .ok (true, w2) ∧
              w2.Log = w1.Log ++ es2 ∧
              Event.invoke (StdFunction.mk 3 .done).Name w1.GFrameCounter ∈ es2 ∧
              passFramesAfter 1 (es ++ es2) = passFramesAfter 1 es ++ [w1.GFrameCounter] ∧
              (passFramesAfter 1 (es ++ es2))[2 - 1]? = some w1.GFrameCounter)) ∧
    (nonDecreasing samplePass.GFrameCounter [Call.Tick 0, Call.Frame 7, Call.Tick 0] = true ∧
      ∃ N, ∀ fuel, N ≤ fuel →
        ∃ (w1 : World) (es : List Event),
          run fuel [Call.Tick 0, Call.Frame 7, Call.Tick 0] samplePass = .ok w1 ∧
          w1.Log = samplePass.Log ++ es ∧
          (passFrames es).Pairwise (fun a b => a < b) ∧
          ∀ (F j g : Nat), (passFramesAfter F es)[j]? = some g →
            F + j + 1 ≤ g ∧
            ((∃ h, F < h ∧ h ≤ F + j + 1 ∧ Event.pass h ∉ es) → F + j + 1 < g)) :=
  ⟨⟨by decide, by decide,
      timer_counts_passes.1 [Call.Tick 0] samplePass 1 2 ⟨3, .done⟩ (by decide) (by decide)⟩,
    ⟨by decide,
      timer_counts_passes.2.1 [Call.Tick 0, Call.Frame 7] samplePass 1 2 ⟨3, .done⟩ 0
        (by decide) (by decide) (by decide)⟩,
    ⟨by decide,
      timer_counts_passes.2.2 [Call.Tick 0, Call.Frame 7, Call.Tick 0] samplePass
        (by decide)⟩⟩

/-! ## Termination of the forward loop -/

/-- With a budget of at most the number of inert entries left, the forward loop
runs out of budget. -/
theorem TickLoop_inert_short : ∀ (fresh pre : List (Option FFramePayload)) (Dead : List Nat)
    (w : World) (fuel : Nat),
    w.Timer.FramePayloads = pre ++ fresh →
    (∀ e ∈ fresh, inert w.GFrameCounter e = true) →
    fuel ≤ fresh.length →
    TickLoop fuel pre.length Dead w = .error .fuel := by
  intro fresh
  induction fresh with
  | nil =>
    intro pre Dead w fuel _ _ hfuel
    have : fuel = 0 := by simpa using hfuel
    subst this
    rfl
  | cons e rest ih =>
    intro pre Dead w fuel h hin hfuel
    cases fuel with
    | zero => rfl
    | succ f =>
      have hlt : pre.length < w.Timer.FramePayloads.length := by simp [h]
      have hget : w.Timer.FramePayloads[pre.length]? = some e := by
        rw [h]; exact getElem?_mid pre e rest
      have he : inert w.GFrameCounter e = true := hin e (List.mem_cons_self _ _)
      cases e with
      | none => simp [inert] at he
      | some p =>
        have hrec := ih (pre ++ [some p]) Dead w f (by simp [h])
          (fun x hx => hin x (List.mem_cons_of_mem _ hx))
          (by simp at hfuel; omega)
        simp only [List.length_append, List.length_singleton] at hrec
        rw [TickLoop, if_pos hlt]
        simp only [hget, TickFrame_inert pre.length p w he]
        simpa using hrec

/-- With a budget of at most the number of iterations left (one per entry still
to visit, per inert entry and per payload emplaced on the way), the forward loop
runs out of budget. -/
theorem TickLoop_short : ∀ (todo pre fresh : List (Option FFramePayload)) (Dead : List Nat)
    (w : World) (fuel : Nat),
    w.Timer.FramePayloads = pre ++ todo ++ fresh →
    (∀ e ∈ fresh, inert w.GFrameCounter e = true) →
    fuel ≤ todo.length + fresh.length + (passPayloads w.GFrameCounter todo).length →
    TickLoop fuel pre.length Dead w = .error .fuel := by
  intro todo
  induction todo with
  | nil =>
    intro pre fresh Dead w fuel h hin hfuel
    have h0 : w.Timer.FramePayloads = pre ++ fresh := by simpa using h
    exact TickLoop_inert_short fresh pre Dead w fuel h0 hin
      (by simp [passPayloads] at hfuel; omega)
  | cons e rest ih =>
    intro pre fresh Dead w fuel h hin hfuel
    cases fuel with
    | zero => rfl
    | succ f =>
      have hlt : pre.length < w.Timer.FramePayloads.length := by simp [h]
      have hget : w.Timer.FramePayloads[pre.length]? = some e := by
        rw [h, List.append_assoc]; exact getElem?_mid pre e (rest ++ fresh)
      simp only [passPayloads, List.length_cons, List.length_append] at hfuel
      cases e with
      | none =>
        have hrec := ih (pre ++ [none]) fresh (Dead ++ [pre.length]) w f (by simp [h]) hin
          (by simp [entryPayloads] at hfuel; omega)
        simp only [List.length_append, List.length_singleton] at hrec
        rw [TickLoop, if_pos hlt]
        simp only [hget]
        exact hrec
      | some p =>
        have hstore : (w.store pre.length (p.tick w.GFrameCounter)).Timer.FramePayloads =
            pre ++ [some (p.tick w.GFrameCounter)] ++ rest ++ fresh := by
          simp [World.store, World.setPayloads, h]
        have hrec := ih (pre ++ [some (p.tick w.GFrameCounter)])
          (fresh ++ entryPayloads w.GFrameCounter (some p))
          (if (p.tick w.GFrameCounter).bDone then Dead ++ [pre.length] else Dead)
          ((w.store pre.length (p.tick w.GFrameCounter)).extend
            (entryPayloads w.GFrameCounter (some p)) (entryEvents w.GFrameCounter (some p))) f
          (by simp [World.extend, hstore])
          (by
            intro x hx
            rcases List.mem_append.1 hx with hx | hx
            · exact hin x hx
            · exact entryPayloads_inert _ _ x hx)
          (by
            simp only [World.extend_GFrameCounter, List.length_append]
            have : (w.store pre.length (p.tick w.GFrameCounter)).GFrameCounter =
              w.GFrameCounter := rfl
            rw [this]; omega)
        simp only [List.length_append, List.length_singleton] at hrec
        rw [TickLoop, if_pos hlt]
        simp only [hget, TickFrame_eq pre.length p w hget]
        cases hd : (p.tick w.GFrameCounter).bDone with
        | true =>
          simp only [hd, if_true] at hrec
          simp only [Bool.not_true, Bool.false_eq_true, if_false]
          exact hrec
        | false =>
          simp only [hd, Bool.false_eq_true, if_false] at hrec
          simp only [Bool.not_false, if_true]
          exact hrec

theorem passPayloads_length (g : Nat) (l : List (Option FFramePayload)) :
    (passPayloads g l).length = deferred (passEvents g l) := by
  induction l with
  | nil => simp [passPayloads, passEvents, deferred]
  | cons x xs ih =>
    have hx : (entryPayloads g x).length = deferred (entryEvents g x) := by
      cases x with
      | none => simp [entryPayloads, entryEvents, deferred]
      | some p =>
        by_cases hf : p.fires g = true
        · simp only [entryPayloads, entryEvents, hf, if_true, StdFunction.events]
          rw [(code_total_law g p.Func.Body).2]
          simp [deferred, List.countP_cons, Event.isDeferred]
        · simp [entryPayloads, entryEvents, hf, deferred]
    simp only [passPayloads, passEvents, List.length_append, deferred_append]
    omega

theorem Code.payloads_CreationFrame (g : Nat) (c : Code) :
    ∀ p, some p ∈ c.payloads g → p.CreationFrame = g := by
  induction c with
  | done => intro p hp; simp [Code.payloads] at hp
  | create d n b k ihb ihk =>
    intro p hp
    simp only [Code.payloads, List.mem_append] at hp
    rcases hp with hp | hp
    · by_cases hd : d = 0
      · simp only [hd, if_true] at hp
        exact ihb p hp
      · simp only [hd, if_false, List.mem_singleton, Option.some.injEq] at hp
        subst hp
        rfl
    · exact ihk p hp

/-- C19: every pass terminates, although the invoked functions append payloads
to the array being iterated.  From every world, the forward loop started by a
pass needs exactly `Num()` at pass start plus the number of payloads appended
during the pass iterations (and the final test of the loop condition): with that
budget it ends, with less it does not.  It ends with the entries present at
pass start, each ticked once, followed by the appended payloads as they were
constructed; every appended payload is inert at the frame of the pass
(`TickFrame` on it returns `false` and changes nothing), so the appended
payloads are visited and do not fire; the log holds only the events of the
entries present at pass start; the appended payloads are exactly those of the
`Create` calls with a non-zero delay logged during the pass; and `Tick` itself
returns with this budget. -/
theorem pass_terminates (w : World) :
    passFuel w = Num w + (passPayloads w.GFrameCounter w.Timer.FramePayloads).length + 1 ∧
    (∀ fuel, passFuel w ≤ fuel →
      ∃ (DeadPayloads : List Nat) (w1 : World),
        TickLoop fuel 0 [] (beginPass w) = .ok (DeadPayloads, w1) ∧
        w1.Timer.FramePayloads =
          w.Timer.FramePayloads.map (tickEntry w.GFrameCounter) ++
            passPayloads w.GFrameCounter w.Timer.FramePayloads ∧
        w1.Timer.FramePayloads.length =
          Num w + (passPayloads w.GFrameCounter w.Timer.FramePayloads).length ∧
        w1.Log = w.Log ++ Event.pass w.GFrameCounter ::
          passEvents w.GFrameCounter w.Timer.FramePayloads ∧
        ∀ DeltaTime, ∃ w2, Tick fuel DeltaTime w = .ok (true, w2)) ∧
    (∀ fuel, fuel < passFuel w → TickLoop fuel 0 [] (beginPass w) = .error .fuel) ∧
    (∀ e ∈ passPayloads w.GFrameCounter w.Timer.FramePayloads,
      ∃ p, e = some p ∧ p.bDone = false ∧ p.CreationFrame = w.GFrameCounter ∧
        ∀ (j : Nat) (v : World), v.GFrameCounter = w.GFrameCounter →
          TickFrame j p v = (false, v)) ∧
    (passPayloads w.GFrameCounter w.Timer.FramePayloads).length =
      deferred (passEvents w.GFrameCounter w.Timer.FramePayloads) := by
  refine ⟨rfl, ?_, ?_, ?_, passPayloads_length _ _⟩
  · intro fuel hf
    refine ⟨_, loopSpec w, forward_loop_eq w fuel hf, rfl, ?_, rfl,
      fun dt => ⟨TickSpec w, Tick_eq fuel dt w hf⟩⟩
    simp [loopSpec, Num]
  · intro fuel hf
    have h := TickLoop_short w.Timer.FramePayloads [] [] [] (beginPass w) fuel
      (by simp [beginPass, World.emit]) (by simp)
      (by
        have : (beginPass w).GFrameCounter = w.GFrameCounter := rfl
        rw [this]
        simp only [passFuel, Num] at hf
        simp only [List.length_nil]
        omega)
    simpa using h
  · intro e he
    have hin := passPayloads_inert _ _ e he
    cases e with
    | none => simp [inert] at hin
    | some p =>
      refine ⟨p, rfl, ?_, ?_, ?_⟩
      · simp only [inert, Bool.and_eq_true, Bool.not_eq_true'] at hin
        exact hin.1
      · obtain ⟨x, _, hx⟩ := (mem_passPayloads _ _ _).1 he
        cases x with
        | none => simp [entryPayloads] at hx
        | some q =>
          by_cases hf : q.fires w.GFrameCounter = true
          · simp only [entryPayloads, hf, if_true] at hx
            exact Code.payloads_CreationFrame _ _ p hx
          · simp [entryPayloads, hf] at hx
      · intro j v hv
        apply TickFrame_inert
        rw [hv]
        exact hin

/-- Witness for C19: the pass of `samplePass` takes five iterations (four
entries at pass start, one payload appended) and the final test. -/
theorem pass_terminates_witness :
    passFuel samplePass = 6 ∧
    (∃ (DeadPayloads : List Nat) (w1 : World),
      TickLoop 6 0 [] (beginPass samplePass) = .ok (DeadPayloads, w1) ∧
      w1.Timer.FramePayloads =
        samplePass.Timer.FramePayloads.map (tickEntry samplePass.GFrameCounter) ++
          passPayloads samplePass.GFrameCounter samplePass.Timer.FramePayloads ∧
      w1.Timer.FramePayloads.length =
        Num samplePass +
          (passPayloads samplePass.GFrameCounter samplePass.Timer.FramePayloads).length ∧
      w1.Log = samplePass.Log ++ Event.pass samplePass.GFrameCounter ::
        passEvents samplePass.GFrameCounter samplePass.Timer.FramePayloads ∧
      ∀ DeltaTime, ∃ w2, Tick 6 DeltaTime samplePass = .ok (true, w2)) ∧
    TickLoop 5 0 [] (beginPass samplePass) = .error .fuel :=
  ⟨by decide, (pass_terminates samplePass).2.1 6 (by decide),
    (pass_terminates samplePass).2.2.1 5 (by decide)⟩

/-! ## Draining with one `Tick` per frame -/

theorem Drain_create (B g0 : Nat) (w : World) (d n : Nat) (h : Drain B g0 w)
    (h1 : 1 ≤ d) (h2 : d < U64) (h3 : w.GFrameCounter + d ≤ B) :
    Drain B g0 (Create d ⟨n, .done⟩ w) := by
  obtain ⟨hp, hl⟩ := h
  have hg : (Create d ⟨n, .done⟩ w).GFrameCounter = w.GFrameCounter :=
    Create_GFrameCounter d _ w
  have hpos : d > 0 := h1
  have hne : d ≠ 0 := by omega
  have hpl : (Create d ⟨n, .done⟩ w).Timer.FramePayloads =
      w.Timer.FramePayloads ++ [some ⟨false, w.GFrameCounter, d, ⟨n, .done⟩⟩] := by
    simp [Create_eq, World.extend, createPayloads, hne, FFramePayload.new, hpos]
  refine ⟨?_, ?_⟩
  · intro e he
    rw [hpl] at he
    rw [hg]
    rcases List.mem_append.1 he with he | he
    · exact hp e he
    · simp only [List.mem_singleton] at he
      subst he
      exact ⟨_, rfl, rfl, le_refl _, h1, h2, rfl, fun hc => absurd hc (lt_irrefl _),
        fun _ => h3⟩
  · intro h hh1 hh2
    rw [Create_LastTickFrame]
    exact hl h hh1 hh2

theorem Drain_creates (B g0 : Nat) : ∀ (l : List (Nat × Nat)) (w : World),
    Drain B g0 w → dueBy B w.GFrameCounter l = true →
    Drain B g0 (runSpec (createCalls l) w) ∧
      (runSpec (createCalls l) w).GFrameCounter = w.GFrameCounter := by
  intro l
  induction l with
  | nil => intro w h _; exact ⟨h, rfl⟩
  | cons x xs ih =>
    intro w h hdue
    simp only [dueBy, List.all_cons, Bool.and_eq_true, decide_eq_true_eq] at hdue
    obtain ⟨⟨⟨d1, d2⟩, d3⟩, hrest⟩ := hdue
    have hc := Drain_create B g0 w x.1 x.2 h d1 d2 d3
    have hg : (Create x.1 ⟨x.2, .done⟩ w).GFrameCounter = w.GFrameCounter :=
      Create_GFrameCounter _ _ w
    have := ih (Create x.1 ⟨x.2, .done⟩ w) hc (by rw [hg]; exact hrest)
    have hcc : runSpec (createCalls (x :: xs)) w =
        runSpec (createCalls xs) (Create x.1 ⟨x.2, .done⟩ w) := rfl
    rw [hcc]
    exact ⟨this.1, by rw [this.2, hg]⟩

theorem Drain_frame (B : Nat) (w : World) (h : Drain B w.GFrameCounter w) :
    Drain B w.GFrameCounter ({ w with GFrameCounter := w.GFrameCounter + 1 } : World) := by
  obtain ⟨hp, hl⟩ := h
  refine ⟨?_, hl⟩
  intro e he
  obtain ⟨p, rfl, k1, k2, k3, k4, k5, k6, k7⟩ := hp e he
  refine ⟨p, rfl, k1, ?_, k3, k4, k5, ?_, ?_⟩
  · show p.CreationFrame ≤ w.GFrameCounter + 1
    omega
  · intro _
    by_cases hc : p.CreationFrame < w.GFrameCounter
    · exact k6 hc
    · exact k7 (by omega)
  · intro hc
    have : p.CreationFrame = w.GFrameCounter + 1 := hc
    omega

theorem passPayloads_of_done (g : Nat) (l : List (Option FFramePayload))
    (h : ∀ e ∈ l, ∀ p, e = some p → p.Func.Body = Code.done) : passPayloads g l = [] := by
  induction l with
  | nil => rfl
  | cons x xs ih =>
    have hx : entryPayloads g x = [] := by
      cases x with
      | none => rfl
      | some p =>
        have := h (some p) (List.mem_cons_self _ _) p rfl
        by_cases hf : p.fires g = true
        · simp [entryPayloads, hf, this, Code.payloads]
        · simp [entryPayloads, hf]
    simp only [passPayloads, hx, List.nil_append]
    exact ih (fun e he => h e (List.mem_cons_of_mem _ he))

theorem Drain_tick (B g0 : Nat) (w : World) (hg : w.GFrameCounter = g0 + 1)
    (h : Drain B g0 w) : Drain B (g0 + 1) (TickSpec w) := by
  obtain ⟨hp, hl⟩ := h
  cases he : earlyExit w with
  | true =>
    rw [TickSpec_early w he]
    have hempty : w.Timer.FramePayloads = [] := by
      by_contra hne
      obtain ⟨e, hein⟩ := List.exists_mem_of_ne_nil _ hne
      obtain ⟨p, _, _, k2, k3, _, _, k6, k7⟩ := hp e hein
      have hB : g0 + 1 ≤ B := by
        by_cases hc : p.CreationFrame < w.GFrameCounter
        · have := k6 hc; omega
        · have := k7 (by omega); omega
      have hne2 : w.Timer.LastTickFrame ≠ w.GFrameCounter := by
        rw [hg]; exact hl (g0 + 1) (by omega) hB
      rw [earlyExit_false_of_mem w e hein hne2] at he
      cases he
    refine ⟨?_, fun h hh1 hh2 => hl h (by omega) hh2⟩
    intro e hein
    rw [hempty] at hein
    cases hein
  | false =>
    rw [TickSpec_pass w he]
    have hnone : passPayloads w.GFrameCounter w.Timer.FramePayloads = [] :=
      passPayloads_of_done _ _ (fun e hein p hpe => by
        obtain ⟨q, hq, _, _, _, _, k5, _, _⟩ := hp e hein
        rw [hpe] at hq
        cases hq
        exact k5)
    refine ⟨?_, ?_⟩
    · intro e hein
      simp only [passSpec, hnone, List.append_nil, List.mem_filter, List.mem_map] at hein
      obtain ⟨⟨x, hx, hxe⟩, hlive⟩ := hein
      obtain ⟨p, hpx, k1, k2, k3, k4, k5, k6, k7⟩ := hp x hx
      subst hpx
      simp only [tickEntry] at hxe
      subst hxe
      have hgs : (passSpec w).GFrameCounter = w.GFrameCounter := rfl
      rw [hgs]
      by_cases hc : p.CreationFrame < w.GFrameCounter
      · have hfd : (p.tick w.GFrameCounter).FrameDelay = decr p.FrameDelay := by
          simp [FFramePayload.tick, k1, hc]
        have hbd : (p.tick w.GFrameCounter).bDone = decide (decr p.FrameDelay = 0) := by
          simp [FFramePayload.tick, k1, hc]
        have hcf : (p.tick w.GFrameCounter).CreationFrame = p.CreationFrame := by
          simp [FFramePayload.tick, k1, hc]
        have hnd : (p.tick w.GFrameCounter).bDone = false := by
          simpa [isLive, isDead] using hlive
        rw [hbd] at hnd
        simp only [decide_eq_false_iff_not] at hnd
        rw [decr_of_pos _ k3 k4] at hnd
        have h6 := k6 hc
        refine ⟨_, rfl, ?_, ?_, ?_, ?_, ?_, ?_, ?_⟩
        · rw [hbd]
          simp only [decide_eq_false_iff_not]
          rw [decr_of_pos _ k3 k4]
          exact hnd
        · rw [hcf]; exact k2
        · rw [hfd, decr_of_pos _ k3 k4]; omega
        · rw [hfd]; exact decr_lt _
        · rw [tick_Func]; exact k5
        · intro _
          rw [hfd, decr_of_pos _ k3 k4]
          omega
        · intro hcc
          rw [hcf] at hcc
          omega
      · have ht : p.tick w.GFrameCounter = p := by
          simp [FFramePayload.tick, k1, hc]
        rw [ht]
        have h7 := k7 (by omega)
        exact ⟨p, rfl, k1, k2, k3, k4, k5, fun hcc => absurd hcc hc, fun _ => h7⟩
    · intro h hh1 _
      show w.GFrameCounter ≠ h
      omega

theorem Drain_block (B : Nat) (w : World) (b : List (Nat × Nat) × List (Nat × Nat))
    (h : Drain B w.GFrameCounter w)
    (h1 : dueBy B (w.GFrameCounter + 1) b.1 = true)
    (h2 : dueBy B (w.GFrameCounter + 1) b.2 = true) :
    Drain B (w.GFrameCounter + 1) (runSpec (frameCalls (w.GFrameCounter + 1) b) w) ∧
      (runSpec (frameCalls (w.GFrameCounter + 1) b) w).GFrameCounter =
        w.GFrameCounter + 1 := by
  have hf := Drain_frame B w h
  obtain ⟨c1, c2⟩ := Drain_creates B w.GFrameCounter b.1
    ({ w with GFrameCounter := w.GFrameCounter + 1 } : World) hf h1
  have hg1 : (runSpec (createCalls b.1)
      ({ w with GFrameCounter := w.GFrameCounter + 1 } : World)).GFrameCounter =
      w.GFrameCounter + 1 := c2
  have ht := Drain_tick B w.GFrameCounter _ hg1 c1
  have hg2 : (TickSpec (runSpec (createCalls b.1)
      ({ w with GFrameCounter := w.GFrameCounter + 1 } : World))).GFrameCounter =
      w.GFrameCounter + 1 := by rw [TickSpec_GFrameCounter, hg1]
  obtain ⟨d1, d2⟩ := Drain_creates B (w.GFrameCounter + 1) b.2 _ ht (by rw [hg2]; exact h2)
  simp only [frameCalls, runSpec, Call.spec, runSpec_append]
  exact ⟨d1, by rw [d2, hg2]⟩

theorem Drain_schedule (B : Nat) :
    ∀ (blocks : List (List (Nat × Nat) × List (Nat × Nat))) (w : World),
    Drain B w.GFrameCounter w → scheduleDue B w.GFrameCounter blocks = true →
    Drain B (w.GFrameCounter + blocks.length) (runSpec (schedule w.GFrameCounter blocks) w) ∧
      (runSpec (schedule w.GFrameCounter blocks) w).GFrameCounter =
        w.GFrameCounter + blocks.length := by
  intro blocks
  induction blocks with
  | nil => intro w h _; exact ⟨h, rfl⟩
  | cons b bs ih =>
    intro w h hdue
    simp only [scheduleDue, Bool.and_eq_true] at hdue
    obtain ⟨⟨h1, h2⟩, h3⟩ := hdue
    obtain ⟨k1, k2⟩ := Drain_block B w b h h1 h2
    have := ih (runSpec (frameCalls (w.GFrameCounter + 1) b) w) (by rw [k2]; exact k1)
      (by rw [k2]; exact h3)
    rw [k2] at this
    simp only [schedule, runSpec_append, List.length_cons]
    have hlen : w.GFrameCounter + (bs.length + 1) = w.GFrameCounter + 1 + bs.length := by
      omega
    rw [hlen]
    exact this

theorem Drain_done (B : Nat) (w : World) (h : Drain B B w) (hg : w.GFrameCounter = B) :
    w.Timer.FramePayloads = [] := by
  by_contra hne
  obtain ⟨e, hein⟩ := List.exists_mem_of_ne_nil _ hne
  obtain ⟨p, _, _, k2, k3, _, _, k6, k7⟩ := h.1 e hein
  by_cases hc : p.CreationFrame < w.GFrameCounter
  · have := k6 hc; omega
  · have := k7 (by omega); omega

theorem creates_createCalls (n : Nat) : ∀ (l : List (Nat × Nat)) (w : World),
    creates n (runEvents (createCalls l) w) = named n l := by
  intro l
  induction l with
  | nil => intro w; rfl
  | cons x xs ih =>
    intro w
    have hcc : runEvents (createCalls (x :: xs)) w =
        createEvents w.GFrameCounter x.1 ⟨x.2, .done⟩ ++
          runEvents (createCalls xs) (Create x.1 ⟨x.2, .done⟩ w) := rfl
    rw [hcc, creates_append, ih]
    have h1 : creates n (createEvents w.GFrameCounter x.1 ⟨x.2, .done⟩) =
        if x.2 == n then 1 else 0 := by
      by_cases hd : x.1 = 0 <;> by_cases hn : x.2 = n <;>
        simp [createEvents, creates, StdFunction.events, Code.events, Event.isCreate,
          List.countP_cons, hd, hn]
    rw [h1]
    simp only [named, List.countP_cons]
    omega

theorem creates_passEvents_of_done (n g : Nat) (l : List (Option FFramePayload))
    (h : ∀ e ∈ l, ∀ p, e = some p → p.Func.Body = Code.done) :
    creates n (passEvents g l) = 0 := by
  induction l with
  | nil => rfl
  | cons x xs ih =>
    have hx : creates n (entryEvents g x) = 0 := by
      cases x with
      | none => rfl
      | some p =>
        have := h (some p) (List.mem_cons_self _ _) p rfl
        by_cases hf : p.fires g = true
        · simp [entryEvents, hf, this, StdFunction.events, Code.events, creates,
            Event.isCreate]
        · simp [entryEvents, hf, creates]
    simp only [passEvents, creates_append, hx, Nat.zero_add]
    exact ih (fun e he => h e (List.mem_cons_of_mem _ he))

theorem creates_tick (B g0 n : Nat) (w : World) (h : Drain B g0 w) :
    creates n ((Call.Tick 0).events w) = 0 := by
  cases he : earlyExit w with
  | true => simp [Call.events, he, creates]
  | false =>
    have hp := creates_passEvents_of_done n w.GFrameCounter w.Timer.FramePayloads
      (fun e hein p hpe => by
        obtain ⟨q, hq, _, _, _, _, k5, _, _⟩ := h.1 e hein
        rw [hpe] at hq
        cases hq
        exact k5)
    simp only [Call.events, he, Bool.false_eq_true, if_false]
    have : creates n (Event.pass w.GFrameCounter ::
        passEvents w.GFrameCounter w.Timer.FramePayloads) =
        creates n (passEvents w.GFrameCounter w.Timer.FramePayloads) := by
      simp [creates, List.countP_cons, Event.isCreate]
    rw [this, hp]

theorem creates_block (B n : Nat) (w : World) (b : List (Nat × Nat) × List (Nat × Nat))
    (h : Drain B w.GFrameCounter w)
    (h1 : dueBy B (w.GFrameCounter + 1) b.1 = true) :
    creates n (runEvents (frameCalls (w.GFrameCounter + 1) b) w) =
      named n b.1 + named n b.2 := by
  have hf := Drain_frame B w h
  obtain ⟨c1, _⟩ := Drain_creates B w.GFrameCounter b.1
    ({ w with GFrameCounter := w.GFrameCounter + 1 } : World) hf h1
  have ht := creates_tick B w.GFrameCounter n _ c1
  have hev : runEvents (frameCalls (w.GFrameCounter + 1) b) w =
      runEvents (createCalls b.1) ({ w with GFrameCounter := w.GFrameCounter + 1 } : World) ++
        ((Call.Tick 0).events (runSpec (createCalls b.1)
            ({ w with GFrameCounter := w.GFrameCounter + 1 } : World)) ++
          runEvents (createCalls b.2) (TickSpec (runSpec (createCalls b.1)
            ({ w with GFrameCounter := w.GFrameCounter + 1 } : World)))) := by
    simp only [frameCalls, runEvents, Call.events, Call.spec, runEvents_append,
      List.nil_append]
  rw [hev, creates_append, creates_append, ht, creates_createCalls, creates_createCalls]
  omega

theorem creates_schedule (B n : Nat) :
    ∀ (blocks : List (List (Nat × Nat) × List (Nat × Nat))) (w : World),
    Drain B w.GFrameCounter w → scheduleDue B w.GFrameCounter blocks = true →
    creates n (runEvents (schedule w.GFrameCounter blocks) w) = scheduled n blocks := by
  intro blocks
  induction blocks with
  | nil => intro w _ _; rfl
  | cons b bs ih =>
    intro w h hdue
    simp only [scheduleDue, Bool.and_eq_true] at hdue
    obtain ⟨⟨h1, h2⟩, h3⟩ := hdue
    obtain ⟨k1, k2⟩ := Drain_block B w b h h1 h2
    have := ih (runSpec (frameCalls (w.GFrameCounter + 1) b) w) (by rw [k2]; exact k1)
      (by rw [k2]; exact h3)
    rw [k2] at this
    simp only [schedule, runEvents_append, creates_append, scheduled]
    rw [this, creates_block B n w b h h1]

theorem drains (F ltf : Nat) (init : List (Nat × Nat))
    (blocks : List (List (Nat × Nat) × List (Nat × Nat)))
    (hinit : dueBy (F + blocks.length) F init = true)
    (hblocks : scheduleDue (F + blocks.length) F blocks = true)
    (hltf : ∀ j, 1 ≤ j → j ≤ blocks.length → ltf ≠ F + j) :
    (runSpec (createCalls init ++ schedule F blocks) (World.fresh F ltf)).GFrameCounter =
        F + blocks.length ∧
      (runSpec (createCalls init ++ schedule F blocks)
        (World.fresh F ltf)).Timer.FramePayloads = [] ∧
      ∀ n, invokes n (runEvents (createCalls init ++ schedule F blocks) (World.fresh F ltf)) =
          named n init + scheduled n blocks ∧
        creates n (runEvents (createCalls init ++ schedule F blocks) (World.fresh F ltf)) =
          named n init + scheduled n blocks := by
  have h0 : Drain (F + blocks.length) F (World.fresh F ltf) := by
    refine ⟨fun e he => (by cases he), fun h hh1 hh2 => ?_⟩
    have := hltf (h - F) (by omega) (by omega)
    show ltf ≠ h
    omega
  obtain ⟨c1, c2⟩ := Drain_creates (F + blocks.length) F init (World.fresh F ltf) h0 hinit
  have hg : (runSpec (createCalls init) (World.fresh F ltf)).GFrameCounter = F := c2
  have hs := Drain_schedule (F + blocks.length) blocks
    (runSpec (createCalls init) (World.fresh F ltf)) (by rw [hg]; exact c1)
    (by rw [hg]; exact hblocks)
  rw [hg] at hs
  have hcs := fun n => creates_schedule (F + blocks.length) n blocks
    (runSpec (createCalls init) (World.fresh F ltf)) (by rw [hg]; exact c1)
    (by rw [hg]; exact hblocks)
  rw [hg] at hcs
  have hempty := Drain_done (F + blocks.length) _ hs.1 hs.2
  have hcr : ∀ n, creates n (runEvents (createCalls init ++ schedule F blocks)
      (World.fresh F ltf)) = named n init + scheduled n blocks := by
    intro n
    rw [runEvents_append, creates_append, creates_createCalls, hcs n]
  refine ⟨by rw [runSpec_append]; exact hs.2, by rw [runSpec_append]; exact hempty, ?_⟩
  intro n
  have hlaw := run_count_law n (createCalls init ++ schedule F blocks) (World.fresh F ltf)
  rw [runSpec_append, hempty] at hlaw
  have hp0 : pending n (World.fresh F ltf).Timer.FramePayloads = 0 := rfl
  have hp1 : pending n ([] : List (Option FFramePayload)) = 0 := rfl
  rw [hp0, hp1] at hlaw
  refine ⟨?_, hcr n⟩
  rw [← hcr n]
  omega

/-- C11: draining, with the one exception of a fresh timer whose uninitialised
`LastTickFrame` holds the number of a frame to come.
The timer is built at frame `F`; the host makes the `Create` calls `init` at
frame `F`; then for each of the frames `F + 1 .. B` (`B = F + blocks.length`) it
advances the counter by one, makes `Create` calls, calls `Tick` once, and makes
further `Create` calls.  Every `Create` call passes a `uint64` delay `d ≥ 1`
with creation frame `+ d ≤ B` and a callback that makes no call on the timer.
First part: if the value `LastTickFrame` holds at construction is none of
`F + 1 .. B`, then with enough budget the run returns, at frame `B` `Num()` is 0
and `AllTimersDone()` is true, and every callback name has been invoked exactly
as often as it was passed to `Create` (once, when the names are distinct).
Second part (the failing input): on a fresh timer whose `LastTickFrame` holds 11,
after `Create(1, f1)` and `Create(2, f2)` at frame 10 and one `Tick` in each of the
frames 11 and 12, `Num()` is 1 and `AllTimersDone()` is false at frame 12 and `f2`
has not been invoked: the `Tick` of frame 11 took the early exit. -/
theorem drains_unless_LastTickFrame_garbage :
    (∀ (F ltf : Nat) (init : List (Nat × Nat))
        (blocks : List (List (Nat × Nat) × List (Nat × Nat))),
      dueBy (F + blocks.length) F init = true →
      scheduleDue (F + blocks.length) F blocks = true →
      (∀ j, 1 ≤ j → j ≤ blocks.length → ltf ≠ F + j) →
      ∃ N, ∀ fuel, N ≤ fuel →
        ∃ w1 : World,
          run fuel (createCalls init ++ schedule F blocks) (World.fresh F ltf) = .ok w1 ∧
          w1.GFrameCounter = F + blocks.length ∧
          Num w1 = 0 ∧ AllTimersDone w1 = true ∧
          ∀ n, invokes n w1.Log = named n init + scheduled n blocks ∧
            creates n w1.Log = named n init + scheduled n blocks) ∧
    (∀ fuel, 3 ≤ fuel →
      ∃ w1 : World,
        run fuel (createCalls [(1, 1), (2, 2)] ++ schedule 10 [([], []), ([], [])])
          (World.fresh 10 11) = .ok w1 ∧
        w1.GFrameCounter = 12 ∧ Num w1 = 1 ∧ AllTimersDone w1 = false ∧
        invokes 2 w1.Log = 0 ∧
        w1.Log = [.create 1 1 10, .create 2 2 10, .pass 12, .invoke 1 12]) := by
  refine ⟨?_, ?_⟩
  · intro F ltf init blocks hinit hblocks hltf
    obtain ⟨h1, h2, h3⟩ := drains F ltf init blocks hinit hblocks hltf
    refine ⟨runFuel (createCalls init ++ schedule F blocks) (World.fresh F ltf),
      fun fuel hf => ⟨_, run_eq fuel _ _ hf, h1, ?_, ?_, ?_⟩⟩
    · simp [Num, h2]
    · simp [AllTimersDone, h2]
    · intro n
      have hlog : (runSpec (createCalls init ++ schedule F blocks) (World.fresh F ltf)).Log =
          runEvents (createCalls init ++ schedule F blocks) (World.fresh F ltf) := by
        rw [runSpec_Log]; rfl
      rw [hlog]
      exact h3 n
  · intro fuel hf
    refine ⟨_, run_eq fuel _ _ (le_trans (by decide) hf), ?_⟩
    decide

/-- Witness for C11: the first part on a timer built at frame 10 with
`LastTickFrame` 0, `Create(1, f1)` and `Create(3, f2)` at frame 10, `Create(1, f3)`
before the `Tick` of frame 11 and `Create(1, f4)` after the `Tick` of frame 12,
drained at frame 13. -/
theorem drains_unless_LastTickFrame_garbage_witness :
    dueBy (10 + [([(1, 3)], ([] : List (Nat × Nat))), ([], [(1, 4)]), ([], [])].length) 10
        [(1, 1), (3, 2)] = true ∧
    scheduleDue (10 + [([(1, 3)], ([] : List (Nat × Nat))), ([], [(1, 4)]), ([], [])].length)
        10 [([(1, 3)], []), ([], [(1, 4)]), ([], [])] = true ∧
    (∀ j, 1 ≤ j →
      j ≤ [([(1, 3)], ([] : List (Nat × Nat))), ([], [(1, 4)]), ([], [])].length →
      (0 : Nat) ≠ 10 + j) ∧
    ∃ N, ∀ fuel, N ≤ fuel →
      ∃ w1 : World,
        run fuel (createCalls [(1, 1), (3, 2)] ++
          schedule 10 [([(1, 3)], []), ([], [(1, 4)]), ([], [])]) (World.fresh 10 0) = .ok w1 ∧
        w1.GFrameCounter = 10 + [([(1, 3)], ([] : List (Nat × Nat))), ([], [(1, 4)]),
          ([], [])].length ∧
        Num w1 = 0 ∧ AllTimersDone w1 = true ∧
        ∀ n, invokes n w1.Log = named n [(1, 1), (3, 2)] +
              scheduled n [([(1, 3)], []), ([], [(1, 4)]), ([], [])] ∧
          creates n w1.Log = named n [(1, 1), (3, 2)] +
              scheduled n [([(1, 3)], []), ([], [(1, 4)]), ([], [])] :=
  ⟨by decide, by decide, fun j _ _ => by omega,
    drains_unless_LastTickFrame_garbage.1 10 0 [(1, 1), (3, 2)]
      [([(1, 3)], []), ([], [(1, 4)]), ([], [])] (by decide) (by decide)
      (fun j _ _ => by omega)⟩

end Cybergem
